import Mathlib

/-!
FixedSizeBinaryBuilder (go/arrow/array/fixedsize_binarybuilder.go)

A shallow embedding of the fixed-width binary array builder.  The builder is a
record; every method is a function from the state before the call to either
the state after it or a panic that carries the state at the moment of the
panic (Go methods mutate through a pointer receiver, so what was written
before a panic stays written).

`int` lengths and widths are natural numbers, bytes are natural numbers that
are only ever copied, and a bit region is a list of booleans.
-/

set_option autoImplicit false

namespace FixedSizeBinary

/-! ## Collaborators that are not part of the source file -/

/-- Modelled from the spec: growth policy of the BaseBuilder substrate and of the
ValueBuffer (builder.go and bufferbuilder.go are absent).  The spec leaves the
policy open beyond "capacity ≥ length after every append", so it is a parameter:
`next n` is the capacity chosen when room for `n` units is needed. -/
structure GrowthPolicy where
  next : Nat → Nat
  le_next : ∀ n, n ≤ next n

/-- Modelled from the spec: one admissible growth policy, plain doubling. -/
def doubling : GrowthPolicy := ⟨fun n => 2 * n, fun n => by show n ≤ 2 * n; omega⟩

/-- Modelled from the spec: the tightest admissible growth policy, which grows to
exactly what is asked for. -/
def exactFit : GrowthPolicy := ⟨fun n => n, fun n => Nat.le_refl n⟩

/-- Modelled from the spec: reallocation of a byte region to `n` bytes, "preserving
existing content"; new bytes are zero. -/
def resizeBytes (bs : List Nat) (n : Nat) : List Nat :=
  bs.take n ++ List.replicate (n - bs.length) 0

/-- Modelled from the spec: reallocation of a presence bit region to `n` bits,
"preserving existing content"; new bits are clear. -/
def resizeBits (bits : List Bool) (n : Nat) : List Bool :=
  bits.take n ++ List.replicate (n - bits.length) false

/-- Modelled from the spec: the ValueBuffer (type byteBufferBuilder, absent from the
source file): "a growable raw byte region storing W-byte elements contiguously".
`bytes` is the allocated region, `length` the tail (number of bytes written). -/
structure byteBufferBuilder where
  bytes : List Nat
  length : Nat
deriving DecidableEq, Repr

/-- Modelled from the spec: newByteBufferBuilder, an empty value buffer. -/
def newByteBufferBuilder : byteBufferBuilder := ⟨[], 0⟩

/-- Modelled from the spec: byteBufferBuilder.resize, reallocation of the value
region to `elements` bytes preserving the content inside the new bound. -/
def byteBufferBuilder.resize (b : byteBufferBuilder) (elements : Nat) : byteBufferBuilder :=
  { bytes := resizeBytes b.bytes elements, length := min b.length elements }

/-- Modelled from the spec: byteBufferBuilder.Advance, "advances the value buffer
tail by W bytes without writing", growing the region when it is too small. -/
def byteBufferBuilder.Advance (g : GrowthPolicy) (b : byteBufferBuilder) (n : Nat) :
    byteBufferBuilder :=
  let b1 := if b.bytes.length < b.length + n then b.resize (g.next (b.length + n)) else b
  { bytes := b1.bytes, length := b.length + n }

/-- Modelled from the spec: byteBufferBuilder.Append, "copies value into the tail of
the value buffer", growing the region when it is too small. -/
def byteBufferBuilder.Append (g : GrowthPolicy) (b : byteBufferBuilder) (v : List Nat) :
    byteBufferBuilder :=
  let b1 := if b.bytes.length < b.length + v.length then
      b.resize (g.next (b.length + v.length)) else b
  { bytes := b1.bytes.take b.length ++ v ++ b1.bytes.drop (b.length + v.length),
    length := b.length + v.length }

/-- Modelled from the spec: byteBufferBuilder.Finish, which hands out the written
bytes as a buffer "sized exactly to length" and leaves the value buffer empty. -/
def byteBufferBuilder.Finish (b : byteBufferBuilder) : List Nat × byteBufferBuilder :=
  (b.bytes.take b.length, newByteBufferBuilder)

/-- Modelled from the spec: the BaseBuilder substrate record (type builder, absent
from the source file).  The fields refCount, nullBitmap, nulls and length are the
ones the source file reads; capacity is the spec's `C`.  A nil bitmap is `none`. -/
structure builder where
  refCount : Int
  nullBitmap : Option (List Bool)
  nulls : Nat
  length : Nat
  capacity : Nat
deriving DecidableEq, Repr

/-- The builder record of the source file: the embedded substrate, the element
width `dtype.ByteWidth` and the value buffer pointer (nil is `none`). -/
structure FixedSizeBinaryBuilder extends builder where
  byteWidth : Nat
  values : Option byteBufferBuilder
deriving DecidableEq, Repr

/-- The ways a call can end fatally. -/
inductive Failure where
  | InvalidWidth
  | LengthMismatch
  | NilDereference
  | IndexOutOfRange
  | DoubleRelease
deriving DecidableEq, Repr

/-- A panic: its kind and the builder as it stood when the panic was raised. -/
structure Panicked where
  kind : Failure
  state : FixedSizeBinaryBuilder
deriving DecidableEq, Repr

/-- The result of a mutating call. -/
abbrev Outcome := Except Panicked FixedSizeBinaryBuilder

/-- The presence bits of a builder; a nil bitmap holds no bit. -/
def FixedSizeBinaryBuilder.bits (b : FixedSizeBinaryBuilder) : List Bool :=
  b.nullBitmap.getD []

/-- Modelled from the spec: builder.init, which sets the capacity and provides
presence storage of `capacity` bits (fresh clear bits when there is none, the
existing content inside the new bound otherwise). -/
def builder.init (b : builder) (capacity : Nat) : builder :=
  { b with nullBitmap := some (resizeBits (b.nullBitmap.getD []) capacity),
           capacity := capacity }

/-- Modelled from the spec: builder.reset, "length = 0, nullCount = 0, presence
reinitialized empty". -/
def builder.reset (b : builder) : builder :=
  { b with nullBitmap := none, nulls := 0, length := 0, capacity := 0 }

/-- Modelled from the spec: bitutil.CountSetBits over the first `n` bits. -/
def countSetBits (bits : List Bool) (n : Nat) : Nat :=
  (bits.take n).count true

/-- Modelled from the spec: builder.resize(n, initFn), the orchestration behind
Resize: "sets capacity to n elements", reallocating presence and (through initFn)
value storage; when the new capacity is below the length, the length is cut to it
and the null count recomputed, so that length ≤ capacity keeps holding. -/
def builder.resize (b : FixedSizeBinaryBuilder) (newBits : Nat)
    (init : FixedSizeBinaryBuilder → Nat → Outcome) : Outcome :=
  match init b newBits with
  | .error p => .error p
  | .ok b1 =>
    if newBits < b1.length then
      .ok { b1 with length := newBits, nulls := newBits - countSetBits b1.bits newBits }
    else .ok b1

/-- Modelled from the spec: builder.reserve(n, growFn), which "grows by invoking
Resize only if length + n > capacity". -/
def builder.reserve (g : GrowthPolicy) (b : FixedSizeBinaryBuilder) (elements : Nat)
    (resize : FixedSizeBinaryBuilder → Nat → Outcome) : Outcome :=
  if b.length + elements > b.capacity then resize b (g.next (b.length + elements))
  else .ok b

/-- Modelled from the spec: builder.UnsafeAppendBoolToBitmap, which writes the tail
presence bit, counts a null and increments the length.  Writing outside the
presence storage is a fatal index error. -/
def builder.UnsafeAppendBoolToBitmap (b : FixedSizeBinaryBuilder) (isValid : Bool) : Outcome :=
  match b.nullBitmap with
  | none => .error ⟨.NilDereference, b⟩
  | some bits =>
    if b.length < bits.length then
      .ok { b with nullBitmap := some (bits.set b.length isValid),
                   nulls := if isValid then b.nulls else b.nulls + 1,
                   length := b.length + 1 }
    else .error ⟨.IndexOutOfRange, b⟩

/-- Modelled from the spec: the loop that writes consecutive presence bits starting at
bit `start`. -/
def setBitsFrom (bits : List Bool) (start : Nat) : List Bool → List Bool
  | [] => bits
  | v :: vs => setBitsFrom (bits.set start v) (start + 1) vs

/-- Modelled from the spec: builder.unsafeAppendBoolsToBitmap(valid, length): "presence
bits for the len(values) elements are set in bulk from valid (or all-true if valid
is empty), and length/nullCount updated accordingly". -/
def builder.unsafeAppendBoolsToBitmap (b : FixedSizeBinaryBuilder) (valid : List Bool)
    (length : Nat) : Outcome :=
  match b.nullBitmap with
  | none => .error ⟨.NilDereference, b⟩
  | some bits =>
    if valid.length = 0 then
      if b.length + length ≤ bits.length then
        .ok { b with nullBitmap := some (setBitsFrom bits b.length (List.replicate length true)),
                     length := b.length + length }
      else .error ⟨.IndexOutOfRange, b⟩
    else
      if b.length + valid.length ≤ bits.length then
        .ok { b with nullBitmap := some (setBitsFrom bits b.length valid),
                     nulls := b.nulls + valid.count false,
                     length := b.length + valid.length }
      else .error ⟨.IndexOutOfRange, b⟩

/-! ## The source file -/

/-- Source: NewFixedSizeBinaryBuilder.  Reference count 1, no presence storage yet,
an empty value buffer. -/
def NewFixedSizeBinaryBuilder (byteWidth : Nat) : FixedSizeBinaryBuilder :=
  { refCount := 1, nullBitmap := none, nulls := 0, length := 0, capacity := 0,
    byteWidth := byteWidth, values := some newByteBufferBuilder }

/-- Source: FixedSizeBinaryBuilder.init. -/
def FixedSizeBinaryBuilder.init (b : FixedSizeBinaryBuilder) (capacity : Nat) : Outcome :=
  let b1 : FixedSizeBinaryBuilder :=
    { b.tobuilder.init capacity with byteWidth := b.byteWidth, values := b.values }
  match b1.values with
  | none => .error ⟨.NilDereference, b1⟩
  | some vb => .ok { b1 with values := some (vb.resize (capacity * b1.byteWidth)) }

/-- Source: FixedSizeBinaryBuilder.Resize. -/
def FixedSizeBinaryBuilder.Resize (b : FixedSizeBinaryBuilder) (n : Nat) : Outcome :=
  builder.resize b n FixedSizeBinaryBuilder.init

/-- Source: FixedSizeBinaryBuilder.Reserve. -/
def FixedSizeBinaryBuilder.Reserve (g : GrowthPolicy) (b : FixedSizeBinaryBuilder) (n : Nat) :
    Outcome :=
  builder.reserve g b n FixedSizeBinaryBuilder.Resize

/-- The call `b.values.Append(v)` on the builder; a nil value buffer panics. -/
def valuesAppend (g : GrowthPolicy) (b : FixedSizeBinaryBuilder) (v : List Nat) : Outcome :=
  match b.values with
  | none => .error ⟨.NilDereference, b⟩
  | some vb => .ok { b with values := some (vb.Append g v) }

/-- The call `b.values.Advance(n)` on the builder; a nil value buffer panics. -/
def valuesAdvance (g : GrowthPolicy) (b : FixedSizeBinaryBuilder) (n : Nat) : Outcome :=
  match b.values with
  | none => .error ⟨.NilDereference, b⟩
  | some vb => .ok { b with values := some (vb.Advance g n) }

/-- Source: FixedSizeBinaryBuilder.Append. -/
def FixedSizeBinaryBuilder.Append (g : GrowthPolicy) (b : FixedSizeBinaryBuilder)
    (v : List Nat) : Outcome :=
  if v.length ≠ b.byteWidth then .error ⟨.InvalidWidth, b⟩
  else
    match b.Reserve g 1 with
    | .error p => .error p
    | .ok b1 =>
      match valuesAppend g b1 v with
      | .error p => .error p
      | .ok b2 => builder.UnsafeAppendBoolToBitmap b2 true

/-- Source: FixedSizeBinaryBuilder.AppendNull. -/
def FixedSizeBinaryBuilder.AppendNull (g : GrowthPolicy) (b : FixedSizeBinaryBuilder) :
    Outcome :=
  match b.Reserve g 1 with
  | .error p => .error p
  | .ok b1 =>
    match valuesAdvance g b1 b1.byteWidth with
    | .error p => .error p
    | .ok b2 => builder.UnsafeAppendBoolToBitmap b2 false

/-- Source: the `for _, vv := range v` loop of AppendValues, with its switch on
`len(vv)`: case 0 first, then case ByteWidth, then the panicking default. -/
def appendValuesLoop (g : GrowthPolicy) (b : FixedSizeBinaryBuilder) :
    List (List Nat) → Outcome
  | [] => .ok b
  | vv :: rest =>
    if vv.length = 0 then
      match valuesAdvance g b b.byteWidth with
      | .error p => .error p
      | .ok b1 => appendValuesLoop g b1 rest
    else if vv.length = b.byteWidth then
      match valuesAppend g b vv with
      | .error p => .error p
      | .ok b1 => appendValuesLoop g b1 rest
    else .error ⟨.InvalidWidth, b⟩

/-- Source: FixedSizeBinaryBuilder.AppendValues. -/
def FixedSizeBinaryBuilder.AppendValues (g : GrowthPolicy) (b : FixedSizeBinaryBuilder)
    (v : List (List Nat)) (valid : List Bool) : Outcome :=
  if v.length ≠ valid.length ∧ valid.length ≠ 0 then .error ⟨.LengthMismatch, b⟩
  else if v.length = 0 then .ok b
  else
    match b.Reserve g v.length with
    | .error p => .error p
    | .ok b1 =>
      match appendValuesLoop g b1 v with
      | .error p => .error p
      | .ok b2 => builder.unsafeAppendBoolsToBitmap b2 valid v.length

/-- Modelled from the spec: the immutable array descriptor built by NewData (absent
from the source file): "{elementWidth, length, nullCount, presenceBuffer,
valueBuffer}". -/
structure Data where
  byteWidth : Nat
  length : Nat
  nullBitmap : Option (List Bool)
  values : List Nat
  nulls : Nat
deriving DecidableEq, Repr

/-- Source: FixedSizeBinaryBuilder.newData.  The value buffer is finished, the
presence storage is handed over as it is, and the substrate is reset. -/
def FixedSizeBinaryBuilder.newData (b : FixedSizeBinaryBuilder) :
    Except Panicked (Data × FixedSizeBinaryBuilder) :=
  match b.values with
  | none => .error ⟨.NilDereference, b⟩
  | some vb =>
    let fin := vb.Finish
    .ok ({ byteWidth := b.byteWidth, length := b.length, nullBitmap := b.nullBitmap,
           values := fin.1, nulls := b.nulls },
         { b.tobuilder.reset with byteWidth := b.byteWidth, values := some fin.2 })

/-- Source: FixedSizeBinaryBuilder.NewFixedSizeBinaryArray (the array is the
descriptor it wraps). -/
def FixedSizeBinaryBuilder.NewFixedSizeBinaryArray (b : FixedSizeBinaryBuilder) :
    Except Panicked (Data × FixedSizeBinaryBuilder) :=
  b.newData

/-! ## Reading elements back

The layout is the one of the spec: contiguous `W`-byte elements and one presence
bit per element. -/

/-- Bytes `[i*w, (i+1)*w)` of a byte region. -/
def slot (bytes : List Nat) (w i : Nat) : List Nat :=
  (bytes.drop (i * w)).take w

/-- Presence bit `i` of a bit region (bits outside the region read as clear). -/
def bitAt (bits : List Bool) (i : Nat) : Bool :=
  bits.getD i false

/-- The value region of a builder (empty when the value buffer is nil). -/
def FixedSizeBinaryBuilder.region (b : FixedSizeBinaryBuilder) : List Nat :=
  match b.values with
  | none => []
  | some vb => vb.bytes

/-- Whether element `i` of the builder is valid. -/
def FixedSizeBinaryBuilder.validAt (b : FixedSizeBinaryBuilder) (i : Nat) : Bool :=
  bitAt b.bits i

/-- The bytes stored for element `i` of the builder. -/
def FixedSizeBinaryBuilder.bytesAt (b : FixedSizeBinaryBuilder) (i : Nat) : List Nat :=
  slot b.region b.byteWidth i

/-- Whether element `i` of a finished array is valid. -/
def Data.validAt (d : Data) (i : Nat) : Bool :=
  bitAt (d.nullBitmap.getD []) i

/-- The bytes stored for element `i` of a finished array. -/
def Data.bytesAt (d : Data) (i : Nat) : List Nat :=
  slot d.values d.byteWidth i

end FixedSizeBinary

namespace FixedSizeBinary

/-! ## Invariants, call sequences and observations used by the theorems -/

/-- The data-model invariants of a usable builder: the value buffer exists, its tail
is `length * W` and lies inside its region, the presence storage has `capacity`
bits and `length ≤ capacity`. -/
def WellFormed (b : FixedSizeBinaryBuilder) : Prop :=
  ∃ vb, b.values = some vb ∧ vb.length = b.length * b.byteWidth ∧
    vb.length ≤ vb.bytes.length ∧ b.bits.length = b.capacity ∧ b.length ≤ b.capacity

/-- The elements of `b` are still readable, unchanged, in `b1`; the width and the
reference count are the same. -/
def Keeps (b b1 : FixedSizeBinaryBuilder) : Prop :=
  b1.byteWidth = b.byteWidth ∧ b1.refCount = b.refCount ∧
    ∀ i, i < b.length → b1.validAt i = b.validAt i ∧ b1.bytesAt i = b.bytesAt i

/-- A sequence of single-element calls run in order, stopping at the first panic:
`some v` stands for `Append(v)` and `none` for `AppendNull()`. -/
def appendAll (g : GrowthPolicy) (b : FixedSizeBinaryBuilder) :
    List (Option (List Nat)) → Outcome
  | [] => .ok b
  | some v :: rest =>
    match b.Append g v with
    | .error p => .error p
    | .ok b1 => appendAll g b1 rest
  | none :: rest =>
    match b.AppendNull g with
    | .error p => .error p
    | .ok b1 => appendAll g b1 rest

/-- One appending call. -/
inductive Call where
  | append (v : List Nat)
  | appendNull
  | appendValues (vs : List (List Nat)) (valid : List Bool)
deriving DecidableEq, Repr

/-- The effect of one appending call. -/
def Call.apply (g : GrowthPolicy) (b : FixedSizeBinaryBuilder) : Call → Outcome
  | .append v => b.Append g v
  | .appendNull => b.AppendNull g
  | .appendValues vs valid => b.AppendValues g vs valid

/-- A sequence of appending calls run in order, stopping at the first panic. -/
def run (g : GrowthPolicy) (b : FixedSizeBinaryBuilder) : List Call → Outcome
  | [] => .ok b
  | c :: cs =>
    match c.apply g b with
    | .error p => .error p
    | .ok b1 => run g b1 cs

end FixedSizeBinary

namespace FixedSizeBinary

/-! ## Calls, invariants, Release and the text decoder -/

/-- One call on a builder: the appending calls, the capacity calls and Finish. -/
inductive Op where
  | append (v : List Nat)
  | appendNull
  | appendValues (vs : List (List Nat)) (valid : List Bool)
  | reserve (n : Nat)
  | resize (n : Nat)
  | finish
deriving DecidableEq, Repr

/-- The effect of one call on the builder (the descriptor returned by Finish is
dropped). -/
def Op.apply (g : GrowthPolicy) (b : FixedSizeBinaryBuilder) : Op → Outcome
  | .append v => b.Append g v
  | .appendNull => b.AppendNull g
  | .appendValues vs valid => b.AppendValues g vs valid
  | .reserve n => b.Reserve g n
  | .resize n => b.Resize n
  | .finish =>
    match b.NewFixedSizeBinaryArray with
    | .error p => .error p
    | .ok r => .ok r.2

/-- A sequence of calls run in order, stopping at the first panic. -/
def runOps (g : GrowthPolicy) (b : FixedSizeBinaryBuilder) : List Op → Outcome
  | [] => .ok b
  | o :: os =>
    match o.apply g b with
    | .error p => .error p
    | .ok b1 => runOps g b1 os

/-- The number of bytes written to the value buffer (its tail). -/
def FixedSizeBinaryBuilder.written (b : FixedSizeBinaryBuilder) : Nat :=
  match b.values with
  | none => 0
  | some vb => vb.length

/-- The number of cleared presence bits among the indices `[0, length)`. -/
def FixedSizeBinaryBuilder.clearedBits (b : FixedSizeBinaryBuilder) : Nat :=
  (b.bits.take b.length).count false

/-- The value region has room for `capacity` elements. -/
def Sized (b : FixedSizeBinaryBuilder) : Prop :=
  b.capacity * b.byteWidth ≤ b.region.length

/-- The null count is the number of cleared presence bits below the length. -/
def NullsAccurate (b : FixedSizeBinaryBuilder) : Prop :=
  b.nulls = b.clearedBits

/-- A sample builder of width 2 holding `[1,2]` and a null, with capacity 2. -/
def twoElements : FixedSizeBinaryBuilder :=
  { refCount := 1, nullBitmap := some [true, false], nulls := 1, length := 2, capacity := 2,
    byteWidth := 2, values := some ⟨[1, 2, 0, 0], 4⟩ }

/-- A sample builder of width 2 holding `[1,2]` and `[7,8]`, reached through a Resize
below the length. -/
def afterShrink : FixedSizeBinaryBuilder :=
  { refCount := 1, nullBitmap := some [true, true], nulls := 0, length := 2, capacity := 2,
    byteWidth := 2, values := some ⟨[1, 2, 7, 8], 4⟩ }

/-- Modelled from the spec: debug.Assert (package internal/debug, absent): Release
"fails fatally if called when the counter is already zero", so a false condition is a
panic of the given kind. -/
def debug.Assert (cond : Bool) (kind : Failure) (b : FixedSizeBinaryBuilder) :
    Except Panicked Unit :=
  if cond then .ok () else .error ⟨kind, b⟩

/-- Source: FixedSizeBinaryBuilder.Release (sequential use: the atomic load and add are
a read and a decrement). -/
def FixedSizeBinaryBuilder.Release (b : FixedSizeBinaryBuilder) : Outcome :=
  match debug.Assert (decide (b.refCount > 0)) .DoubleRelease b with
  | .error p => .error p
  | .ok _ =>
    let b1 : FixedSizeBinaryBuilder := { b with refCount := b.refCount - 1 }
    if b1.refCount = 0 then
      let b2 : FixedSizeBinaryBuilder :=
        if b1.nullBitmap ≠ none then { b1 with nullBitmap := none } else b1
      .ok (if b2.values ≠ none then { b2 with values := none } else b2)
    else .ok b1

/-! ## The text decoder -/

/-- Modelled from the spec: a token of the TokenStream collaborator (json.Token of the
JSON library): a delimiter, a boolean, a number, a string (its bytes), a byte
sequence, or null. -/
inductive Token where
  | delim (c : Char)
  | bool (x : Bool)
  | number (text : List Nat)
  | string (s : List Nat)
  | bytes (v : List Nat)
  | null
deriving DecidableEq, Repr

/-- Modelled from the spec: what the streaming parser finds next in its input: a token
together with the input offset just after it, or malformed input. -/
inductive Lexeme where
  | token (t : Token) (endOffset : Nat)
  | malformed
deriving DecidableEq, Repr

/-- Modelled from the spec: the TokenStream collaborator (json.Decoder over the input
blob): what is still to be read, and the offset reached so far. -/
structure Decoder where
  pending : List Lexeme
  offset : Nat
deriving DecidableEq, Repr

/-- The value an UnmarshalTypeError reports: the token, or the decoded bytes. -/
inductive Offending where
  | token (t : Token)
  | value (val : List Nat)
deriving DecidableEq, Repr

/-- Modelled from the spec: json.UnmarshalTypeError as the decoder fills it: the
offending value, the stream offset and the expected width (`FixedSizeBinary[W]`). -/
structure UnmarshalTypeError where
  value : Offending
  offset : Nat
  width : Nat
deriving DecidableEq, Repr

/-- The ordinary errors the decoder returns. -/
inductive DecodeError where
  | eof
  | malformedInput
  | corruptInput (offset : Nat)
  | unmarshalType (e : UnmarshalTypeError)
  | format (found : Char)
deriving DecidableEq, Repr

/-- Modelled from the spec: `dec.Token()`: the next token, or an error at the end of
the input or on malformed input. -/
def Decoder.Token (dec : Decoder) : Except DecodeError (Token × Decoder) :=
  match dec.pending with
  | [] => .error .eof
  | .malformed :: _ => .error .malformedInput
  | .token t off :: rest => .ok (t, ⟨rest, off⟩)

/-- Modelled from the spec: `dec.More()`: there is another element before the end of
the input or the closing delimiter of the current array or object. -/
def Decoder.More (dec : Decoder) : Bool :=
  match dec.pending with
  | [] => false
  | .token (.delim c) _ :: _ => !(c == ']' || c == '}')
  | _ => true

/-- Modelled from the spec: `dec.InputOffset()`. -/
def Decoder.InputOffset (dec : Decoder) : Nat :=
  dec.offset

/-- Modelled from the spec: the standard base64 alphabet, read: the 6-bit value of a
character, if it is one of `A-Z a-z 0-9 + /`. -/
def decodeMap (c : Nat) : Option Nat :=
  if 65 ≤ c ∧ c ≤ 90 then some (c - 65)
  else if 97 ≤ c ∧ c ≤ 122 then some (c - 71)
  else if 48 ≤ c ∧ c ≤ 57 then some (c + 4)
  else if c = 43 then some 62
  else if c = 47 then some 63
  else none

/-- Modelled from the spec: the bytes of one quantum of 2, 3 or 4 six-bit values
(1, 2 or 3 bytes). -/
def quantumBytes : List Nat → List Nat
  | [s0, s1] => [((s0 * 262144 + s1 * 4096) / 65536) % 256]
  | [s0, s1, s2] =>
    [((s0 * 262144 + s1 * 4096 + s2 * 64) / 65536) % 256,
     ((s0 * 262144 + s1 * 4096 + s2 * 64) / 256) % 256]
  | [s0, s1, s2, s3] =>
    [((s0 * 262144 + s1 * 4096 + s2 * 64 + s3) / 65536) % 256,
     ((s0 * 262144 + s1 * 4096 + s2 * 64 + s3) / 256) % 256,
     (s0 * 262144 + s1 * 4096 + s2 * 64 + s3) % 256]
  | _ => []

/-- Modelled from the spec: the decoding loop of unpadded standard base64: `si` is the
input offset, `q` the six-bit values of the quantum being read, `out` the bytes
decoded so far.  Line breaks are skipped; any other character outside the alphabet
(the padding character `=` included) and a lone trailing character are corrupt
input, reported with their offset. -/
def decodeLoop : List Nat → Nat → List Nat → List Nat → Except Nat (List Nat)
  | [], si, q, out =>
    match q with
    | [] => .ok out
    | [_] => .error (si - 1)
    | _ => .ok (out ++ quantumBytes q)
  | c :: rest, si, q, out =>
    match decodeMap c with
    | some s =>
      if q.length = 3 then decodeLoop rest (si + 1) [] (out ++ quantumBytes (q ++ [s]))
      else decodeLoop rest (si + 1) (q ++ [s]) out
    | none =>
      if c = 10 ∨ c = 13 then decodeLoop rest (si + 1) q out
      else .error si

/-- Modelled from the spec: base64.RawStdEncoding.DecodeString: "standard base64,
unpadded, decoded to raw bytes". -/
def RawStdEncoding.DecodeString (s : List Nat) : Except Nat (List Nat) :=
  decodeLoop s 0 [] []

/-- The standard base64 alphabet, written: the character of a 6-bit value. -/
def encodeChar (s : Nat) : Nat :=
  if s < 26 then s + 65
  else if s < 52 then s + 71
  else if s < 62 then s - 4
  else if s = 62 then 43
  else 47

/-- Standard base64 without padding: the text a string token must hold. -/
def encodeRaw : List Nat → List Nat
  | [] => []
  | [a] => [encodeChar (a / 4), encodeChar ((a % 4) * 16)]
  | [a, b] =>
    [encodeChar (a / 4), encodeChar ((a % 4) * 16 + b / 16), encodeChar ((b % 16) * 4)]
  | a :: b :: c :: rest =>
    encodeChar (a / 4) :: encodeChar ((a % 4) * 16 + b / 16) ::
      encodeChar ((b % 16) * 4 + c / 64) :: encodeChar (c % 64) :: encodeRaw rest

/-- Standard base64 with `=` padding to a multiple of four characters. -/
def encodeStd (v : List Nat) : List Nat :=
  encodeRaw v ++ List.replicate ((3 - v.length % 3) % 3) 61

/-- What a decoding call returns when it does not panic: the builder, the decoder and
the error result (`none` is nil). -/
structure Decoded where
  builder : FixedSizeBinaryBuilder
  dec : Decoder
  err : Option DecodeError
deriving DecidableEq, Repr

/-- Source: the end of unmarshalOne, after the type switch: the width check and the
Append. -/
def checkedAppend (g : GrowthPolicy) (b : FixedSizeBinaryBuilder) (dec : Decoder)
    (val : List Nat) : Except Panicked Decoded :=
  if val.length ≠ b.byteWidth then
    .ok ⟨b, dec, some (.unmarshalType ⟨.value val, dec.InputOffset, b.byteWidth⟩)⟩
  else
    match b.Append g val with
    | .error p => .error p
    | .ok b1 => .ok ⟨b1, dec, none⟩

/-- Source: FixedSizeBinaryBuilder.unmarshalOne. -/
def FixedSizeBinaryBuilder.unmarshalOne (g : GrowthPolicy) (b : FixedSizeBinaryBuilder)
    (dec : Decoder) : Except Panicked Decoded :=
  match dec.Token with
  | .error e => .ok ⟨b, dec, some e⟩
  | .ok (t, dec1) =>
    match t with
    | .string s =>
      match RawStdEncoding.DecodeString s with
      | .error off => .ok ⟨b, dec1, some (.corruptInput off)⟩
      | .ok data => checkedAppend g b dec1 data
    | .bytes v => checkedAppend g b dec1 v
    | .null =>
      match b.AppendNull g with
      | .error p => .error p
      | .ok b1 => .ok ⟨b1, dec1, none⟩
    | t1 => .ok ⟨b, dec1, some (.unmarshalType ⟨.token t1, dec1.InputOffset, b.byteWidth⟩)⟩

/-- Source: the `for dec.More()` loop of unmarshal, with a bound on the number of
iterations (`none` when the bound is reached before the loop ends). -/
def unmarshalLoop (g : GrowthPolicy) :
    Nat → FixedSizeBinaryBuilder → Decoder → Option (Except Panicked Decoded)
  | 0, b, dec => if dec.More then none else some (.ok ⟨b, dec, none⟩)
  | fuel + 1, b, dec =>
    if dec.More then
      match b.unmarshalOne g dec with
      | .error p => some (.error p)
      | .ok r => if r.err.isSome then some (.ok r) else unmarshalLoop g fuel r.builder r.dec
    else some (.ok ⟨b, dec, none⟩)

/-- Source: FixedSizeBinaryBuilder.unmarshal.  Every iteration reads one token, so
the number of pending tokens bounds the loop. -/
def FixedSizeBinaryBuilder.unmarshal (g : GrowthPolicy) (b : FixedSizeBinaryBuilder)
    (dec : Decoder) : Option (Except Panicked Decoded) :=
  unmarshalLoop g dec.pending.length b dec

/-- Source: FixedSizeBinaryBuilder.UnmarshalJSON, on the decoder created over the
input blob. -/
def FixedSizeBinaryBuilder.UnmarshalJSON (g : GrowthPolicy) (b : FixedSizeBinaryBuilder)
    (dec : Decoder) : Option (Except Panicked Decoded) :=
  match dec.Token with
  | .error e => some (.ok ⟨b, dec, some e⟩)
  | .ok (t, dec1) =>
    match t with
    | .delim c =>
      if c ≠ '[' then some (.ok ⟨b, dec1, some (.format c)⟩) else b.unmarshal g dec1
    | _ => some (.ok ⟨b, dec1, some (.format (Char.ofNat 0))⟩)

/-- The item a token stands for: `none` for null, the decoded bytes for a string or a
byte sequence; no item for any other token or for a string that is not base64. -/
def Token.item : Token → Option (Option (List Nat))
  | .null => some none
  | .bytes v => some (some v)
  | .string s =>
    match RawStdEncoding.DecodeString s with
    | .ok data => some (some data)
    | .error _ => none
  | _ => none

/-- The token of an item in the text form: null, or the unpadded base64 string. -/
def itemToken : Option (List Nat) → Token
  | none => .null
  | some v => .string (encodeRaw v)

/-- The lexemes of a list of tokens given with their end offsets. -/
def lexemesOf (ts : List (Token × Nat)) : List Lexeme :=
  ts.map (fun p => .token p.1 p.2)

/-- How many tokens an error result has consumed without appending an element. -/
def consumedBy : Option DecodeError → Nat
  | none => 0
  | some .eof => 0
  | some .malformedInput => 0
  | some _ => 1

/-- The offset the decoder has reached after reading the tokens `ts` from offset `o`. -/
def lastOffset (o : Nat) : List (Token × Nat) → Nat
  | [] => o
  | p :: ps => lastOffset p.2 ps

end FixedSizeBinary

namespace FixedSizeBinary

/-! ## Lists: regions, prefixes and slots -/

theorem length_resizeBytes (bs : List Nat) (n : Nat) : (resizeBytes bs n).length = n := by
  simp only [resizeBytes, List.length_append, List.length_take, List.length_replicate]
  omega

theorem take_resizeBytes (bs : List Nat) (n k : Nat) (hn : k ≤ n) (hk : k ≤ bs.length) :
    (resizeBytes bs n).take k = bs.take k := by
  unfold resizeBytes
  rw [List.take_append_of_le_length (by simp only [List.length_take]; omega), List.take_take]
  congr 1
  omega

theorem length_resizeBits (bits : List Bool) (n : Nat) : (resizeBits bits n).length = n := by
  simp only [resizeBits, List.length_append, List.length_take, List.length_replicate]
  omega

theorem take_resizeBits (bits : List Bool) (n k : Nat) (hn : k ≤ n) (hk : k ≤ bits.length) :
    (resizeBits bits n).take k = bits.take k := by
  unfold resizeBits
  rw [List.take_append_of_le_length (by simp only [List.length_take]; omega), List.take_take]
  congr 1
  omega

theorem slot_take (l : List Nat) (w i k : Nat) (hk : (i + 1) * w ≤ k) :
    slot (l.take k) w i = slot l w i := by
  unfold slot
  rw [List.drop_take, List.take_take]
  congr 1
  rw [Nat.add_mul, Nat.one_mul] at hk
  omega

theorem slot_congr {l1 l2 : List Nat} {w i k : Nat} (h : l1.take k = l2.take k)
    (hk : (i + 1) * w ≤ k) : slot l1 w i = slot l2 w i := by
  rw [← slot_take l1 w i k hk, ← slot_take l2 w i k hk, h]

theorem length_slot (l : List Nat) (w i : Nat) (h : (i + 1) * w ≤ l.length) :
    (slot l w i).length = w := by
  unfold slot
  rw [List.length_take, List.length_drop]
  rw [Nat.add_mul, Nat.one_mul] at h
  omega

theorem bitAt_take (bits : List Bool) (i k : Nat) (h : i < k) :
    bitAt (bits.take k) i = bitAt bits i := by
  unfold bitAt
  rw [List.getD_eq_getElem?_getD, List.getD_eq_getElem?_getD, List.getElem?_take_of_lt h]

theorem bitAt_congr {b1 b2 : List Bool} {i k : Nat} (h : b1.take k = b2.take k) (hi : i < k) :
    bitAt b1 i = bitAt b2 i := by
  rw [← bitAt_take b1 i k hi, ← bitAt_take b2 i k hi, h]

/-- Overwriting `v` at offset `L` of a region that has room for it. -/
theorem overwrite_spec (B v : List Nat) (L : Nat) (hB : L + v.length ≤ B.length) :
    (B.take L ++ v ++ B.drop (L + v.length)).length = B.length ∧
    (B.take L ++ v ++ B.drop (L + v.length)).take L = B.take L ∧
    ((B.take L ++ v ++ B.drop (L + v.length)).drop L).take v.length = v := by
  have hL : (B.take L).length = L := by rw [List.length_take]; omega
  refine ⟨?_, ?_, ?_⟩
  · simp only [List.length_append, List.length_take, List.length_drop]
    omega
  · rw [List.append_assoc, List.take_left' hL]
  · rw [List.append_assoc, List.drop_left' hL, List.take_left' rfl]

/-- Writing consecutive bits is a splice of the written bits into the region. -/
theorem setBitsFrom_eq (vs : List Bool) : ∀ (bits : List Bool) (start : Nat),
    start + vs.length ≤ bits.length →
    setBitsFrom bits start vs = bits.take start ++ vs ++ bits.drop (start + vs.length) := by
  induction vs with
  | nil =>
    intro bits start _
    simp [setBitsFrom]
  | cons v vs ih =>
    intro bits start h
    simp only [List.length_cons] at h
    have hlt : start < bits.length := by omega
    rw [setBitsFrom, ih (bits.set start v) (start + 1) (by rw [List.length_set]; omega)]
    rw [List.drop_set_of_lt v bits (by omega : start < start + 1 + vs.length)]
    have h1 : (bits.set start v).take (start + 1) = bits.take start ++ [v] := by
      rw [List.set_eq_take_append_cons_drop, if_pos hlt]
      have hL : (bits.take start).length = start := by rw [List.length_take]; omega
      have : bits.take start ++ v :: bits.drop (start + 1)
          = (bits.take start ++ [v]) ++ bits.drop (start + 1) := by simp
      rw [this, List.take_left' (by simp [hL])]
    rw [h1]
    simp only [List.length_cons, List.append_assoc, List.singleton_append]
    congr 3
    omega

/-! ## The value buffer -/

theorem valueBuffer_resize_spec (vb : byteBufferBuilder) (m : Nat)
    (h : vb.length ≤ vb.bytes.length) (hm : vb.length ≤ m) :
    (vb.resize m).length = vb.length ∧ (vb.resize m).bytes.length = m ∧
    (vb.resize m).bytes.take vb.length = vb.bytes.take vb.length := by
  refine ⟨?_, ?_, ?_⟩
  · simp only [byteBufferBuilder.resize]; omega
  · simp only [byteBufferBuilder.resize, length_resizeBytes]
  · simp only [byteBufferBuilder.resize]
    exact take_resizeBytes _ _ _ hm h

theorem valueBuffer_Append_spec (g : GrowthPolicy) (vb : byteBufferBuilder)
    (v : List Nat) (h : vb.length ≤ vb.bytes.length) :
    (vb.Append g v).length = vb.length + v.length ∧
    (vb.Append g v).length ≤ (vb.Append g v).bytes.length ∧
    vb.bytes.length ≤ (vb.Append g v).bytes.length ∧
    (vb.Append g v).bytes.take vb.length = vb.bytes.take vb.length ∧
    ((vb.Append g v).bytes.drop vb.length).take v.length = v := by
  unfold byteBufferBuilder.Append
  by_cases hc : vb.bytes.length < vb.length + v.length
  · have hm := g.le_next (vb.length + v.length)
    obtain ⟨_, r2, r3⟩ := valueBuffer_resize_spec vb (g.next (vb.length + v.length)) h (by omega)
    obtain ⟨o1, o2, o3⟩ := overwrite_spec (vb.resize (g.next (vb.length + v.length))).bytes v
      vb.length (by omega)
    simp only [if_pos hc]
    refine ⟨trivial, by omega, by omega, by rw [o2, r3], o3⟩
  · obtain ⟨o1, o2, o3⟩ := overwrite_spec vb.bytes v vb.length (by omega)
    simp only [if_neg hc]
    refine ⟨trivial, by omega, by omega, o2, o3⟩

theorem valueBuffer_Advance_spec (g : GrowthPolicy) (vb : byteBufferBuilder)
    (n : Nat) (h : vb.length ≤ vb.bytes.length) :
    (vb.Advance g n).length = vb.length + n ∧
    (vb.Advance g n).length ≤ (vb.Advance g n).bytes.length ∧
    vb.bytes.length ≤ (vb.Advance g n).bytes.length ∧
    (vb.Advance g n).bytes.take vb.length = vb.bytes.take vb.length := by
  unfold byteBufferBuilder.Advance
  by_cases hc : vb.bytes.length < vb.length + n
  · have hm := g.le_next (vb.length + n)
    obtain ⟨_, r2, r3⟩ := valueBuffer_resize_spec vb (g.next (vb.length + n)) h (by omega)
    simp only [if_pos hc]
    refine ⟨trivial, by omega, by omega, r3⟩
  · simp only [if_neg hc]
    refine ⟨trivial, by omega, by omega, trivial⟩

end FixedSizeBinary

namespace FixedSizeBinary

/-! ## Invariants of a usable builder -/

theorem Keeps.refl (b : FixedSizeBinaryBuilder) : Keeps b b :=
  ⟨rfl, rfl, fun _ _ => ⟨rfl, rfl⟩⟩

theorem Keeps.trans {a b c : FixedSizeBinaryBuilder} (h1 : Keeps a b) (h2 : Keeps b c)
    (hl : a.length ≤ b.length) : Keeps a c := by
  obtain ⟨w1, r1, k1⟩ := h1
  obtain ⟨w2, r2, k2⟩ := h2
  refine ⟨w2.trans w1, r2.trans r1, fun i hi => ?_⟩
  obtain ⟨v1, b1⟩ := k1 i hi
  obtain ⟨v2, b2⟩ := k2 i (by omega)
  exact ⟨v2.trans v1, b2.trans b1⟩

/-- Prefix form of `Keeps`: equal presence and value prefixes give equal elements. -/
theorem Keeps.of_prefix {b b1 : FixedSizeBinaryBuilder} (hw : b1.byteWidth = b.byteWidth)
    (hr : b1.refCount = b.refCount)
    (hbits : b1.bits.take b.length = b.bits.take b.length)
    (hreg : b1.region.take (b.length * b.byteWidth) = b.region.take (b.length * b.byteWidth)) :
    Keeps b b1 := by
  refine ⟨hw, hr, fun i hi => ⟨?_, ?_⟩⟩
  · exact bitAt_congr hbits hi
  · unfold FixedSizeBinaryBuilder.bytesAt
    rw [hw]
    exact slot_congr hreg (Nat.mul_le_mul_right _ hi)

theorem wellFormed_new (w : Nat) : WellFormed (NewFixedSizeBinaryBuilder w) :=
  ⟨newByteBufferBuilder, rfl, by simp [newByteBufferBuilder, NewFixedSizeBinaryBuilder],
    by simp [newByteBufferBuilder], rfl, Nat.le_refl _⟩

/-! ## Reserve and Resize -/

theorem init_some (b : FixedSizeBinaryBuilder) (vb : byteBufferBuilder) (c : Nat)
    (hv : b.values = some vb) :
    b.init c = .ok { refCount := b.refCount, nullBitmap := some (resizeBits b.bits c),
                     nulls := b.nulls, length := b.length, capacity := c,
                     byteWidth := b.byteWidth,
                     values := some (vb.resize (c * b.byteWidth)) } := by
  simp [FixedSizeBinaryBuilder.init, builder.init, hv, FixedSizeBinaryBuilder.bits]

theorem Resize_grow (b : FixedSizeBinaryBuilder) (vb : byteBufferBuilder) (n : Nat)
    (hv : b.values = some vb) (hn : b.length ≤ n) :
    b.Resize n = .ok { refCount := b.refCount, nullBitmap := some (resizeBits b.bits n),
                       nulls := b.nulls, length := b.length, capacity := n,
                       byteWidth := b.byteWidth,
                       values := some (vb.resize (n * b.byteWidth)) } := by
  simp only [FixedSizeBinaryBuilder.Resize, builder.resize, init_some b vb n hv]
  rw [if_neg (by omega)]

theorem Reserve_spec (g : GrowthPolicy) (b : FixedSizeBinaryBuilder) (n : Nat)
    (h : WellFormed b) :
    ∃ b1, b.Reserve g n = .ok b1 ∧ WellFormed b1 ∧ b1.length = b.length ∧
      b1.nulls = b.nulls ∧ b.length + n ≤ b1.capacity ∧ Keeps b b1 := by
  obtain ⟨vb, hv, ht, hr, hb, hc⟩ := h
  unfold FixedSizeBinaryBuilder.Reserve builder.reserve
  by_cases hg : b.length + n > b.capacity
  · have hm := g.le_next (b.length + n)
    obtain ⟨r1, r2, r3⟩ := valueBuffer_resize_spec vb (g.next (b.length + n) * b.byteWidth) hr
      (by rw [ht]; exact Nat.mul_le_mul_right _ (by omega))
    rw [if_pos hg, Resize_grow b vb _ hv (by omega)]
    refine ⟨_, rfl, ⟨_, rfl, ?_, ?_, ?_, ?_⟩, rfl, rfl, hm, ?_⟩
    · rw [r1, ht]
    · rw [r1, r2, ht]; exact Nat.mul_le_mul_right _ (by omega)
    · simp [FixedSizeBinaryBuilder.bits, length_resizeBits]
    · show b.length ≤ g.next (b.length + n); omega
    · refine Keeps.of_prefix rfl rfl ?_ ?_
      · show (resizeBits b.bits _).take b.length = b.bits.take b.length
        exact take_resizeBits _ _ _ (by omega) (by omega)
      · show (vb.resize _).bytes.take (b.length * b.byteWidth) = _
        rw [← ht, r3]
        simp [FixedSizeBinaryBuilder.region, hv]
  · rw [if_neg hg]
    exact ⟨b, rfl, ⟨vb, hv, ht, hr, hb, hc⟩, rfl, rfl, by omega, Keeps.refl b⟩

end FixedSizeBinary

namespace FixedSizeBinary

/-- Resize to any capacity, growing or shrinking, keeps a builder well formed. -/
theorem Resize_wellFormed (b : FixedSizeBinaryBuilder) (n : Nat) (h : WellFormed b) :
    ∃ b1, b.Resize n = .ok b1 ∧ WellFormed b1 ∧ b1.capacity = n ∧
      b1.byteWidth = b.byteWidth := by
  obtain ⟨vb, hv, ht, hr, hb, hc⟩ := h
  simp only [FixedSizeBinaryBuilder.Resize, builder.resize, init_some b vb n hv]
  by_cases hlt : n < b.length
  · rw [if_pos hlt]
    refine ⟨_, rfl, ⟨_, rfl, ?_, ?_, ?_, Nat.le_refl _⟩, rfl, rfl⟩
    · show min vb.length (n * b.byteWidth) = n * b.byteWidth
      have : n * b.byteWidth ≤ b.length * b.byteWidth := Nat.mul_le_mul_right _ (by omega)
      omega
    · show min vb.length (n * b.byteWidth) ≤ (resizeBytes vb.bytes (n * b.byteWidth)).length
      rw [length_resizeBytes]
      omega
    · show (resizeBits b.bits n).length = n
      exact length_resizeBits _ _
  · rw [if_neg hlt]
    refine ⟨_, rfl, ⟨_, rfl, ?_, ?_, ?_, ?_⟩, rfl, rfl⟩
    · show min vb.length (n * b.byteWidth) = b.length * b.byteWidth
      have : b.length * b.byteWidth ≤ n * b.byteWidth := Nat.mul_le_mul_right _ (by omega)
      omega
    · show min vb.length (n * b.byteWidth) ≤ (resizeBytes vb.bytes (n * b.byteWidth)).length
      rw [length_resizeBytes]
      omega
    · show (resizeBits b.bits n).length = n
      exact length_resizeBits _ _
    · show b.length ≤ n
      omega

/-- The builder left behind by Finish is well formed. -/
theorem Finish_wellFormed (b : FixedSizeBinaryBuilder) (d : Data)
    (b1 : FixedSizeBinaryBuilder) (h : b.NewFixedSizeBinaryArray = .ok (d, b1)) :
    WellFormed b1 := by
  unfold FixedSizeBinaryBuilder.NewFixedSizeBinaryArray FixedSizeBinaryBuilder.newData at h
  cases hv : b.values with
  | none =>
    simp only [hv] at h
    cases h
  | some vb =>
    simp only [hv] at h
    cases h
    exact ⟨newByteBufferBuilder, rfl, by simp [newByteBufferBuilder, builder.reset],
      by simp [newByteBufferBuilder], rfl, Nat.le_refl _⟩

end FixedSizeBinary

namespace FixedSizeBinary

/-! ## Appending one element -/

theorem bitAt_set_self (bits : List Bool) (i : Nat) (x : Bool) (h : i < bits.length) :
    bitAt (bits.set i x) i = x := by
  simp [bitAt, List.getD_eq_getElem?_getD, List.getElem?_set, h]

theorem take_set_of_le (bits : List Bool) (i k : Nat) (x : Bool) (h : k ≤ i) :
    (bits.set i x).take k = bits.take k := by
  apply List.ext_getElem?
  intro j
  rw [List.getElem?_take, List.getElem?_take]
  by_cases hj : j < k
  · rw [if_pos hj, if_pos hj, List.getElem?_set, if_neg (by omega)]
  · rw [if_neg hj, if_neg hj]

/-- The presence half of an append: after the value buffer moved from `vb1` to `vb2`
(one more slot, earlier bytes untouched), writing the tail bit completes the element. -/
theorem push_spec (b1 : FixedSizeBinaryBuilder) (vb1 vb2 : byteBufferBuilder) (x : Bool)
    (hv : b1.values = some vb1) (ht : vb1.length = b1.length * b1.byteWidth)
    (hb : b1.bits.length = b1.capacity) (hcap : b1.length + 1 ≤ b1.capacity)
    (h2len : vb2.length = vb1.length + b1.byteWidth)
    (h2le : vb2.length ≤ vb2.bytes.length)
    (h2take : vb2.bytes.take vb1.length = vb1.bytes.take vb1.length) :
    ∃ b2, builder.UnsafeAppendBoolToBitmap { b1 with values := some vb2 } x = .ok b2 ∧
      WellFormed b2 ∧ b2.length = b1.length + 1 ∧
      b2.nulls = (if x then b1.nulls else b1.nulls + 1) ∧ Keeps b1 b2 ∧
      b2.validAt b1.length = x ∧ b2.region = vb2.bytes := by
  cases hnb : b1.nullBitmap with
  | none =>
    simp [FixedSizeBinaryBuilder.bits, hnb] at hb
    omega
  | some bits =>
    have hbl : bits.length = b1.capacity := by
      simpa [FixedSizeBinaryBuilder.bits, hnb] using hb
    have hlt : b1.length < bits.length := by omega
    simp only [builder.UnsafeAppendBoolToBitmap, hnb, if_pos hlt]
    refine ⟨_, rfl, ⟨vb2, rfl, ?_, h2le, ?_, ?_⟩, rfl, rfl, ?_, ?_, rfl⟩
    · show vb2.length = (b1.length + 1) * b1.byteWidth
      rw [h2len, ht, Nat.add_mul, Nat.one_mul]
    · show (bits.set b1.length x).length = b1.capacity
      rw [List.length_set, hbl]
    · exact hcap
    · refine Keeps.of_prefix rfl rfl ?_ ?_
      · show (bits.set b1.length x).take b1.length = b1.bits.take b1.length
        rw [take_set_of_le _ _ _ _ (Nat.le_refl _)]
        simp [FixedSizeBinaryBuilder.bits, hnb]
      · show vb2.bytes.take (b1.length * b1.byteWidth) = b1.region.take _
        rw [← ht, h2take]
        simp [FixedSizeBinaryBuilder.region, hv]
    · show bitAt (bits.set b1.length x) b1.length = x
      exact bitAt_set_self _ _ _ hlt

theorem Append_spec (g : GrowthPolicy) (b : FixedSizeBinaryBuilder) (v : List Nat)
    (h : WellFormed b) (hw : v.length = b.byteWidth) :
    ∃ b2, b.Append g v = .ok b2 ∧ WellFormed b2 ∧ b2.length = b.length + 1 ∧
      b2.nulls = b.nulls ∧ Keeps b b2 ∧ b2.validAt b.length = true ∧
      b2.bytesAt b.length = v := by
  obtain ⟨b1, hres, ⟨vb1, hv, ht, hr, hb, hc⟩, hl, hn, hcap, hk⟩ := Reserve_spec g b 1 h
  obtain ⟨a1, a2, _, a4, a5⟩ := valueBuffer_Append_spec g vb1 v hr
  have hw1 : v.length = b1.byteWidth := by rw [hw, hk.1]
  obtain ⟨b2, hp, wf2, l2, n2, k2, v2, r2⟩ := push_spec b1 vb1 (vb1.Append g v) true hv ht hb
    (by omega) (by rw [a1, hw1]) a2 a4
  refine ⟨b2, ?_, wf2, by omega, by simpa [hn] using n2, hk.trans k2 (by omega), ?_, ?_⟩
  · simp only [FixedSizeBinaryBuilder.Append, hw, ne_eq, not_true_eq_false, if_false, hres,
      valuesAppend, hv]
    exact hp
  · rw [← hl]; exact v2
  · unfold FixedSizeBinaryBuilder.bytesAt slot
    rw [r2, k2.1, ← hl, ← ht, ← hw1]
    exact a5

theorem AppendNull_spec (g : GrowthPolicy) (b : FixedSizeBinaryBuilder)
    (h : WellFormed b) :
    ∃ b2, b.AppendNull g = .ok b2 ∧ WellFormed b2 ∧ b2.length = b.length + 1 ∧
      b2.nulls = b.nulls + 1 ∧ Keeps b b2 ∧ b2.validAt b.length = false := by
  obtain ⟨b1, hres, ⟨vb1, hv, ht, hr, hb, hc⟩, hl, hn, hcap, hk⟩ := Reserve_spec g b 1 h
  obtain ⟨a1, a2, _, a4⟩ := valueBuffer_Advance_spec g vb1 b1.byteWidth hr
  obtain ⟨b2, hp, wf2, l2, n2, k2, v2, _⟩ := push_spec b1 vb1 (vb1.Advance g b1.byteWidth)
    false hv ht hb (by omega) a1 a2 a4
  refine ⟨b2, ?_, wf2, by omega, by simpa [hn] using n2, hk.trans k2 (by omega), ?_⟩
  · simp only [FixedSizeBinaryBuilder.AppendNull, hres, valuesAdvance, hv]
    exact hp
  · rw [← hl]; exact v2

end FixedSizeBinary

namespace FixedSizeBinary

/-! ## Sequences of single-element calls -/

theorem appendAll_spec (g : GrowthPolicy) (s : List (Option (List Nat))) :
    ∀ b : FixedSizeBinaryBuilder, WellFormed b →
    (∀ v, some v ∈ s → v.length = b.byteWidth) →
    ∃ b2, appendAll g b s = .ok b2 ∧ WellFormed b2 ∧ b2.length = b.length + s.length ∧
      b2.nulls = b.nulls + s.countP Option.isNone ∧ Keeps b b2 ∧
      ∀ j, (∀ v, s[j]? = some (some v) →
              b2.validAt (b.length + j) = true ∧ b2.bytesAt (b.length + j) = v) ∧
           (s[j]? = some none → b2.validAt (b.length + j) = false) := by
  induction s with
  | nil =>
    intro b h _
    exact ⟨b, rfl, h, rfl, rfl, Keeps.refl b, fun j => by simp⟩
  | cons x rest ih =>
    intro b h hw
    cases x with
    | some v =>
      obtain ⟨b1, e1, wf1, l1, n1, k1, v1, y1⟩ :=
        Append_spec g b v h (hw v (List.mem_cons_self _ _))
      obtain ⟨b2, e2, wf2, l2, n2, k2, el2⟩ := ih b1 wf1 (fun u hu => by
        rw [k1.1]; exact hw u (List.mem_cons_of_mem _ hu))
      refine ⟨b2, ?_, wf2, ?_, ?_, k1.trans k2 (by omega), ?_⟩
      · simp only [appendAll, e1]; exact e2
      · simp only [List.length_cons]; omega
      · simp only [List.countP_cons, Option.isNone_some]; simp; omega
      · intro j
        cases j with
        | zero =>
          have hk := k2.2.2 b.length (by omega)
          refine ⟨fun u hu => ?_, fun hu => by simp at hu⟩
          simp only [List.getElem?_cons_zero, Option.some.injEq] at hu
          subst hu
          exact ⟨hk.1.trans v1, hk.2.trans y1⟩
        | succ j =>
          have := el2 j
          simp only [List.getElem?_cons_succ]
          rw [l1, Nat.add_assoc, Nat.add_comm 1 j] at this
          exact this
    | none =>
      obtain ⟨b1, e1, wf1, l1, n1, k1, v1⟩ := AppendNull_spec g b h
      obtain ⟨b2, e2, wf2, l2, n2, k2, el2⟩ := ih b1 wf1 (fun u hu => by
        rw [k1.1]; exact hw u (List.mem_cons_of_mem _ hu))
      refine ⟨b2, ?_, wf2, ?_, ?_, k1.trans k2 (by omega), ?_⟩
      · simp only [appendAll, e1]; exact e2
      · simp only [List.length_cons]; omega
      · simp only [List.countP_cons, Option.isNone_none]; simp; omega
      · intro j
        cases j with
        | zero =>
          have hk := k2.2.2 b.length (by omega)
          refine ⟨fun u hu => by simp at hu, fun _ => hk.1.trans v1⟩
        | succ j =>
          have := el2 j
          simp only [List.getElem?_cons_succ]
          rw [l1, Nat.add_assoc, Nat.add_comm 1 j] at this
          exact this

/-- C1: on a fresh builder of any width `W`, `k` calls that are each `Append(v)` with
`len(v) = W` or `AppendNull()` succeed and leave `length = k`, `nullCount` equal to
the number of `AppendNull` calls, and element `i` valid with exactly the bytes of
the `i`-th call when it was `Append`, null when it was `AppendNull`. -/
theorem append_sequence_reads_back (g : GrowthPolicy) (W : Nat)
    (s : List (Option (List Nat))) (hw : ∀ v, some v ∈ s → v.length = W) :
    ∃ b, appendAll g (NewFixedSizeBinaryBuilder W) s = .ok b ∧
      b.length = s.length ∧ b.nulls = s.countP Option.isNone ∧
      ∀ i, i < s.length →
        (∀ v, s[i]? = some (some v) → b.validAt i = true ∧ b.bytesAt i = v) ∧
        (s[i]? = some none → b.validAt i = false) := by
  obtain ⟨b, e, _, l, n, _, el⟩ :=
    appendAll_spec g s (NewFixedSizeBinaryBuilder W) (wellFormed_new W) hw
  refine ⟨b, e, ?_, ?_, fun i _ => ?_⟩
  · simpa [NewFixedSizeBinaryBuilder] using l
  · simpa [NewFixedSizeBinaryBuilder] using n
  · simpa [NewFixedSizeBinaryBuilder] using el i

/-- Witness for C1: `W = 3`, `Append([1,2,3]); AppendNull(); Append([4,5,6])`. -/
theorem append_sequence_reads_back_witness :
    (∀ v, some v ∈ [some [1, 2, 3], none, some [4, 5, 6]] → v.length = 3) ∧
    ∃ b, appendAll doubling (NewFixedSizeBinaryBuilder 3)
        [some [1, 2, 3], none, some [4, 5, 6]] = .ok b ∧
      b.length = 3 ∧ b.nulls = 1 ∧
      ∀ i, i < 3 →
        (∀ v, [some [1, 2, 3], none, some [4, 5, 6]][i]? = some (some v) →
          b.validAt i = true ∧ b.bytesAt i = v) ∧
        ([some [1, 2, 3], none, some [4, 5, 6]][i]? = some none → b.validAt i = false) :=
  have hw : ∀ v, some v ∈ [some [1, 2, 3], none, some [4, 5, 6]] → v.length = 3 := by
    intro v hv
    simp only [List.mem_cons, Option.some.injEq, List.mem_singleton] at hv
    rcases hv with rfl | hv | rfl | hv <;> simp_all
  ⟨hw, append_sequence_reads_back doubling 3 [some [1, 2, 3], none, some [4, 5, 6]] hw⟩

end FixedSizeBinary

namespace FixedSizeBinary

/-! ## Bulk append -/

theorem take_of_take_eq {α : Type} {l1 l2 : List α} {j k : Nat} (h : l1.take k = l2.take k)
    (hj : j ≤ k) : l1.take j = l2.take j := by
  have e : ∀ l : List α, l.take j = (l.take k).take j := by
    intro l
    rw [List.take_take]
    congr 1
    omega
  rw [e l1, e l2, h]

theorem chunk_congr {l1 l2 : List Nat} {off w k : Nat} (h : l1.take k = l2.take k)
    (hk : off + w ≤ k) : (l1.drop off).take w = (l2.drop off).take w := by
  have e : ∀ l : List Nat, (l.drop off).take w = ((l.take k).drop off).take w := by
    intro l
    rw [List.drop_take, List.take_take]
    congr 1
    omega
  rw [e l1, e l2, h]

theorem appendValuesLoop_spec (g : GrowthPolicy) (vs : List (List Nat)) :
    ∀ (b : FixedSizeBinaryBuilder) (vb : byteBufferBuilder), b.values = some vb →
    vb.length ≤ vb.bytes.length →
    (∀ vv, vv ∈ vs → vv.length = 0 ∨ vv.length = b.byteWidth) →
    ∃ vb2, appendValuesLoop g b vs = .ok { b with values := some vb2 } ∧
      vb2.length = vb.length + vs.length * b.byteWidth ∧
      vb2.length ≤ vb2.bytes.length ∧
      vb2.bytes.take vb.length = vb.bytes.take vb.length ∧
      ∀ j vv, vs[j]? = some vv → vv.length = b.byteWidth →
        (vb2.bytes.drop (vb.length + j * b.byteWidth)).take b.byteWidth = vv := by
  induction vs with
  | nil =>
    intro b vb hv hr _
    refine ⟨vb, ?_, by simp, hr, rfl, fun j vv hj => by simp at hj⟩
    simp only [appendValuesLoop, ← hv]
  | cons x rest ih =>
    intro b vb hv hr hall
    have hrest : ∀ vv, vv ∈ rest → vv.length = 0 ∨ vv.length = b.byteWidth :=
      fun vv hvv => hall vv (List.mem_cons_of_mem _ hvv)
    by_cases hx : x.length = 0
    · obtain ⟨a1, a2, _, a4⟩ := valueBuffer_Advance_spec g vb b.byteWidth hr
      obtain ⟨vb2, e2, l2, r2, t2, c2⟩ :=
        ih { b with values := some (vb.Advance g b.byteWidth) } _ rfl a2 hrest
      refine ⟨vb2, ?_, ?_, r2, ?_, ?_⟩
      · simp only [appendValuesLoop, if_pos hx, valuesAdvance, hv]
        exact e2
      · rw [l2, a1, List.length_cons, Nat.add_mul, Nat.one_mul]
        show vb.length + b.byteWidth + rest.length * b.byteWidth = _
        omega
      · rw [take_of_take_eq t2 (by omega), a4]
      · intro j vv hj hvv
        cases j with
        | zero =>
          simp only [List.getElem?_cons_zero, Option.some.injEq] at hj
          subst hj
          have hz : b.byteWidth = 0 := by omega
          rw [hz, List.take_zero]
          exact (List.length_eq_zero.mp hx).symm
        | succ j =>
          simp only [List.getElem?_cons_succ] at hj
          have := c2 j vv hj hvv
          rw [a1] at this
          have e : vb.length + (j + 1) * b.byteWidth
              = vb.length + b.byteWidth + j * b.byteWidth := by
            rw [Nat.add_mul, Nat.one_mul]; omega
          rw [e]
          exact this
    · have hxw : x.length = b.byteWidth := by
        rcases hall x (List.mem_cons_self _ _) with h0 | h1
        · exact absurd h0 hx
        · exact h1
      obtain ⟨a1, a2, _, a4, a5⟩ := valueBuffer_Append_spec g vb x hr
      obtain ⟨vb2, e2, l2, r2, t2, c2⟩ :=
        ih { b with values := some (vb.Append g x) } _ rfl a2 hrest
      refine ⟨vb2, ?_, ?_, r2, ?_, ?_⟩
      · simp only [appendValuesLoop, if_neg hx, if_pos hxw, valuesAppend, hv]
        exact e2
      · rw [l2, a1, hxw, List.length_cons, Nat.add_mul, Nat.one_mul]
        show vb.length + b.byteWidth + rest.length * b.byteWidth = _
        omega
      · rw [take_of_take_eq t2 (by omega), a4]
      · intro j vv hj hvv
        cases j with
        | zero =>
          simp only [List.getElem?_cons_zero, Option.some.injEq] at hj
          subst hj
          rw [Nat.zero_mul, Nat.add_zero, chunk_congr t2 (by omega), ← hxw]
          exact a5
        | succ j =>
          simp only [List.getElem?_cons_succ] at hj
          have := c2 j vv hj hvv
          rw [a1, hxw] at this
          have e : vb.length + (j + 1) * b.byteWidth
              = vb.length + b.byteWidth + j * b.byteWidth := by
            rw [Nat.add_mul, Nat.one_mul]; omega
          rw [e]
          exact this

/-- Splicing `xs` into a bit region at offset `n`. -/
theorem splice_spec (bits xs : List Bool) (n : Nat) (h : n + xs.length ≤ bits.length) :
    (bits.take n ++ xs ++ bits.drop (n + xs.length)).length = bits.length ∧
    (bits.take n ++ xs ++ bits.drop (n + xs.length)).take n = bits.take n ∧
    ∀ j, j < xs.length →
      (bits.take n ++ xs ++ bits.drop (n + xs.length))[n + j]? = xs[j]? := by
  have hL : (bits.take n).length = n := by rw [List.length_take]; omega
  refine ⟨?_, ?_, ?_⟩
  · simp only [List.length_append, List.length_take, List.length_drop]
    omega
  · rw [List.append_assoc, List.take_left' hL]
  · intro j hj
    rw [List.append_assoc, List.getElem?_append_right (by omega), hL,
      List.getElem?_append_left (by omega)]
    congr 1
    omega

end FixedSizeBinary

namespace FixedSizeBinary

/-- The state reached by writing the bits `xs` at the tail, once the value buffer has
moved from `vb1` to `vb2` (`xs.length` more slots, earlier bytes untouched). -/
theorem bulk_core (b1 : FixedSizeBinaryBuilder) (vb1 vb2 : byteBufferBuilder)
    (bits xs : List Bool) (n2 : Nat)
    (hv : b1.values = some vb1) (ht : vb1.length = b1.length * b1.byteWidth)
    (hnb : b1.nullBitmap = some bits) (hb : bits.length = b1.capacity)
    (hcap : b1.length + xs.length ≤ b1.capacity)
    (h2len : vb2.length = vb1.length + xs.length * b1.byteWidth)
    (h2le : vb2.length ≤ vb2.bytes.length)
    (h2take : vb2.bytes.take vb1.length = vb1.bytes.take vb1.length)
    (b2 : FixedSizeBinaryBuilder)
    (hb2 : b2 = { refCount := b1.refCount,
                  nullBitmap := some (setBitsFrom bits b1.length xs),
                  nulls := n2, length := b1.length + xs.length, capacity := b1.capacity,
                  byteWidth := b1.byteWidth, values := some vb2 }) :
    WellFormed b2 ∧ Keeps b1 b2 ∧
      ∀ j, j < xs.length → b2.validAt (b1.length + j) = xs[j]?.getD false := by
  subst hb2
  obtain ⟨s1, s2, s3⟩ := splice_spec bits xs b1.length (by omega)
  have hset := setBitsFrom_eq xs bits b1.length (by omega)
  refine ⟨⟨vb2, rfl, ?_, h2le, ?_, ?_⟩, ?_, ?_⟩
  · show vb2.length = (b1.length + xs.length) * b1.byteWidth
    rw [h2len, ht, Nat.add_mul]
  · show (setBitsFrom bits b1.length xs).length = b1.capacity
    rw [hset, s1, hb]
  · exact hcap
  · refine Keeps.of_prefix rfl rfl ?_ ?_
    · show (setBitsFrom bits b1.length xs).take b1.length = b1.bits.take b1.length
      rw [hset, s2]
      simp [FixedSizeBinaryBuilder.bits, hnb]
    · show vb2.bytes.take (b1.length * b1.byteWidth) = b1.region.take _
      rw [← ht, h2take]
      simp [FixedSizeBinaryBuilder.region, hv]
  · intro j hj
    show bitAt (setBitsFrom bits b1.length xs) (b1.length + j) = _
    rw [hset, bitAt, List.getD_eq_getElem?_getD, s3 j hj]

theorem bulk_spec (b1 : FixedSizeBinaryBuilder) (vb1 vb2 : byteBufferBuilder)
    (valid : List Bool) (k : Nat)
    (hv : b1.values = some vb1) (ht : vb1.length = b1.length * b1.byteWidth)
    (hb : b1.bits.length = b1.capacity) (hcap : b1.length + k ≤ b1.capacity) (hk : 0 < k)
    (hvalid : valid.length = 0 ∨ valid.length = k)
    (h2len : vb2.length = vb1.length + k * b1.byteWidth)
    (h2le : vb2.length ≤ vb2.bytes.length)
    (h2take : vb2.bytes.take vb1.length = vb1.bytes.take vb1.length) :
    ∃ b2, builder.unsafeAppendBoolsToBitmap { b1 with values := some vb2 } valid k = .ok b2 ∧
      WellFormed b2 ∧ b2.length = b1.length + k ∧
      b2.nulls = b1.nulls + valid.count false ∧ Keeps b1 b2 ∧
      (∀ j, j < k → b2.validAt (b1.length + j) = valid[j]?.getD true) ∧
      b2.region = vb2.bytes := by
  cases hnb : b1.nullBitmap with
  | none =>
    simp [FixedSizeBinaryBuilder.bits, hnb] at hb
    omega
  | some bits =>
    have hbl : bits.length = b1.capacity := by
      simpa [FixedSizeBinaryBuilder.bits, hnb] using hb
    by_cases hz : valid.length = 0
    · have hnil : valid = [] := List.length_eq_zero.mp hz
      subst hnil
      have hlen : (List.replicate k true).length = k := List.length_replicate _ _
      obtain ⟨c1, c2, c3⟩ := bulk_core b1 vb1 vb2 bits (List.replicate k true) b1.nulls hv ht
        hnb hbl (by omega) (by rw [hlen]; exact h2len) h2le h2take _ rfl
      refine ⟨_, ?_, c1, ?_, ?_, c2, ?_, rfl⟩
      · simp only [builder.unsafeAppendBoolsToBitmap, hnb, List.length_nil, if_true]
        rw [if_pos (by omega)]
        simp only [hlen]
      · show b1.length + (List.replicate k true).length = b1.length + k
        rw [hlen]
      · simp
      · intro j hj
        rw [c3 j (by omega)]
        simp [List.getElem?_replicate, hj]
    · have hvk : valid.length = k := by
        rcases hvalid with h0 | h1
        · exact absurd h0 hz
        · exact h1
      subst hvk
      obtain ⟨c1, c2, c3⟩ := bulk_core b1 vb1 vb2 bits valid (b1.nulls + valid.count false)
        hv ht hnb hbl hcap h2len h2le h2take _ rfl
      refine ⟨_, ?_, c1, rfl, rfl, c2, ?_, rfl⟩
      · simp only [builder.unsafeAppendBoolsToBitmap, hnb, if_neg hz]
        rw [if_pos (by omega)]
      · intro j hj
        rw [c3 j hj, List.getElem?_eq_getElem hj]
        rfl

theorem AppendValues_spec (g : GrowthPolicy) (b : FixedSizeBinaryBuilder)
    (vs : List (List Nat)) (valid : List Bool) (h : WellFormed b)
    (hall : ∀ vv, vv ∈ vs → vv.length = 0 ∨ vv.length = b.byteWidth)
    (hvalid : valid.length = 0 ∨ valid.length = vs.length) :
    ∃ b2, b.AppendValues g vs valid = .ok b2 ∧ WellFormed b2 ∧
      b2.length = b.length + vs.length ∧ b2.nulls = b.nulls + valid.count false ∧
      Keeps b b2 ∧
      (∀ j, j < vs.length → b2.validAt (b.length + j) = valid[j]?.getD true) ∧
      ∀ j vv, vs[j]? = some vv → vv.length = b.byteWidth → b2.bytesAt (b.length + j) = vv := by
  have hpre : ¬ (vs.length ≠ valid.length ∧ valid.length ≠ 0) := by
    rintro ⟨h1, h2⟩
    rcases hvalid with h0 | h0
    · exact h2 h0
    · exact h1 h0.symm
  by_cases hk : vs.length = 0
  · have hnil : valid = [] := by
      rcases hvalid with h0 | h0
      · exact List.length_eq_zero.mp h0
      · exact List.length_eq_zero.mp (h0.trans hk)
    have hvs : vs = [] := List.length_eq_zero.mp hk
    subst hnil hvs
    refine ⟨b, ?_, h, rfl, by simp, Keeps.refl b, fun j hj => by simp at hj,
      fun j vv hj => by simp at hj⟩
    simp [FixedSizeBinaryBuilder.AppendValues]
  · obtain ⟨b1, hres, ⟨vb1, hv, ht, hr, hb, hc⟩, hl, hn, hcap, hkp⟩ :=
      Reserve_spec g b vs.length h
    obtain ⟨vb2, e2, l2, r2, t2, c2⟩ := appendValuesLoop_spec g vs b1 vb1 hv hr
      (fun vv hvv => by rw [hkp.1]; exact hall vv hvv)
    obtain ⟨b2, e3, wf3, l3, n3, k3, v3, r3⟩ := bulk_spec b1 vb1 vb2 valid vs.length hv ht hb
      (by omega) (by omega) hvalid l2 r2 t2
    refine ⟨b2, ?_, wf3, by omega, by omega, hkp.trans k3 (by omega), ?_, ?_⟩
    · simp only [FixedSizeBinaryBuilder.AppendValues, if_neg hpre, if_neg hk, hres, e2]
      exact e3
    · intro j hj
      rw [← hl]
      exact v3 j hj
    · intro j vv hj hvv
      unfold FixedSizeBinaryBuilder.bytesAt slot
      rw [r3, k3.1, ← hl, Nat.add_mul, ← ht]
      exact c2 j vv hj (by rw [hkp.1]; exact hvv)

end FixedSizeBinary

namespace FixedSizeBinary

/-! ## How calls fail -/

theorem init_error (b : FixedSizeBinaryBuilder) (c : Nat) (p : Panicked)
    (h : b.init c = .error p) : p.kind = .NilDereference := by
  unfold FixedSizeBinaryBuilder.init at h
  cases hv : b.values with
  | none =>
    simp only [hv] at h
    cases h
    rfl
  | some vb =>
    simp only [hv] at h
    cases h

theorem Resize_error (b : FixedSizeBinaryBuilder) (n : Nat) (p : Panicked)
    (h : b.Resize n = .error p) : p.kind = .NilDereference := by
  unfold FixedSizeBinaryBuilder.Resize builder.resize at h
  cases hi : b.init n with
  | error q =>
    simp only [hi] at h
    cases h
    exact init_error b n p hi
  | ok b1 =>
    simp only [hi] at h
    split at h <;> cases h

theorem Reserve_error (g : GrowthPolicy) (b : FixedSizeBinaryBuilder) (n : Nat) (p : Panicked)
    (h : b.Reserve g n = .error p) : p.kind = .NilDereference := by
  unfold FixedSizeBinaryBuilder.Reserve builder.reserve at h
  split at h
  · exact Resize_error b _ p h
  · cases h

/-- A builder whose value buffer exists can always reserve; the elements, the null
count and the width are not touched. -/
theorem Reserve_ok (g : GrowthPolicy) (b : FixedSizeBinaryBuilder) (vb : byteBufferBuilder)
    (n : Nat) (hv : b.values = some vb) :
    ∃ b1 vb1, b.Reserve g n = .ok b1 ∧ b1.values = some vb1 ∧ b1.length = b.length ∧
      b1.nulls = b.nulls ∧ b1.byteWidth = b.byteWidth := by
  unfold FixedSizeBinaryBuilder.Reserve builder.reserve
  by_cases hg : b.length + n > b.capacity
  · have hm := g.le_next (b.length + n)
    rw [if_pos hg, Resize_grow b vb _ hv (by omega)]
    exact ⟨_, _, rfl, rfl, rfl, rfl, rfl⟩
  · rw [if_neg hg]
    exact ⟨b, vb, rfl, hv, rfl, rfl, rfl⟩

theorem appendValuesLoop_error (g : GrowthPolicy) (vs : List (List Nat)) :
    ∀ (b : FixedSizeBinaryBuilder) (p : Panicked), appendValuesLoop g b vs = .error p →
    p.kind = .NilDereference ∨
      (p.kind = .InvalidWidth ∧ ∃ vv, vv ∈ vs ∧ vv.length ≠ 0 ∧ vv.length ≠ b.byteWidth) := by
  induction vs with
  | nil =>
    intro b p h
    cases h
  | cons x rest ih =>
    intro b p h
    unfold appendValuesLoop at h
    cases hv : b.values with
    | none =>
      simp only [valuesAdvance, valuesAppend, hv] at h
      split at h
      · cases h; exact Or.inl rfl
      · split at h
        · cases h; exact Or.inl rfl
        · rename_i h0 hw
          cases h
          exact Or.inr ⟨rfl, x, List.mem_cons_self _ _, h0, hw⟩
    | some vb =>
      simp only [valuesAdvance, valuesAppend, hv] at h
      split at h
      · rcases ih _ p h with h1 | ⟨h1, vv, m, a, c⟩
        · exact Or.inl h1
        · exact Or.inr ⟨h1, vv, List.mem_cons_of_mem _ m, a, c⟩
      · split at h
        · rcases ih _ p h with h1 | ⟨h1, vv, m, a, c⟩
          · exact Or.inl h1
          · exact Or.inr ⟨h1, vv, List.mem_cons_of_mem _ m, a, c⟩
        · rename_i h0 hw
          cases h
          exact Or.inr ⟨rfl, x, List.mem_cons_self _ _, h0, hw⟩

/-- With a value buffer in place, a batch holding an element of a length that is
neither 0 nor `W` stops the loop with InvalidWidth; the substrate is untouched. -/
theorem appendValuesLoop_fail (g : GrowthPolicy) (vs : List (List Nat)) :
    ∀ (b : FixedSizeBinaryBuilder) (vb : byteBufferBuilder), b.values = some vb →
    (∃ vv, vv ∈ vs ∧ vv.length ≠ 0 ∧ vv.length ≠ b.byteWidth) →
    ∃ s, appendValuesLoop g b vs = .error ⟨.InvalidWidth, s⟩ ∧
      s.length = b.length ∧ s.nulls = b.nulls := by
  induction vs with
  | nil =>
    intro b vb _ h
    obtain ⟨vv, m, _⟩ := h
    cases m
  | cons x rest ih =>
    intro b vb hv h
    unfold appendValuesLoop
    simp only [valuesAdvance, valuesAppend, hv]
    have hrest : (x.length = 0 ∨ x.length = b.byteWidth) →
        ∃ vv, vv ∈ rest ∧ vv.length ≠ 0 ∧ vv.length ≠ b.byteWidth := by
      intro hx
      obtain ⟨vv, m, a, c⟩ := h
      rcases List.mem_cons.mp m with e | m
      · subst e
        rcases hx with hx | hx
        · exact absurd hx a
        · exact absurd hx c
      · exact ⟨vv, m, a, c⟩
    by_cases h0 : x.length = 0
    · rw [if_pos h0]
      exact ih _ _ rfl (hrest (Or.inl h0))
    · rw [if_neg h0]
      by_cases hw : x.length = b.byteWidth
      · rw [if_pos hw]
        exact ih _ _ rfl (hrest (Or.inr hw))
      · rw [if_neg hw]
        exact ⟨b, rfl, rfl, rfl⟩

theorem bulk_error (b : FixedSizeBinaryBuilder) (valid : List Bool) (k : Nat) (p : Panicked)
    (h : builder.unsafeAppendBoolsToBitmap b valid k = .error p) :
    p.kind = .NilDereference ∨ p.kind = .IndexOutOfRange := by
  unfold builder.unsafeAppendBoolsToBitmap at h
  split at h
  · cases h; exact Or.inl rfl
  · split at h
    · split at h
      · cases h
      · cases h; exact Or.inr rfl
    · split at h
      · cases h
      · cases h; exact Or.inr rfl

/-- Every way AppendValues can panic. -/
theorem AppendValues_error (g : GrowthPolicy) (b : FixedSizeBinaryBuilder)
    (vs : List (List Nat)) (valid : List Bool) (p : Panicked)
    (h : b.AppendValues g vs valid = .error p) :
    (p = ⟨.LengthMismatch, b⟩ ∧ vs.length ≠ valid.length ∧ valid.length ≠ 0) ∨
    (¬ (vs.length ≠ valid.length ∧ valid.length ≠ 0) ∧
      (p.kind = .NilDereference ∨ p.kind = .IndexOutOfRange ∨
        (p.kind = .InvalidWidth ∧
          ∃ vv, vv ∈ vs ∧ vv.length ≠ 0 ∧ vv.length ≠ b.byteWidth))) := by
  unfold FixedSizeBinaryBuilder.AppendValues at h
  by_cases hpre : vs.length ≠ valid.length ∧ valid.length ≠ 0
  · rw [if_pos hpre] at h
    cases h
    exact Or.inl ⟨rfl, hpre⟩
  · rw [if_neg hpre] at h
    refine Or.inr ⟨hpre, ?_⟩
    split at h
    · cases h
    · cases hres : b.Reserve g vs.length with
      | error q =>
        simp only [hres] at h
        cases h
        exact Or.inl (Reserve_error g b _ p hres)
      | ok b1 =>
        simp only [hres] at h
        cases hloop : appendValuesLoop g b1 vs with
        | error q =>
          simp only [hloop] at h
          cases h
          rcases appendValuesLoop_error g vs b1 p hloop with h1 | ⟨h1, vv, m, a, c⟩
          · exact Or.inl h1
          · refine Or.inr (Or.inr ⟨h1, vv, m, a, ?_⟩)
            cases hv : b.values with
            | none =>
              unfold FixedSizeBinaryBuilder.Reserve builder.reserve at hres
              split at hres
              · unfold FixedSizeBinaryBuilder.Resize builder.resize
                  FixedSizeBinaryBuilder.init at hres
                simp only [hv] at hres
                cases hres
              · cases hres
                exact c
            | some vb =>
              obtain ⟨b1', _, e1, _, _, _, w1⟩ := Reserve_ok g b vb vs.length hv
              rw [hres] at e1
              cases e1
              rw [← w1]; exact c
        | ok b2 =>
          simp only [hloop] at h
          rcases bulk_error b2 valid vs.length p h with h1 | h1
          · exact Or.inl h1
          · exact Or.inr (Or.inl h1)

end FixedSizeBinary

namespace FixedSizeBinary

theorem AppendValues_fail (g : GrowthPolicy) (b : FixedSizeBinaryBuilder)
    (vb : byteBufferBuilder) (vs : List (List Nat)) (valid : List Bool)
    (hv : b.values = some vb) (hvalid : valid.length = 0 ∨ valid.length = vs.length)
    (hbad : ∃ vv, vv ∈ vs ∧ vv.length ≠ 0 ∧ vv.length ≠ b.byteWidth) :
    ∃ s, b.AppendValues g vs valid = .error ⟨.InvalidWidth, s⟩ ∧
      s.length = b.length ∧ s.nulls = b.nulls := by
  have hpre : ¬ (vs.length ≠ valid.length ∧ valid.length ≠ 0) := by
    rintro ⟨h1, h2⟩
    rcases hvalid with h0 | h0
    · exact h2 h0
    · exact h1 h0.symm
  have hk : vs.length ≠ 0 := by
    obtain ⟨vv, m, _⟩ := hbad
    intro h0
    rw [List.length_eq_zero.mp h0] at m
    cases m
  obtain ⟨b1, vb1, e1, hv1, l1, n1, w1⟩ := Reserve_ok g b vb vs.length hv
  obtain ⟨s, e2, l2, n2⟩ := appendValuesLoop_fail g vs b1 vb1 hv1 (by rw [w1]; exact hbad)
  refine ⟨s, ?_, by omega, by omega⟩
  simp only [FixedSizeBinaryBuilder.AppendValues, if_neg hpre, if_neg hk, e1, e2]

theorem appendAll_fail (g : GrowthPolicy) (vs : List (List Nat)) :
    ∀ b : FixedSizeBinaryBuilder, WellFormed b →
    (∃ vv, vv ∈ vs ∧ vv.length ≠ b.byteWidth) →
    ∃ p, appendAll g b (vs.map some) = .error p := by
  induction vs with
  | nil =>
    intro b _ h
    obtain ⟨vv, m, _⟩ := h
    cases m
  | cons x rest ih =>
    intro b h hbad
    by_cases hx : x.length = b.byteWidth
    · obtain ⟨b1, e1, wf1, _, _, k1, _, _⟩ := Append_spec g b x h hx
      have hrest : ∃ vv, vv ∈ rest ∧ vv.length ≠ b1.byteWidth := by
        obtain ⟨vv, m, c⟩ := hbad
        rcases List.mem_cons.mp m with e | m
        · subst e; exact absurd hx c
        · exact ⟨vv, m, by rw [k1.1]; exact c⟩
      obtain ⟨p, e2⟩ := ih b1 wf1 hrest
      exact ⟨p, by simp only [List.map_cons, appendAll, e1]; exact e2⟩
    · exact ⟨⟨.InvalidWidth, b⟩, by
        simp only [List.map_cons, appendAll, FixedSizeBinaryBuilder.Append, ne_eq, hx,
          not_false_eq_true, if_true]⟩

theorem countP_isNone_map_some (vs : List (List Nat)) :
    (vs.map some).countP Option.isNone = 0 := by
  induction vs with
  | nil => rfl
  | cons x rest ih => simp [List.countP_cons, ih]

/-- C2 (counterexample): with `W = 3`, `AppendValues([[]], [])` accepts the zero-length
element as a placeholder and succeeds, while `Append([])` panics with InvalidWidth. -/
theorem appendValues_placeholder_differs_from_append :
    (NewFixedSizeBinaryBuilder 3).AppendValues exactFit [[]] [] =
      .ok { refCount := 1, nullBitmap := some [true], nulls := 0, length := 1,
            capacity := 1, byteWidth := 3, values := some ⟨[0, 0, 0], 3⟩ } ∧
    appendAll exactFit (NewFixedSizeBinaryBuilder 3) ([[]].map some) =
      .error ⟨.InvalidWidth, NewFixedSizeBinaryBuilder 3⟩ :=
  ⟨rfl, rfl⟩

/-- C2 (amended): on a well-formed builder and for `values` without a zero-length
element (unless `W = 0`), `AppendValues(values, [])` and `Append` on every element in
order fail together or succeed together, and on success leave the same length, the
same nullCount, and for every element the same validity and the same bytes. -/
theorem appendValues_all_valid_eq_appends (g : GrowthPolicy) (b : FixedSizeBinaryBuilder)
    (vs : List (List Nat)) (h : WellFormed b)
    (hz : ∀ vv, vv ∈ vs → vv.length = 0 → b.byteWidth = 0) :
    ((∃ p, b.AppendValues g vs [] = .error p) ↔
      (∃ p, appendAll g b (vs.map some) = .error p)) ∧
    ∀ b1 b2, b.AppendValues g vs [] = .ok b1 → appendAll g b (vs.map some) = .ok b2 →
      b1.length = b2.length ∧ b1.nulls = b2.nulls ∧
      ∀ i, i < b1.length → b1.validAt i = b2.validAt i ∧ b1.bytesAt i = b2.bytesAt i := by
  by_cases hall : ∀ vv, vv ∈ vs → vv.length = b.byteWidth
  · obtain ⟨c1, e1, _, l1, n1, k1, v1, y1⟩ := AppendValues_spec g b vs [] h
      (fun vv m => Or.inr (hall vv m)) (Or.inl rfl)
    obtain ⟨c2, e2, _, l2, n2, k2, el2⟩ := appendAll_spec g (vs.map some) b h (by
      intro v m
      obtain ⟨vv, mv, e⟩ := List.mem_map.mp m
      cases e
      exact hall v mv)
    rw [List.length_map] at l2
    rw [countP_isNone_map_some] at n2
    simp only [List.count_nil] at n1
    refine ⟨⟨fun ⟨p, hp⟩ => (by rw [e1] at hp; cases hp),
      fun ⟨p, hp⟩ => (by rw [e2] at hp; cases hp)⟩, ?_⟩
    intro b1 b2 h1 h2
    rw [e1] at h1
    rw [e2] at h2
    cases h1
    cases h2
    refine ⟨by omega, by omega, fun i hi => ?_⟩
    by_cases hlt : i < b.length
    · obtain ⟨a1, a2⟩ := k1.2.2 i hlt
      obtain ⟨a3, a4⟩ := k2.2.2 i hlt
      exact ⟨a1.trans a3.symm, a2.trans a4.symm⟩
    · obtain ⟨j, rfl⟩ : ∃ j, i = b.length + j := ⟨i - b.length, by omega⟩
      have hj : j < vs.length := by omega
      have hget : vs[j]? = some vs[j] := List.getElem?_eq_getElem hj
      have hmap : (vs.map some)[j]? = some (some vs[j]) := by
        rw [List.getElem?_map, hget]; rfl
      obtain ⟨a3, a4⟩ := (el2 j).1 _ hmap
      have a1 := v1 j hj
      simp only [List.getElem?_nil, Option.getD_none] at a1
      have a2 := y1 j _ hget (hall _ (List.getElem_mem _))
      exact ⟨a1.trans a3.symm, a2.trans a4.symm⟩
  · have hbad : ∃ vv, vv ∈ vs ∧ vv.length ≠ b.byteWidth := by
      by_contra hc
      exact hall (fun vv m => by
        by_contra hne
        exact hc ⟨vv, m, hne⟩)
    obtain ⟨vb, hv, _⟩ := h
    obtain ⟨vv, m, c⟩ := hbad
    have h0 : vv.length ≠ 0 := fun h0 => c (by rw [h0, hz vv m h0])
    obtain ⟨s, e1, _, _⟩ := AppendValues_fail g b vb vs [] hv (Or.inl rfl) ⟨vv, m, h0, c⟩
    obtain ⟨p, e2⟩ := appendAll_fail g vs b ⟨vb, hv, ‹_›⟩ ⟨vv, m, c⟩
    refine ⟨⟨fun _ => ⟨p, e2⟩, fun _ => ⟨_, e1⟩⟩, ?_⟩
    intro b1 b2 h1 _
    rw [e1] at h1
    cases h1

/-- Witness for C2 (amended): `W = 3`, fresh builder, `values = [[1,2,3],[4,5,6]]`. -/
theorem appendValues_all_valid_eq_appends_witness :
    WellFormed (NewFixedSizeBinaryBuilder 3) ∧
    (∀ vv, vv ∈ [[1, 2, 3], [4, 5, 6]] → vv.length = 0 →
      (NewFixedSizeBinaryBuilder 3).byteWidth = 0) ∧
    (((∃ p, (NewFixedSizeBinaryBuilder 3).AppendValues doubling [[1, 2, 3], [4, 5, 6]] []
          = .error p) ↔
      (∃ p, appendAll doubling (NewFixedSizeBinaryBuilder 3)
          ([[1, 2, 3], [4, 5, 6]].map some) = .error p)) ∧
    ∀ b1 b2,
      (NewFixedSizeBinaryBuilder 3).AppendValues doubling [[1, 2, 3], [4, 5, 6]] [] = .ok b1 →
      appendAll doubling (NewFixedSizeBinaryBuilder 3)
          ([[1, 2, 3], [4, 5, 6]].map some) = .ok b2 →
      b1.length = b2.length ∧ b1.nulls = b2.nulls ∧
      ∀ i, i < b1.length → b1.validAt i = b2.validAt i ∧ b1.bytesAt i = b2.bytesAt i) :=
  have hz : ∀ vv, vv ∈ [[1, 2, 3], [4, 5, 6]] → vv.length = 0 →
      (NewFixedSizeBinaryBuilder 3).byteWidth = 0 := by
    intro vv m h0
    simp only [List.mem_cons, List.mem_singleton] at m
    rcases m with rfl | rfl | m
    · simp at h0
    · simp at h0
    · cases m
  ⟨wellFormed_new 3, hz,
    appendValues_all_valid_eq_appends doubling (NewFixedSizeBinaryBuilder 3)
      [[1, 2, 3], [4, 5, 6]] (wellFormed_new 3) hz⟩

end FixedSizeBinary

namespace FixedSizeBinary

/-- C3: on a well-formed builder of length `N`, for `values` whose elements each have
length 0 or `W` and `valid` of the same length, `AppendValues(values, valid)` does not
fail, adds `len(values)` to the length and the number of `false` entries of `valid` to
nullCount, makes element `N+i` valid exactly when `valid[i]` is true (placeholders
included), stores `values[i]` as the bytes of element `N+i` when `len(values[i]) = W`,
and keeps the earlier elements. -/
theorem appendValues_with_validity (g : GrowthPolicy) (b : FixedSizeBinaryBuilder)
    (vs : List (List Nat)) (valid : List Bool) (h : WellFormed b)
    (hall : ∀ vv, vv ∈ vs → vv.length = 0 ∨ vv.length = b.byteWidth)
    (hlen : valid.length = vs.length) :
    ∃ b2, b.AppendValues g vs valid = .ok b2 ∧
      b2.length = b.length + vs.length ∧ b2.nulls = b.nulls + valid.count false ∧
      (∀ i x, valid[i]? = some x → b2.validAt (b.length + i) = x) ∧
      (∀ i vv, vs[i]? = some vv → vv.length = b.byteWidth →
        b2.bytesAt (b.length + i) = vv) ∧
      Keeps b b2 := by
  obtain ⟨b2, e, _, l, n, k, v, y⟩ := AppendValues_spec g b vs valid h hall (Or.inr hlen)
  refine ⟨b2, e, l, n, ?_, y, k⟩
  intro i x hx
  have hi : i < valid.length := by
    by_contra hc
    rw [List.getElem?_eq_none (by omega)] at hx
    cases hx
  rw [v i (by omega), hx]
  rfl

/-- Witness for C3: `AppendValues([[1,2,3],[4,5,6]], [true,false])` on a fresh builder
of width 3. -/
theorem appendValues_with_validity_witness :
    WellFormed (NewFixedSizeBinaryBuilder 3) ∧
    (∀ vv, vv ∈ [[1, 2, 3], [4, 5, 6]] →
      vv.length = 0 ∨ vv.length = (NewFixedSizeBinaryBuilder 3).byteWidth) ∧
    [true, false].length = [[1, 2, 3], [4, 5, 6]].length ∧
    ∃ b2, (NewFixedSizeBinaryBuilder 3).AppendValues doubling [[1, 2, 3], [4, 5, 6]]
        [true, false] = .ok b2 ∧
      b2.length = (NewFixedSizeBinaryBuilder 3).length + [[1, 2, 3], [4, 5, 6]].length ∧
      b2.nulls = (NewFixedSizeBinaryBuilder 3).nulls + [true, false].count false ∧
      (∀ i x, [true, false][i]? = some x →
        b2.validAt ((NewFixedSizeBinaryBuilder 3).length + i) = x) ∧
      (∀ i vv, [[1, 2, 3], [4, 5, 6]][i]? = some vv →
        vv.length = (NewFixedSizeBinaryBuilder 3).byteWidth →
        b2.bytesAt ((NewFixedSizeBinaryBuilder 3).length + i) = vv) ∧
      Keeps (NewFixedSizeBinaryBuilder 3) b2 :=
  have hall : ∀ vv, vv ∈ [[1, 2, 3], [4, 5, 6]] →
      vv.length = 0 ∨ vv.length = (NewFixedSizeBinaryBuilder 3).byteWidth := by
    intro vv m
    simp only [List.mem_cons, List.mem_singleton] at m
    rcases m with rfl | rfl | m
    · exact Or.inr rfl
    · exact Or.inr rfl
    · cases m
  ⟨wellFormed_new 3, hall, rfl,
    appendValues_with_validity doubling (NewFixedSizeBinaryBuilder 3) [[1, 2, 3], [4, 5, 6]]
      [true, false] (wellFormed_new 3) hall rfl⟩

/-- C4: `Append(v)` with `len(v) ≠ W` panics with InvalidWidth before any mutation (the
builder carried by the panic is the one before the call), and on a well-formed
builder `Append(v)` panics only if `len(v) ≠ W`. -/
theorem append_invalid_width (g : GrowthPolicy) (b : FixedSizeBinaryBuilder) (v : List Nat)
    (h : WellFormed b) :
    (v.length ≠ b.byteWidth → b.Append g v = .error ⟨.InvalidWidth, b⟩) ∧
    ((∃ p, b.Append g v = .error p) → v.length ≠ b.byteWidth) := by
  refine ⟨fun hne => ?_, fun ⟨p, hp⟩ heq => ?_⟩
  · simp only [FixedSizeBinaryBuilder.Append, ne_eq, hne, not_false_eq_true, if_true]
  · obtain ⟨b2, e, _⟩ := Append_spec g b v h heq
    rw [e] at hp
    cases hp

/-- Witness for C4: `W = 3`, `Append([1,2])` on a fresh builder. -/
theorem append_invalid_width_witness :
    WellFormed (NewFixedSizeBinaryBuilder 3) ∧
    (([1, 2] : List Nat).length ≠ (NewFixedSizeBinaryBuilder 3).byteWidth →
      (NewFixedSizeBinaryBuilder 3).Append doubling [1, 2] =
        .error ⟨.InvalidWidth, NewFixedSizeBinaryBuilder 3⟩) ∧
    ((∃ p, (NewFixedSizeBinaryBuilder 3).Append doubling [1, 2] = .error p) →
      ([1, 2] : List Nat).length ≠ (NewFixedSizeBinaryBuilder 3).byteWidth) :=
  ⟨wellFormed_new 3,
    append_invalid_width doubling (NewFixedSizeBinaryBuilder 3) [1, 2] (wellFormed_new 3)⟩

/-- C5: in every builder state, `AppendValues(values, valid)` panics with
LengthMismatch exactly when `len(valid) ≠ 0` and `len(valid) ≠ len(values)`, and the
builder carried by that panic is the one before the call. -/
theorem appendValues_length_mismatch (g : GrowthPolicy) (b : FixedSizeBinaryBuilder)
    (vs : List (List Nat)) (valid : List Bool) :
    ((∃ s, b.AppendValues g vs valid = .error ⟨.LengthMismatch, s⟩) ↔
      (valid.length ≠ 0 ∧ valid.length ≠ vs.length)) ∧
    ∀ s, b.AppendValues g vs valid = .error ⟨.LengthMismatch, s⟩ → s = b := by
  have key : ∀ s, b.AppendValues g vs valid = .error ⟨.LengthMismatch, s⟩ →
      s = b ∧ valid.length ≠ 0 ∧ valid.length ≠ vs.length := by
    intro s hs
    rcases AppendValues_error g b vs valid _ hs with ⟨e, h1, h2⟩ | ⟨_, h1 | h1 | ⟨h1, _⟩⟩
    · exact ⟨by cases e; rfl, h2, fun c => h1 c.symm⟩
    · cases h1
    · cases h1
    · cases h1
  refine ⟨⟨fun ⟨s, hs⟩ => (key s hs).2, fun ⟨h1, h2⟩ => ⟨b, ?_⟩⟩, fun s hs => (key s hs).1⟩
  have hpre : vs.length ≠ valid.length ∧ valid.length ≠ 0 := ⟨fun c => h2 c.symm, h1⟩
  simp only [FixedSizeBinaryBuilder.AppendValues, if_pos hpre]

/-- C6: on a builder whose value buffer exists and under the length precondition, a
batch holding an element whose length is neither 0 nor `W` makes AppendValues panic
with InvalidWidth, with length and nullCount as before the call; and a batch whose
elements all have length 0 or `W` never panics with InvalidWidth. -/
theorem appendValues_invalid_width (g : GrowthPolicy) (b : FixedSizeBinaryBuilder)
    (vb : byteBufferBuilder) (vs : List (List Nat)) (valid : List Bool)
    (hv : b.values = some vb) (hpre : valid.length = 0 ∨ valid.length = vs.length) :
    ((∃ vv, vv ∈ vs ∧ vv.length ≠ 0 ∧ vv.length ≠ b.byteWidth) →
      ∃ s, b.AppendValues g vs valid = .error ⟨.InvalidWidth, s⟩ ∧
        s.length = b.length ∧ s.nulls = b.nulls) ∧
    ((∀ vv, vv ∈ vs → vv.length = 0 ∨ vv.length = b.byteWidth) →
      ∀ p, b.AppendValues g vs valid = .error p → p.kind ≠ .InvalidWidth) := by
  refine ⟨fun hbad => AppendValues_fail g b vb vs valid hv hpre hbad, fun hall p hp => ?_⟩
  rcases AppendValues_error g b vs valid p hp with ⟨e, _⟩ | ⟨_, h1 | h1 | ⟨_, vv, m, a, c⟩⟩
  · rw [e]; exact fun c => by cases c
  · rw [h1]; exact fun c => by cases c
  · rw [h1]; exact fun c => by cases c
  · rcases hall vv m with h0 | h0
    · exact absurd h0 a
    · exact absurd h0 c

/-- Witness for C6: `W = 3`, `AppendValues([[1,2,3],[4]], [])` on a fresh builder. -/
theorem appendValues_invalid_width_witness :
    (NewFixedSizeBinaryBuilder 3).values = some newByteBufferBuilder ∧
    (([] : List Bool).length = 0 ∨ ([] : List Bool).length = [[1, 2, 3], [4]].length) ∧
    ((∃ vv, vv ∈ [[1, 2, 3], [4]] ∧ vv.length ≠ 0 ∧
        vv.length ≠ (NewFixedSizeBinaryBuilder 3).byteWidth) →
      ∃ s, (NewFixedSizeBinaryBuilder 3).AppendValues doubling [[1, 2, 3], [4]] [] =
          .error ⟨.InvalidWidth, s⟩ ∧
        s.length = (NewFixedSizeBinaryBuilder 3).length ∧
        s.nulls = (NewFixedSizeBinaryBuilder 3).nulls) ∧
    ((∀ vv, vv ∈ [[1, 2, 3], [4]] →
        vv.length = 0 ∨ vv.length = (NewFixedSizeBinaryBuilder 3).byteWidth) →
      ∀ p, (NewFixedSizeBinaryBuilder 3).AppendValues doubling [[1, 2, 3], [4]] [] = .error p →
        p.kind ≠ .InvalidWidth) :=
  ⟨rfl, Or.inl rfl,
    appendValues_invalid_width doubling (NewFixedSizeBinaryBuilder 3) newByteBufferBuilder
      [[1, 2, 3], [4]] [] rfl (Or.inl rfl)⟩

/-- C7 (counterexample): with no values but a non-empty `valid`, AppendValues is not a
silent no-op: the length check comes first and panics with LengthMismatch. -/
theorem empty_batch_with_valid_panics :
    (NewFixedSizeBinaryBuilder 3).AppendValues doubling [] [true] =
      .error ⟨.LengthMismatch, NewFixedSizeBinaryBuilder 3⟩ :=
  rfl

/-- C7 (amended): in every builder state, `AppendValues` with `len(values) = 0` returns
the builder unchanged (length, nullCount, capacity, value buffer, presence bits) when
`valid` is empty too, and panics with LengthMismatch, the builder still unchanged, when
`valid` is not empty. -/
theorem appendValues_empty (g : GrowthPolicy) (b : FixedSizeBinaryBuilder)
    (valid : List Bool) :
    b.AppendValues g [] valid =
      if valid.length = 0 then .ok b else .error ⟨.LengthMismatch, b⟩ := by
  by_cases hz : valid.length = 0
  · simp [FixedSizeBinaryBuilder.AppendValues, hz]
  · have hpre : ([] : List (List Nat)).length ≠ valid.length ∧ valid.length ≠ 0 :=
      ⟨fun c => hz c.symm, hz⟩
    simp only [FixedSizeBinaryBuilder.AppendValues, if_pos hpre, if_neg hz]

end FixedSizeBinary

namespace FixedSizeBinary

/-! ## Call sequences and Finish -/

theorem apply_wellFormed (g : GrowthPolicy) (b b1 : FixedSizeBinaryBuilder) (c : Call)
    (h : WellFormed b) (hc : c.apply g b = .ok b1) :
    WellFormed b1 ∧ b1.byteWidth = b.byteWidth := by
  cases c with
  | append v =>
    simp only [Call.apply] at hc
    by_cases hw : v.length = b.byteWidth
    · obtain ⟨b2, e, wf, _, _, k, _⟩ := Append_spec g b v h hw
      rw [e] at hc
      cases hc
      exact ⟨wf, k.1⟩
    · simp only [FixedSizeBinaryBuilder.Append, ne_eq, hw, not_false_eq_true, if_true] at hc
      cases hc
  | appendNull =>
    simp only [Call.apply] at hc
    obtain ⟨b2, e, wf, _, _, k, _⟩ := AppendNull_spec g b h
    rw [e] at hc
    cases hc
    exact ⟨wf, k.1⟩
  | appendValues vs valid =>
    simp only [Call.apply] at hc
    by_cases hvalid : valid.length = 0 ∨ valid.length = vs.length
    · by_cases hall : ∀ vv, vv ∈ vs → vv.length = 0 ∨ vv.length = b.byteWidth
      · obtain ⟨b2, e, wf, _, _, k, _⟩ := AppendValues_spec g b vs valid h hall hvalid
        rw [e] at hc
        cases hc
        exact ⟨wf, k.1⟩
      · have hbad : ∃ vv, vv ∈ vs ∧ vv.length ≠ 0 ∧ vv.length ≠ b.byteWidth := by
          by_contra hn
          exact hall (fun vv m => by
            by_contra hne
            exact hn ⟨vv, m, fun c => hne (Or.inl c), fun c => hne (Or.inr c)⟩)
        obtain ⟨vb, hv, _⟩ := h
        obtain ⟨s, e, _⟩ := AppendValues_fail g b vb vs valid hv hvalid hbad
        rw [e] at hc
        cases hc
    · have hpre : vs.length ≠ valid.length ∧ valid.length ≠ 0 :=
        ⟨fun c => hvalid (Or.inr c.symm), fun c => hvalid (Or.inl c)⟩
      simp only [FixedSizeBinaryBuilder.AppendValues, if_pos hpre] at hc
      cases hc

theorem run_wellFormed (g : GrowthPolicy) (cs : List Call) :
    ∀ b b1 : FixedSizeBinaryBuilder, WellFormed b → run g b cs = .ok b1 →
    WellFormed b1 ∧ b1.byteWidth = b.byteWidth := by
  induction cs with
  | nil =>
    intro b b1 h hr
    cases hr
    exact ⟨h, rfl⟩
  | cons c cs ih =>
    intro b b1 h hr
    unfold run at hr
    cases hc : c.apply g b with
    | error p =>
      simp only [hc] at hr
      cases hr
    | ok b2 =>
      simp only [hc] at hr
      obtain ⟨wf2, w2⟩ := apply_wellFormed g b b2 c h hc
      obtain ⟨wf1, w1⟩ := ih b2 b1 wf2 hr
      exact ⟨wf1, w1.trans w2⟩

/-- Finish on a well-formed builder: what the descriptor holds. -/
theorem newData_spec (b : FixedSizeBinaryBuilder) (h : WellFormed b) :
    ∃ d b1, b.NewFixedSizeBinaryArray = .ok (d, b1) ∧ d.byteWidth = b.byteWidth ∧
      d.length = b.length ∧ d.nulls = b.nulls ∧ d.nullBitmap = b.nullBitmap ∧
      d.values.length = b.length * b.byteWidth ∧
      ∀ i, i < b.length → d.validAt i = b.validAt i ∧ d.bytesAt i = b.bytesAt i ∧
        (d.bytesAt i).length = b.byteWidth := by
  obtain ⟨vb, hv, ht, hr, hb, hc⟩ := h
  have hlen : (vb.bytes.take vb.length).length = b.length * b.byteWidth := by
    rw [List.length_take, ← ht]; omega
  refine ⟨_, _, by simp only [FixedSizeBinaryBuilder.NewFixedSizeBinaryArray,
    FixedSizeBinaryBuilder.newData, hv]; rfl, rfl, rfl, rfl, rfl, hlen, fun i hi => ?_⟩
  have hi2 : (i + 1) * b.byteWidth ≤ vb.length := by
    rw [ht]; exact Nat.mul_le_mul_right _ hi
  have hbytes : slot (vb.bytes.take vb.length) b.byteWidth i = slot b.region b.byteWidth i := by
    rw [slot_take _ _ _ _ hi2]
    simp [FixedSizeBinaryBuilder.region, hv]
  refine ⟨rfl, hbytes, ?_⟩
  show (slot (vb.bytes.take vb.length) b.byteWidth i).length = b.byteWidth
  exact length_slot _ _ _ (by rw [hlen, ← ht]; exact hi2)

end FixedSizeBinary

namespace FixedSizeBinary

/-! ## The reference count plays no part in appending -/

end FixedSizeBinary

namespace FixedSizeBinary

/-- C8: for every builder reached from a fresh builder of width `W` by successful
appending calls, Finish succeeds and returns a descriptor with element width `W`, the
builder's length and nullCount, and for every `i < length` the validity and the `W`
bytes element `i` had in the builder just before the call. -/
theorem finish_matches_builder (g : GrowthPolicy) (W : Nat) (cs : List Call)
    (b : FixedSizeBinaryBuilder) (hrun : run g (NewFixedSizeBinaryBuilder W) cs = .ok b) :
    ∃ d b1, b.NewFixedSizeBinaryArray = .ok (d, b1) ∧ d.byteWidth = W ∧
      d.length = b.length ∧ d.nulls = b.nulls ∧
      ∀ i, i < b.length → d.validAt i = b.validAt i ∧ d.bytesAt i = b.bytesAt i ∧
        (d.bytesAt i).length = W := by
  obtain ⟨wf, hw⟩ := run_wellFormed g cs _ b (wellFormed_new W) hrun
  have hw2 : b.byteWidth = W := hw
  obtain ⟨d, b1, e, w, l, n, _, _, el⟩ := newData_spec b wf
  exact ⟨d, b1, e, w.trans hw2, l, n, fun i hi => by rw [← hw2]; exact el i hi⟩

/-- Witness for C8: width 3, `Append([1,2,3]); AppendNull(); Append([4,5,6])`. -/
theorem finish_matches_builder_witness :
    run exactFit (NewFixedSizeBinaryBuilder 3)
        [.append [1, 2, 3], .appendNull, .append [4, 5, 6]] =
      .ok { refCount := 1, nullBitmap := some [true, false, true], nulls := 1, length := 3,
            capacity := 3, byteWidth := 3,
            values := some ⟨[1, 2, 3, 0, 0, 0, 4, 5, 6], 9⟩ } ∧
    ∃ d b1, FixedSizeBinaryBuilder.NewFixedSizeBinaryArray
        { refCount := 1, nullBitmap := some [true, false, true], nulls := 1, length := 3,
          capacity := 3, byteWidth := 3,
          values := some ⟨[1, 2, 3, 0, 0, 0, 4, 5, 6], 9⟩ } = .ok (d, b1) ∧
      d.byteWidth = 3 ∧ d.length = 3 ∧ d.nulls = 1 ∧
      ∀ i, i < 3 →
        d.validAt i = FixedSizeBinaryBuilder.validAt
          { refCount := 1, nullBitmap := some [true, false, true], nulls := 1, length := 3,
            capacity := 3, byteWidth := 3,
            values := some ⟨[1, 2, 3, 0, 0, 0, 4, 5, 6], 9⟩ } i ∧
        d.bytesAt i = FixedSizeBinaryBuilder.bytesAt
          { refCount := 1, nullBitmap := some [true, false, true], nulls := 1, length := 3,
            capacity := 3, byteWidth := 3,
            values := some ⟨[1, 2, 3, 0, 0, 0, 4, 5, 6], 9⟩ } i ∧
        (d.bytesAt i).length = 3 :=
  ⟨rfl, finish_matches_builder exactFit 3 [.append [1, 2, 3], .appendNull, .append [4, 5, 6]]
    _ rfl⟩

/-- C10 (counterexample): width 3, `Resize(16)`, `Append([1,2,3])`, Finish.  The
descriptor has length 1 and a 3-byte value buffer, but its presence buffer is the
builder's 16-bit storage: 2 bytes, not the 1 byte that covers 1 bit. -/
theorem finish_exposes_presence_capacity :
    ∃ b1 b2 d b3, (NewFixedSizeBinaryBuilder 3).Resize 16 = .ok b1 ∧
      b1.Append exactFit [1, 2, 3] = .ok b2 ∧
      b2.NewFixedSizeBinaryArray = .ok (d, b3) ∧
      d.length = 1 ∧ d.values = [1, 2, 3] ∧
      (d.nullBitmap.getD []).length = 16 ∧
      ((d.nullBitmap.getD []).length + 7) / 8 ≠ (d.length + 7) / 8 :=
  ⟨_, _, _, _, rfl, rfl, rfl, rfl, rfl, rfl, by decide⟩

/-- C10 (amended): Finish on a well-formed builder of length `N` and capacity `C`
returns a value buffer of exactly `N * W` bytes (unused value capacity is trimmed),
and as presence buffer the builder's presence storage as it is, which covers `C ≥ N`
bits. -/
theorem finish_buffer_sizes (b : FixedSizeBinaryBuilder) (h : WellFormed b) :
    ∃ d b1, b.NewFixedSizeBinaryArray = .ok (d, b1) ∧ d.length = b.length ∧
      d.values.length = b.length * b.byteWidth ∧
      d.nullBitmap = b.nullBitmap ∧
      (d.nullBitmap.getD []).length = b.capacity ∧ b.length ≤ b.capacity := by
  obtain ⟨d, b1, e, _, l, _, nb, vl, _⟩ := newData_spec b h
  obtain ⟨_, _, _, _, hb, hc⟩ := h
  refine ⟨d, b1, e, l, vl, nb, ?_, hc⟩
  rw [nb]
  exact hb

/-- Witness for C10 (amended): the builder holding `[1,2,3]`, null, `[4,5,6]` with
capacity 6. -/
theorem finish_buffer_sizes_witness :
    WellFormed
      { refCount := 1, nullBitmap := some [true, false, true, false, false, false], nulls := 1,
        length := 3, capacity := 6, byteWidth := 3,
        values := some ⟨[1, 2, 3, 0, 0, 0, 4, 5, 6, 0, 0, 0, 0, 0, 0, 0, 0, 0], 9⟩ } ∧
    ∃ d b1, FixedSizeBinaryBuilder.NewFixedSizeBinaryArray
      { refCount := 1, nullBitmap := some [true, false, true, false, false, false], nulls := 1,
        length := 3, capacity := 6, byteWidth := 3,
        values := some ⟨[1, 2, 3, 0, 0, 0, 4, 5, 6, 0, 0, 0, 0, 0, 0, 0, 0, 0], 9⟩ } = .ok (d, b1) ∧
      d.length = 3 ∧ d.values.length = 3 * 3 ∧
      d.nullBitmap = some [true, false, true, false, false, false] ∧
      (d.nullBitmap.getD []).length = 6 ∧ 3 ≤ 6 :=
  have wf : WellFormed
      { refCount := 1, nullBitmap := some [true, false, true, false, false, false], nulls := 1,
        length := 3, capacity := 6, byteWidth := 3,
        values := some ⟨[1, 2, 3, 0, 0, 0, 4, 5, 6, 0, 0, 0, 0, 0, 0, 0, 0, 0], 9⟩ } :=
    ⟨_, rfl, rfl, by decide, rfl, by decide⟩
  ⟨wf, finish_buffer_sizes _ wf⟩

end FixedSizeBinary

namespace FixedSizeBinary

/-! ## Frames: what one step leaves alone -/

theorem push_frame (b b2 : FixedSizeBinaryBuilder) (x : Bool)
    (h : builder.UnsafeAppendBoolToBitmap b x = .ok b2) :
    b2.capacity = b.capacity ∧ b2.values = b.values ∧ b2.byteWidth = b.byteWidth ∧
      b2.bits.length = b.bits.length := by
  unfold builder.UnsafeAppendBoolToBitmap at h
  cases hnb : b.nullBitmap with
  | none =>
    simp only [hnb] at h
    cases h
  | some bits =>
    simp only [hnb] at h
    split at h
    · cases h
      refine ⟨rfl, rfl, rfl, ?_⟩
      simp [FixedSizeBinaryBuilder.bits, hnb]
    · cases h

theorem setBitsFrom_length (vs : List Bool) : ∀ (bits : List Bool) (start : Nat),
    (setBitsFrom bits start vs).length = bits.length := by
  induction vs with
  | nil => intro bits start; rfl
  | cons v vs ih =>
    intro bits start
    rw [setBitsFrom, ih, List.length_set]

theorem bulk_frame (b b2 : FixedSizeBinaryBuilder) (valid : List Bool) (k : Nat)
    (h : builder.unsafeAppendBoolsToBitmap b valid k = .ok b2) :
    b2.capacity = b.capacity ∧ b2.values = b.values ∧ b2.byteWidth = b.byteWidth ∧
      b2.bits.length = b.bits.length := by
  unfold builder.unsafeAppendBoolsToBitmap at h
  cases hnb : b.nullBitmap with
  | none =>
    simp only [hnb] at h
    cases h
  | some bits =>
    simp only [hnb] at h
    split at h
    · split at h
      · cases h
        refine ⟨rfl, rfl, rfl, ?_⟩
        simp [FixedSizeBinaryBuilder.bits, hnb, setBitsFrom_length]
      · cases h
    · split at h
      · cases h
        refine ⟨rfl, rfl, rfl, ?_⟩
        simp [FixedSizeBinaryBuilder.bits, hnb, setBitsFrom_length]
      · cases h

/-- Resize always leaves storage of exactly the requested capacity. -/
theorem Resize_sizes (b b1 : FixedSizeBinaryBuilder) (n : Nat) (h : b.Resize n = .ok b1) :
    b1.capacity = n ∧ b1.region.length = n * b1.byteWidth ∧ b1.bits.length = n ∧
      b1.byteWidth = b.byteWidth := by
  cases hv : b.values with
  | none =>
    simp only [FixedSizeBinaryBuilder.Resize, builder.resize, FixedSizeBinaryBuilder.init,
      hv] at h
    cases h
  | some vb =>
    simp only [FixedSizeBinaryBuilder.Resize, builder.resize, init_some b vb n hv] at h
    split at h
    · cases h
      refine ⟨rfl, ?_, ?_, rfl⟩
      · show (resizeBytes vb.bytes (n * b.byteWidth)).length = n * b.byteWidth
        exact length_resizeBytes _ _
      · show (resizeBits b.bits n).length = n
        exact length_resizeBits _ _
    · cases h
      refine ⟨rfl, ?_, ?_, rfl⟩
      · show (resizeBytes vb.bytes (n * b.byteWidth)).length = n * b.byteWidth
        exact length_resizeBytes _ _
      · show (resizeBits b.bits n).length = n
        exact length_resizeBits _ _

theorem Reserve_sized (g : GrowthPolicy) (b b1 : FixedSizeBinaryBuilder) (n : Nat)
    (hs : Sized b) (h : b.Reserve g n = .ok b1) : Sized b1 := by
  unfold FixedSizeBinaryBuilder.Reserve builder.reserve at h
  split at h
  · obtain ⟨c, r, _, _⟩ := Resize_sizes b b1 _ h
    unfold Sized
    rw [c, r]
  · cases h
    exact hs

theorem valuesAppend_frame (g : GrowthPolicy) (b b2 : FixedSizeBinaryBuilder) (v : List Nat)
    (h : valuesAppend g b v = .ok b2) :
    b2.tobuilder = b.tobuilder ∧ b2.byteWidth = b.byteWidth ∧
      b.region.length ≤ b2.region.length ∧
      (b.written + v.length ≤ b.region.length → b2.region.length = b.region.length) := by
  unfold valuesAppend at h
  cases hv : b.values with
  | none =>
    simp only [hv] at h
    cases h
  | some vb =>
    simp only [hv] at h
    cases h
    refine ⟨rfl, rfl, ?_, ?_⟩
    · have hreg : b.region = vb.bytes := by simp [FixedSizeBinaryBuilder.region, hv]
      rw [hreg]
      show vb.bytes.length ≤ (vb.Append g v).bytes.length
      unfold byteBufferBuilder.Append
      simp only [List.length_append, List.length_take, List.length_drop]
      split
      · simp only [byteBufferBuilder.resize, length_resizeBytes]
        have := g.le_next (vb.length + v.length)
        omega
      · omega
    · intro hroom
      have hreg : b.region = vb.bytes := by simp [FixedSizeBinaryBuilder.region, hv]
      have hwr : b.written = vb.length := by simp [FixedSizeBinaryBuilder.written, hv]
      rw [hreg, hwr] at hroom
      rw [hreg]
      show (vb.Append g v).bytes.length = vb.bytes.length
      unfold byteBufferBuilder.Append
      rw [if_neg (by omega)]
      simp only [List.length_append, List.length_take, List.length_drop]
      omega

theorem valuesAdvance_frame (g : GrowthPolicy) (b b2 : FixedSizeBinaryBuilder) (n : Nat)
    (h : valuesAdvance g b n = .ok b2) :
    b2.tobuilder = b.tobuilder ∧ b2.byteWidth = b.byteWidth ∧
      b.region.length ≤ b2.region.length ∧
      (b.written + n ≤ b.region.length → b2.region.length = b.region.length) := by
  unfold valuesAdvance at h
  cases hv : b.values with
  | none =>
    simp only [hv] at h
    cases h
  | some vb =>
    simp only [hv] at h
    cases h
    refine ⟨rfl, rfl, ?_, ?_⟩
    · have hreg : b.region = vb.bytes := by simp [FixedSizeBinaryBuilder.region, hv]
      rw [hreg]
      show vb.bytes.length ≤ (vb.Advance g n).bytes.length
      unfold byteBufferBuilder.Advance
      split
      · simp only [byteBufferBuilder.resize, length_resizeBytes]
        have := g.le_next (vb.length + n)
        omega
      · exact Nat.le_refl _
    · intro hroom
      have hreg : b.region = vb.bytes := by simp [FixedSizeBinaryBuilder.region, hv]
      have hwr : b.written = vb.length := by simp [FixedSizeBinaryBuilder.written, hv]
      rw [hreg, hwr] at hroom
      rw [hreg]
      show (vb.Advance g n).bytes.length = vb.bytes.length
      unfold byteBufferBuilder.Advance
      rw [if_neg (by omega)]

/-! ## Counting cleared bits -/

theorem count_true_add_count_false (l : List Bool) :
    l.count true + l.count false = l.length := by
  induction l with
  | nil => rfl
  | cons x xs ih =>
    cases x <;> simp [List.count_cons] <;> omega

theorem bitAt_eq_getElem (l : List Bool) (i : Nat) (h : i < l.length) :
    l[i]? = some (bitAt l i) := by
  unfold bitAt
  rw [List.getD_eq_getElem?_getD, List.getElem?_eq_getElem h]
  rfl

/-- A bit prefix is determined by the bits read one by one. -/
theorem take_eq_append_of_bitAt (l2 l1 xs : List Bool) (n : Nat) (d : Bool)
    (h1 : n ≤ l1.length) (h2 : n + xs.length ≤ l2.length)
    (hk : ∀ i, i < n → bitAt l2 i = bitAt l1 i)
    (hx : ∀ j, j < xs.length → bitAt l2 (n + j) = xs[j]?.getD d) :
    l2.take (n + xs.length) = l1.take n ++ xs := by
  have hL : (l1.take n).length = n := by rw [List.length_take]; omega
  apply List.ext_getElem?
  intro i
  by_cases hi : i < n
  · rw [List.getElem?_take_of_lt (by omega), List.getElem?_append_left (by omega),
      List.getElem?_take_of_lt hi, bitAt_eq_getElem l2 i (by omega),
      bitAt_eq_getElem l1 i (by omega), hk i hi]
  · by_cases hi2 : i < n + xs.length
    · obtain ⟨j, rfl⟩ : ∃ j, i = n + j := ⟨i - n, by omega⟩
      have hj : j < xs.length := by omega
      rw [List.getElem?_take_of_lt hi2, List.getElem?_append_right (by omega), hL,
        bitAt_eq_getElem l2 _ (by omega), hx j hj]
      have : n + j - n = j := by omega
      rw [this, List.getElem?_eq_getElem hj]
      rfl
    · rw [List.getElem?_take, if_neg hi2, List.getElem?_eq_none]
      simp only [List.length_append, hL]
      omega

/-- The cleared-bit count after a step that keeps the old elements and adds the
validity bits `xs`. -/
theorem clearedBits_extend (b b2 : FixedSizeBinaryBuilder) (xs : List Bool) (d : Bool)
    (h : WellFormed b) (h2 : WellFormed b2) (hl : b2.length = b.length + xs.length)
    (hk : Keeps b b2)
    (hx : ∀ j, j < xs.length → b2.validAt (b.length + j) = xs[j]?.getD d) :
    b2.clearedBits = b.clearedBits + xs.count false := by
  obtain ⟨_, _, _, _, hb, hc⟩ := h
  obtain ⟨_, _, _, _, hb2, hc2⟩ := h2
  unfold FixedSizeBinaryBuilder.clearedBits
  rw [hl, take_eq_append_of_bitAt b2.bits b.bits xs b.length d (by omega) (by omega)
    (fun i hi => (hk.2.2 i hi).1) hx, List.count_append]

/-! ## Resize and Reserve in full -/

theorem Resize_spec (b : FixedSizeBinaryBuilder) (n : Nat) (h : WellFormed b) :
    ∃ b1, b.Resize n = .ok b1 ∧ WellFormed b1 ∧ b1.capacity = n ∧
      b1.region.length = n * b.byteWidth ∧ b1.bits.length = n ∧
      b1.length = min b.length n ∧ b1.byteWidth = b.byteWidth ∧
      (∀ i, i < min b.length n →
        b1.validAt i = b.validAt i ∧ b1.bytesAt i = b.bytesAt i) ∧
      (b.length ≤ n → b1.nulls = b.nulls) ∧
      (NullsAccurate b → NullsAccurate b1) := by
  obtain ⟨b1, e, wf1, _, _⟩ := Resize_wellFormed b n h
  obtain ⟨s1, s2, s3, s4⟩ := Resize_sizes b b1 n e
  obtain ⟨vb, hv, ht, hr, hb, hc⟩ := h
  have hreg : b.region = vb.bytes := by simp [FixedSizeBinaryBuilder.region, hv]
  have e2 := e
  simp only [FixedSizeBinaryBuilder.Resize, builder.resize, init_some b vb n hv] at e2
  by_cases hlt : n < b.length
  · rw [if_pos hlt] at e2
    cases e2
    have hbits : (resizeBits b.bits n).take n = b.bits.take n :=
      take_resizeBits _ _ _ (Nat.le_refl _) (by omega)
    have hbytes : (resizeBytes vb.bytes (n * b.byteWidth)).take (n * b.byteWidth)
        = vb.bytes.take (n * b.byteWidth) :=
      take_resizeBytes _ _ _ (Nat.le_refl _) (by
        have : n * b.byteWidth ≤ b.length * b.byteWidth := Nat.mul_le_mul_right _ (by omega)
        omega)
    refine ⟨_, e, wf1, s1, by rw [s2], s3, ?_, rfl, ?_, fun hn => by omega, fun _ => ?_⟩
    · show n = min b.length n
      omega
    · intro i hi
      have hi2 : i < n := by omega
      refine ⟨bitAt_congr hbits hi2, ?_⟩
      show slot (resizeBytes vb.bytes (n * b.byteWidth)) b.byteWidth i = slot b.region _ i
      rw [hreg]
      exact slot_congr hbytes (Nat.mul_le_mul_right _ hi2)
    · show n - countSetBits (resizeBits b.bits n) n
          = ((resizeBits b.bits n).take n).count false
      unfold countSetBits
      have hc := count_true_add_count_false ((resizeBits b.bits n).take n)
      rw [List.length_take, length_resizeBits] at hc
      omega
  · rw [if_neg hlt] at e2
    cases e2
    have hbits : (resizeBits b.bits n).take b.length = b.bits.take b.length :=
      take_resizeBits _ _ _ (by omega) (by omega)
    have hbytes : (resizeBytes vb.bytes (n * b.byteWidth)).take (b.length * b.byteWidth)
        = vb.bytes.take (b.length * b.byteWidth) :=
      take_resizeBytes _ _ _ (Nat.mul_le_mul_right _ (by omega)) (by omega)
    refine ⟨_, e, wf1, s1, by rw [s2], s3, ?_, rfl, ?_, fun _ => rfl, fun hn => ?_⟩
    · show b.length = min b.length n
      omega
    · intro i hi
      have hi2 : i < b.length := by omega
      refine ⟨bitAt_congr hbits hi2, ?_⟩
      show slot (resizeBytes vb.bytes (n * b.byteWidth)) b.byteWidth i = slot b.region _ i
      rw [hreg]
      exact slot_congr hbytes (Nat.mul_le_mul_right _ hi2)
    · show b.nulls = ((resizeBits b.bits n).take b.length).count false
      rw [hbits]
      exact hn

theorem Reserve_noGrow (g : GrowthPolicy) (b : FixedSizeBinaryBuilder) (n : Nat)
    (h : b.length + n ≤ b.capacity) : b.Reserve g n = .ok b := by
  unfold FixedSizeBinaryBuilder.Reserve builder.reserve
  rw [if_neg (by omega)]

theorem Reserve_nulls (g : GrowthPolicy) (b b1 : FixedSizeBinaryBuilder) (n : Nat)
    (h : WellFormed b) (hn : NullsAccurate b) (e : b.Reserve g n = .ok b1) :
    NullsAccurate b1 := by
  obtain ⟨b2, e2, wf2, l2, n2, _, k2⟩ := Reserve_spec g b n h
  rw [e] at e2
  cases e2
  have := clearedBits_extend b b1 [] false h wf2 (by simpa using l2) k2
    (fun j hj => by simp at hj)
  unfold NullsAccurate at hn ⊢
  rw [this, n2, hn]
  simp

/-! ## Every step keeps the value region large enough -/

theorem region_of_values (b b2 : FixedSizeBinaryBuilder) (h : b2.values = b.values) :
    b2.region = b.region := by
  unfold FixedSizeBinaryBuilder.region
  rw [h]

theorem Append_frame (g : GrowthPolicy) (b b2 : FixedSizeBinaryBuilder) (v : List Nat)
    (h : b.Append g v = .ok b2) :
    v.length = b.byteWidth ∧ ∃ b1 b3, b.Reserve g 1 = .ok b1 ∧
      valuesAppend g b1 v = .ok b3 ∧ builder.UnsafeAppendBoolToBitmap b3 true = .ok b2 := by
  unfold FixedSizeBinaryBuilder.Append at h
  by_cases hw : v.length = b.byteWidth
  · simp only [ne_eq, hw, not_true_eq_false, if_false] at h
    cases hres : b.Reserve g 1 with
    | error p => simp only [hres] at h; cases h
    | ok b1 =>
      simp only [hres] at h
      cases hva : valuesAppend g b1 v with
      | error p => simp only [hva] at h; cases h
      | ok b3 =>
        simp only [hva] at h
        exact ⟨hw, b1, b3, rfl, hva, h⟩
  · simp only [ne_eq, hw, not_false_eq_true, if_true] at h
    cases h

theorem AppendNull_frame (g : GrowthPolicy) (b b2 : FixedSizeBinaryBuilder)
    (h : b.AppendNull g = .ok b2) :
    ∃ b1 b3, b.Reserve g 1 = .ok b1 ∧ valuesAdvance g b1 b1.byteWidth = .ok b3 ∧
      builder.UnsafeAppendBoolToBitmap b3 false = .ok b2 := by
  unfold FixedSizeBinaryBuilder.AppendNull at h
  cases hres : b.Reserve g 1 with
  | error p => simp only [hres] at h; cases h
  | ok b1 =>
    simp only [hres] at h
    cases hva : valuesAdvance g b1 b1.byteWidth with
    | error p => simp only [hva] at h; cases h
    | ok b3 =>
      simp only [hva] at h
      exact ⟨b1, b3, rfl, hva, h⟩

theorem appendValuesLoop_frame (g : GrowthPolicy) (vs : List (List Nat)) :
    ∀ b b2 : FixedSizeBinaryBuilder, appendValuesLoop g b vs = .ok b2 →
    b2.tobuilder = b.tobuilder ∧ b2.byteWidth = b.byteWidth ∧
      b.region.length ≤ b2.region.length := by
  induction vs with
  | nil =>
    intro b b2 h
    cases h
    exact ⟨rfl, rfl, Nat.le_refl _⟩
  | cons x rest ih =>
    intro b b2 h
    unfold appendValuesLoop at h
    split at h
    · cases hva : valuesAdvance g b b.byteWidth with
      | error p => simp only [hva] at h; cases h
      | ok b1 =>
        simp only [hva] at h
        obtain ⟨f1, f2, f3, _⟩ := valuesAdvance_frame g b b1 _ hva
        obtain ⟨i1, i2, i3⟩ := ih b1 b2 h
        exact ⟨i1.trans f1, i2.trans f2, Nat.le_trans f3 i3⟩
    · split at h
      · cases hva : valuesAppend g b x with
        | error p => simp only [hva] at h; cases h
        | ok b1 =>
          simp only [hva] at h
          obtain ⟨f1, f2, f3, _⟩ := valuesAppend_frame g b b1 _ hva
          obtain ⟨i1, i2, i3⟩ := ih b1 b2 h
          exact ⟨i1.trans f1, i2.trans f2, Nat.le_trans f3 i3⟩
      · cases h

theorem AppendValues_frame (g : GrowthPolicy) (b b2 : FixedSizeBinaryBuilder)
    (vs : List (List Nat)) (valid : List Bool) (h : b.AppendValues g vs valid = .ok b2) :
    b2 = b ∨ ∃ b1 b3, b.Reserve g vs.length = .ok b1 ∧ appendValuesLoop g b1 vs = .ok b3 ∧
      builder.unsafeAppendBoolsToBitmap b3 valid vs.length = .ok b2 := by
  unfold FixedSizeBinaryBuilder.AppendValues at h
  split at h
  · cases h
  · split at h
    · cases h
      exact Or.inl rfl
    · cases hres : b.Reserve g vs.length with
      | error p => simp only [hres] at h; cases h
      | ok b1 =>
        simp only [hres] at h
        cases hl : appendValuesLoop g b1 vs with
        | error p => simp only [hl] at h; cases h
        | ok b3 =>
          simp only [hl] at h
          exact Or.inr ⟨b1, b3, rfl, hl, h⟩

theorem Sized.step {b1 b2 : FixedSizeBinaryBuilder} (hs : Sized b1)
    (hc : b2.capacity = b1.capacity) (hw : b2.byteWidth = b1.byteWidth)
    (hr : b1.region.length ≤ b2.region.length) : Sized b2 := by
  unfold Sized at hs ⊢
  rw [hc, hw]
  omega

theorem Op_sized (g : GrowthPolicy) (b b2 : FixedSizeBinaryBuilder) (o : Op)
    (hs : Sized b) (h : o.apply g b = .ok b2) : Sized b2 := by
  cases o with
  | append v =>
    obtain ⟨_, b1, b3, e1, e2, e3⟩ := Append_frame g b b2 v h
    obtain ⟨f1, f2, f3, _⟩ := valuesAppend_frame g b1 b3 v e2
    obtain ⟨p1, p2, p3, _⟩ := push_frame b3 b2 true e3
    have s3 : Sized b3 := (Reserve_sized g b b1 1 hs e1).step (congrArg builder.capacity f1) f2 f3
    exact s3.step p1 p3 (by rw [region_of_values b3 b2 p2])
  | appendNull =>
    obtain ⟨b1, b3, e1, e2, e3⟩ := AppendNull_frame g b b2 h
    obtain ⟨f1, f2, f3, _⟩ := valuesAdvance_frame g b1 b3 _ e2
    obtain ⟨p1, p2, p3, _⟩ := push_frame b3 b2 false e3
    have s3 : Sized b3 := (Reserve_sized g b b1 1 hs e1).step (congrArg builder.capacity f1) f2 f3
    exact s3.step p1 p3 (by rw [region_of_values b3 b2 p2])
  | appendValues vs valid =>
    rcases AppendValues_frame g b b2 vs valid h with e | ⟨b1, b3, e1, e2, e3⟩
    · rw [e]; exact hs
    · obtain ⟨f1, f2, f3⟩ := appendValuesLoop_frame g vs b1 b3 e2
      obtain ⟨p1, p2, p3, _⟩ := bulk_frame b3 b2 valid _ e3
      have s3 : Sized b3 :=
        (Reserve_sized g b b1 _ hs e1).step (congrArg builder.capacity f1) f2 f3
      exact s3.step p1 p3 (by rw [region_of_values b3 b2 p2])
  | reserve n => exact Reserve_sized g b b2 n hs h
  | resize n =>
    obtain ⟨c, r, _, _⟩ := Resize_sizes b b2 n h
    unfold Sized
    rw [c, r]
  | finish =>
    simp only [Op.apply, FixedSizeBinaryBuilder.NewFixedSizeBinaryArray,
      FixedSizeBinaryBuilder.newData] at h
    cases hv : b.values with
    | none => simp only [hv] at h; cases h
    | some vb =>
      simp only [hv] at h
      cases h
      show 0 * b.byteWidth ≤ _
      omega

/-! ## The invariants along any sequence of calls -/

theorem AppendValues_ok_pre (g : GrowthPolicy) (b b2 : FixedSizeBinaryBuilder)
    (vs : List (List Nat)) (valid : List Bool) (h : WellFormed b)
    (e : b.AppendValues g vs valid = .ok b2) :
    (valid.length = 0 ∨ valid.length = vs.length) ∧
      ∀ vv, vv ∈ vs → vv.length = 0 ∨ vv.length = b.byteWidth := by
  have hvalid : valid.length = 0 ∨ valid.length = vs.length := by
    by_contra hc
    have hpre : vs.length ≠ valid.length ∧ valid.length ≠ 0 :=
      ⟨fun c => hc (Or.inr c.symm), fun c => hc (Or.inl c)⟩
    simp only [FixedSizeBinaryBuilder.AppendValues, if_pos hpre] at e
    cases e
  refine ⟨hvalid, ?_⟩
  by_contra hall
  have hbad : ∃ vv, vv ∈ vs ∧ vv.length ≠ 0 ∧ vv.length ≠ b.byteWidth := by
    by_contra hn
    exact hall (fun vv m => by
      by_contra hne
      exact hn ⟨vv, m, fun c => hne (Or.inl c), fun c => hne (Or.inr c)⟩)
  obtain ⟨vb, hv, _⟩ := h
  obtain ⟨s, e2, _⟩ := AppendValues_fail g b vb vs valid hv hvalid hbad
  rw [e2] at e
  cases e

theorem Op_inv (g : GrowthPolicy) (b b2 : FixedSizeBinaryBuilder) (o : Op)
    (h : WellFormed b) (hn : NullsAccurate b) (e : o.apply g b = .ok b2) :
    WellFormed b2 ∧ NullsAccurate b2 ∧ b2.byteWidth = b.byteWidth := by
  cases o with
  | append v =>
    obtain ⟨hw, _⟩ := Append_frame g b b2 v e
    obtain ⟨b3, e3, wf, l, n, k, v1, _⟩ := Append_spec g b v h hw
    have e' : b.Append g v = .ok b2 := e
    rw [e3] at e'
    cases e'
    refine ⟨wf, ?_, k.1⟩
    have := clearedBits_extend b b2 [true] false h wf l k (fun j hj => by
      have : j = 0 := by simpa using hj
      subst this
      simpa using v1)
    unfold NullsAccurate at hn ⊢
    rw [this, n, hn]
    simp
  | appendNull =>
    obtain ⟨b3, e3, wf, l, n, k, v1⟩ := AppendNull_spec g b h
    have e' : b.AppendNull g = .ok b2 := e
    rw [e3] at e'
    cases e'
    refine ⟨wf, ?_, k.1⟩
    have := clearedBits_extend b b2 [false] false h wf l k (fun j hj => by
      have : j = 0 := by simpa using hj
      subst this
      simpa using v1)
    unfold NullsAccurate at hn ⊢
    rw [this, n, hn]
    simp
  | appendValues vs valid =>
    have e' : b.AppendValues g vs valid = .ok b2 := e
    obtain ⟨hvalid, hall⟩ := AppendValues_ok_pre g b b2 vs valid h e'
    obtain ⟨b3, e3, wf, l, n, k, v1, _⟩ := AppendValues_spec g b vs valid h hall hvalid
    rw [e3] at e'
    cases e'
    refine ⟨wf, ?_, k.1⟩
    unfold NullsAccurate at hn ⊢
    by_cases hz : valid.length = 0
    · have hnil : valid = [] := List.length_eq_zero.mp hz
      subst hnil
      have := clearedBits_extend b b2 (List.replicate vs.length true) false h wf
        (by rw [List.length_replicate]; exact l) k (fun j hj => by
          rw [List.length_replicate] at hj
          rw [v1 j hj]
          simp [List.getElem?_replicate, hj])
      rw [this, n, hn]
      simp [List.count_replicate]
    · have hvk : valid.length = vs.length := by
        rcases hvalid with h0 | h0
        · exact absurd h0 hz
        · exact h0
      have := clearedBits_extend b b2 valid true h wf (by rw [hvk]; exact l) k
        (fun j hj => v1 j (by omega))
      rw [this, n, hn]
  | reserve n =>
    have e' : b.Reserve g n = .ok b2 := e
    obtain ⟨b3, e3, wf, _, _, _, k⟩ := Reserve_spec g b n h
    have hna := Reserve_nulls g b b2 n h hn e'
    rw [e3] at e'
    cases e'
    exact ⟨wf, hna, k.1⟩
  | resize n =>
    have e' : b.Resize n = .ok b2 := e
    obtain ⟨b3, e3, wf, _, _, _, _, w, _, _, hna⟩ := Resize_spec b n h
    rw [e3] at e'
    cases e'
    exact ⟨wf, hna hn, w⟩
  | finish =>
    simp only [Op.apply] at e
    cases hf : b.NewFixedSizeBinaryArray with
    | error p => simp only [hf] at e; cases e
    | ok r =>
      simp only [hf] at e
      cases e
      obtain ⟨d, b3⟩ := r
      refine ⟨Finish_wellFormed b d b3 hf, ?_, ?_⟩
      · simp only [FixedSizeBinaryBuilder.NewFixedSizeBinaryArray,
          FixedSizeBinaryBuilder.newData] at hf
        cases hv : b.values with
        | none => simp only [hv] at hf; cases hf
        | some vb =>
          simp only [hv] at hf
          cases hf
          rfl
      · simp only [FixedSizeBinaryBuilder.NewFixedSizeBinaryArray,
          FixedSizeBinaryBuilder.newData] at hf
        cases hv : b.values with
        | none => simp only [hv] at hf; cases hf
        | some vb =>
          simp only [hv] at hf
          cases hf
          rfl

theorem runOps_inv (g : GrowthPolicy) (os : List Op) :
    ∀ b b2 : FixedSizeBinaryBuilder, WellFormed b → Sized b → NullsAccurate b →
    runOps g b os = .ok b2 →
    WellFormed b2 ∧ Sized b2 ∧ NullsAccurate b2 ∧ b2.byteWidth = b.byteWidth := by
  induction os with
  | nil =>
    intro b b2 h hs hn e
    cases e
    exact ⟨h, hs, hn, rfl⟩
  | cons o os ih =>
    intro b b2 h hs hn e
    unfold runOps at e
    cases ho : o.apply g b with
    | error p => simp only [ho] at e; cases e
    | ok b1 =>
      simp only [ho] at e
      obtain ⟨wf1, n1, w1⟩ := Op_inv g b b1 o h hn ho
      obtain ⟨wf2, s2, n2, w2⟩ := ih b1 b2 wf1 (Op_sized g b b1 o hs ho) n1 e
      exact ⟨wf2, s2, n2, w2.trans w1⟩

theorem new_sized (w : Nat) : Sized (NewFixedSizeBinaryBuilder w) := by
  show 0 * w ≤ _
  omega

theorem new_nullsAccurate (w : Nat) : NullsAccurate (NewFixedSizeBinaryBuilder w) := rfl

theorem reachable_inv (g : GrowthPolicy) (w : Nat) (os : List Op)
    (b : FixedSizeBinaryBuilder) (h : runOps g (NewFixedSizeBinaryBuilder w) os = .ok b) :
    WellFormed b ∧ Sized b ∧ NullsAccurate b ∧ b.byteWidth = w :=
  runOps_inv g os _ b (wellFormed_new w) (new_sized w) (new_nullsAccurate w) h

/-! ## Appending inside the reserved capacity -/

theorem written_of_wellFormed (b : FixedSizeBinaryBuilder) (h : WellFormed b) :
    b.written = b.length * b.byteWidth := by
  obtain ⟨vb, hv, ht, _⟩ := h
  simp only [FixedSizeBinaryBuilder.written, hv]
  exact ht

theorem Append_noGrow (g : GrowthPolicy) (b : FixedSizeBinaryBuilder) (v : List Nat)
    (h : WellFormed b) (hs : Sized b) (hcap : b.length + 1 ≤ b.capacity)
    (hw : v.length = b.byteWidth) :
    ∃ b2, b.Append g v = .ok b2 ∧ WellFormed b2 ∧ Sized b2 ∧ b2.length = b.length + 1 ∧
      b2.capacity = b.capacity ∧ b2.region.length = b.region.length ∧
      b2.bits.length = b.bits.length ∧ b2.byteWidth = b.byteWidth := by
  obtain ⟨b2, e, wf, l, _, k, _⟩ := Append_spec g b v h hw
  obtain ⟨_, b1, b3, e1, e2, e3⟩ := Append_frame g b b2 v e
  rw [Reserve_noGrow g b 1 hcap] at e1
  cases e1
  obtain ⟨f1, f2, _, f4⟩ := valuesAppend_frame g b b3 v e2
  obtain ⟨p1, p2, p3, p4⟩ := push_frame b3 b2 true e3
  have hroom : b.written + v.length ≤ b.region.length := by
    rw [written_of_wellFormed b h, hw]
    have : (b.length + 1) * b.byteWidth ≤ b.capacity * b.byteWidth :=
      Nat.mul_le_mul_right _ hcap
    rw [Nat.add_mul, Nat.one_mul] at this
    unfold Sized at hs
    omega
  have hcap2 : b2.capacity = b.capacity := p1.trans (congrArg builder.capacity f1)
  have hreg2 : b2.region.length = b.region.length := by
    rw [region_of_values b3 b2 p2]; exact f4 hroom
  refine ⟨b2, e, wf, ?_, l, hcap2, hreg2, ?_, k.1⟩
  · unfold Sized at hs ⊢
    rw [hcap2, hreg2, k.1]
    exact hs
  · rw [p4]
    unfold FixedSizeBinaryBuilder.bits
    rw [show b3.nullBitmap = b.nullBitmap from congrArg builder.nullBitmap f1]

theorem AppendNull_noGrow (g : GrowthPolicy) (b : FixedSizeBinaryBuilder)
    (h : WellFormed b) (hs : Sized b) (hcap : b.length + 1 ≤ b.capacity) :
    ∃ b2, b.AppendNull g = .ok b2 ∧ WellFormed b2 ∧ Sized b2 ∧ b2.length = b.length + 1 ∧
      b2.capacity = b.capacity ∧ b2.region.length = b.region.length ∧
      b2.bits.length = b.bits.length ∧ b2.byteWidth = b.byteWidth := by
  obtain ⟨b2, e, wf, l, _, k, _⟩ := AppendNull_spec g b h
  obtain ⟨b1, b3, e1, e2, e3⟩ := AppendNull_frame g b b2 e
  rw [Reserve_noGrow g b 1 hcap] at e1
  cases e1
  obtain ⟨f1, f2, _, f4⟩ := valuesAdvance_frame g b b3 _ e2
  obtain ⟨p1, p2, p3, p4⟩ := push_frame b3 b2 false e3
  have hroom : b.written + b.byteWidth ≤ b.region.length := by
    rw [written_of_wellFormed b h]
    have : (b.length + 1) * b.byteWidth ≤ b.capacity * b.byteWidth :=
      Nat.mul_le_mul_right _ hcap
    rw [Nat.add_mul, Nat.one_mul] at this
    unfold Sized at hs
    omega
  have hcap2 : b2.capacity = b.capacity := p1.trans (congrArg builder.capacity f1)
  have hreg2 : b2.region.length = b.region.length := by
    rw [region_of_values b3 b2 p2]; exact f4 hroom
  refine ⟨b2, e, wf, ?_, l, hcap2, hreg2, ?_, k.1⟩
  · unfold Sized at hs ⊢
    rw [hcap2, hreg2, k.1]
    exact hs
  · rw [p4]
    unfold FixedSizeBinaryBuilder.bits
    rw [show b3.nullBitmap = b.nullBitmap from congrArg builder.nullBitmap f1]

theorem appendAll_noGrow (g : GrowthPolicy) (s : List (Option (List Nat))) :
    ∀ b : FixedSizeBinaryBuilder, WellFormed b → Sized b →
    b.length + s.length ≤ b.capacity →
    (∀ v, some v ∈ s → v.length = b.byteWidth) →
    ∃ b2, appendAll g b s = .ok b2 ∧ b2.capacity = b.capacity ∧
      b2.region.length = b.region.length ∧ b2.bits.length = b.bits.length := by
  induction s with
  | nil =>
    intro b _ _ _ _
    exact ⟨b, rfl, rfl, rfl, rfl⟩
  | cons x rest ih =>
    intro b h hs hcap hw
    simp only [List.length_cons] at hcap
    cases x with
    | some v =>
      obtain ⟨b1, e1, wf1, s1, l1, c1, r1, t1, w1⟩ :=
        Append_noGrow g b v h hs (by omega) (hw v (List.mem_cons_self _ _))
      obtain ⟨b2, e2, c2, r2, t2⟩ := ih b1 wf1 s1 (by omega) (fun u hu => by
        rw [w1]; exact hw u (List.mem_cons_of_mem _ hu))
      exact ⟨b2, by simp only [appendAll, e1]; exact e2, c2.trans c1, r2.trans r1,
        t2.trans t1⟩
    | none =>
      obtain ⟨b1, e1, wf1, s1, l1, c1, r1, t1, w1⟩ :=
        AppendNull_noGrow g b h hs (by omega)
      obtain ⟨b2, e2, c2, r2, t2⟩ := ih b1 wf1 s1 (by omega) (fun u hu => by
        rw [w1]; exact hw u (List.mem_cons_of_mem _ hu))
      exact ⟨b2, by simp only [appendAll, e1]; exact e2, c2.trans c1, r2.trans r1,
        t2.trans t1⟩

/-! ## Claims on capacity and invariants -/

/-- C11: on a well-formed builder of length `N` and capacity `C`, `Reserve(n)` succeeds
and leaves a capacity of at least `N + n`; when `N + n ≤ C` the resize callback is not
invoked and the builder (its capacity included) is unchanged; in both cases length,
nullCount and every existing element are unchanged. -/
theorem reserve_ensures_capacity (g : GrowthPolicy) (b : FixedSizeBinaryBuilder) (n : Nat)
    (h : WellFormed b) :
    ∃ b1, b.Reserve g n = .ok b1 ∧ b.length + n ≤ b1.capacity ∧
      (b.length + n ≤ b.capacity → b1 = b ∧ ∀ f, builder.reserve g b n f = .ok b) ∧
      b1.length = b.length ∧ b1.nulls = b.nulls ∧ Keeps b b1 := by
  obtain ⟨b1, e, _, l, nn, c, k⟩ := Reserve_spec g b n h
  refine ⟨b1, e, c, fun hle => ⟨?_, fun f => ?_⟩, l, nn, k⟩
  · rw [Reserve_noGrow g b n hle] at e
    cases e
    rfl
  · unfold builder.reserve
    rw [if_neg (by omega)]

/-- C12: for every builder reached from a fresh one by successful calls, after
`Reserve(n)` any sequence of at most `n` `Append` (width `W`) and `AppendNull` calls
succeeds without reallocation: the capacity, the size of the value region and the
size of the presence storage are the same after the appends as right after the
Reserve. -/
theorem reserve_then_appends_keep_storage (g : GrowthPolicy) (W : Nat) (os : List Op)
    (b : FixedSizeBinaryBuilder) (n : Nat) (s : List (Option (List Nat)))
    (hrun : runOps g (NewFixedSizeBinaryBuilder W) os = .ok b)
    (hlen : s.length ≤ n) (hw : ∀ v, some v ∈ s → v.length = W) :
    ∃ b1 b2, b.Reserve g n = .ok b1 ∧ appendAll g b1 s = .ok b2 ∧
      b2.capacity = b1.capacity ∧ b2.region.length = b1.region.length ∧
      b2.bits.length = b1.bits.length := by
  obtain ⟨wf, sz, _, w⟩ := reachable_inv g W os b hrun
  obtain ⟨b1, e1, wf1, l1, _, c1, k1⟩ := Reserve_spec g b n wf
  obtain ⟨b2, e2, c2, r2, t2⟩ := appendAll_noGrow g s b1 wf1 (Reserve_sized g b b1 n sz e1)
    (by omega) (fun v hv => by rw [k1.1, w]; exact hw v hv)
  exact ⟨b1, b2, e1, e2, c2, r2, t2⟩

/-- C13: on a well-formed builder (fresh or holding elements) of capacity `C`,
`Resize(n)` succeeds and leaves capacity `n`, a value region of `n * W` bytes and
presence storage of `n` bits; every element with index below `min(length, n)` keeps
its validity and bytes, and when `n > C` that is every existing element (the length
is unchanged). -/
theorem resize_sets_capacity (b : FixedSizeBinaryBuilder) (n : Nat) (h : WellFormed b) :
    ∃ b1, b.Resize n = .ok b1 ∧ b1.capacity = n ∧
      b1.region.length = n * b.byteWidth ∧ b1.bits.length = n ∧
      (∀ i, i < min b.length n →
        b1.validAt i = b.validAt i ∧ b1.bytesAt i = b.bytesAt i) ∧
      (b.capacity < n → b1.length = b.length ∧ b1.nulls = b.nulls ∧
        ∀ i, i < b.length → b1.validAt i = b.validAt i ∧ b1.bytesAt i = b.bytesAt i) := by
  obtain ⟨b1, e, _, c, r, t, l, _, el, nn, _⟩ := Resize_spec b n h
  obtain ⟨_, _, _, _, _, hc⟩ := h
  refine ⟨b1, e, c, r, t, el, fun hgt => ⟨by omega, nn (by omega), fun i hi => el i (by omega)⟩⟩

/-- C14: in every state reached from a fresh builder by successful Append, AppendNull,
AppendValues, Reserve, Resize (growing or shrinking) and Finish calls, nullCount is
the number of cleared presence bits among the indices `[0, length)` and
`length ≤ capacity`. -/
theorem nullCount_and_capacity_invariant (g : GrowthPolicy) (W : Nat) (os : List Op)
    (b : FixedSizeBinaryBuilder)
    (hrun : runOps g (NewFixedSizeBinaryBuilder W) os = .ok b) :
    b.nulls = b.clearedBits ∧ b.length ≤ b.capacity := by
  obtain ⟨⟨_, _, _, _, _, hc⟩, _, hn, _⟩ := reachable_inv g W os b hrun
  exact ⟨hn, hc⟩

/-- C19: in every state reached from a fresh builder by successful Append, AppendNull,
AppendValues, Reserve, Resize (shrinking below the length included) and Finish calls,
the number of bytes written to the value buffer is `length * W`; the next appended
element is written at bytes `[length*W, (length+1)*W)` and read back at index
`length`. -/
theorem alignment_invariant (g : GrowthPolicy) (W : Nat) (os : List Op)
    (b : FixedSizeBinaryBuilder)
    (hrun : runOps g (NewFixedSizeBinaryBuilder W) os = .ok b) :
    b.written = b.length * W ∧
    ∀ v : List Nat, v.length = W →
      ∃ b2, b.Append g v = .ok b2 ∧ b2.length = b.length + 1 ∧
        b2.written = (b.length + 1) * W ∧ b2.validAt b.length = true ∧
        slot b2.region W b.length = v := by
  obtain ⟨wf, _, _, w⟩ := reachable_inv g W os b hrun
  refine ⟨by rw [written_of_wellFormed b wf, w], fun v hv => ?_⟩
  obtain ⟨b2, e, wf2, l, _, k, v1, y1⟩ := Append_spec g b v wf (by rw [w]; exact hv)
  refine ⟨b2, e, l, ?_, v1, ?_⟩
  · rw [written_of_wellFormed b2 wf2, l, k.1, w]
  · have : b2.bytesAt b.length = slot b2.region W b.length := by
      unfold FixedSizeBinaryBuilder.bytesAt
      rw [k.1, w]
    rw [← this]
    exact y1

theorem twoElements_wellFormed : WellFormed twoElements :=
  ⟨_, rfl, rfl, by decide, rfl, by decide⟩

/-- Witness for C11: `Reserve(3)` on a builder of length 2 and capacity 2. -/
theorem reserve_ensures_capacity_witness :
    WellFormed twoElements ∧
    ∃ b1, twoElements.Reserve doubling 3 = .ok b1 ∧
      twoElements.length + 3 ≤ b1.capacity ∧
      (twoElements.length + 3 ≤ twoElements.capacity →
        b1 = twoElements ∧ ∀ f, builder.reserve doubling twoElements 3 f = .ok twoElements) ∧
      b1.length = twoElements.length ∧ b1.nulls = twoElements.nulls ∧
      Keeps twoElements b1 :=
  ⟨twoElements_wellFormed,
    reserve_ensures_capacity doubling twoElements 3 twoElements_wellFormed⟩

/-- Witness for C12: `Reserve(2)` then `Append([3,4]); AppendNull()` on the builder
reached by `Append([1,2]); AppendNull()`. -/
theorem reserve_then_appends_keep_storage_witness :
    runOps exactFit (NewFixedSizeBinaryBuilder 2) [.append [1, 2], .appendNull]
      = .ok twoElements ∧
    [some [3, 4], none].length ≤ 2 ∧
    (∀ v, some v ∈ [some [3, 4], none] → v.length = 2) ∧
    ∃ b1 b2, twoElements.Reserve exactFit 2 = .ok b1 ∧
      appendAll exactFit b1 [some [3, 4], none] = .ok b2 ∧
      b2.capacity = b1.capacity ∧ b2.region.length = b1.region.length ∧
      b2.bits.length = b1.bits.length :=
  have hw : ∀ v, some v ∈ [some [3, 4], (none : Option (List Nat))] → v.length = 2 := by
    intro v hv
    simp only [List.mem_cons, Option.some.injEq, List.mem_singleton] at hv
    rcases hv with rfl | hv | hv
    · rfl
    · cases hv
    · cases hv
  ⟨rfl, by decide, hw,
    reserve_then_appends_keep_storage exactFit 2 [.append [1, 2], .appendNull] twoElements 2
      [some [3, 4], none] rfl (by decide) hw⟩

/-- Witness for C13: `Resize(4)` on a builder of length 2 and capacity 2. -/
theorem resize_sets_capacity_witness :
    WellFormed twoElements ∧
    ∃ b1, twoElements.Resize 4 = .ok b1 ∧ b1.capacity = 4 ∧
      b1.region.length = 4 * twoElements.byteWidth ∧ b1.bits.length = 4 ∧
      (∀ i, i < min twoElements.length 4 →
        b1.validAt i = twoElements.validAt i ∧ b1.bytesAt i = twoElements.bytesAt i) ∧
      (twoElements.capacity < 4 → b1.length = twoElements.length ∧
        b1.nulls = twoElements.nulls ∧
        ∀ i, i < twoElements.length →
          b1.validAt i = twoElements.validAt i ∧ b1.bytesAt i = twoElements.bytesAt i) :=
  ⟨twoElements_wellFormed, resize_sets_capacity twoElements 4 twoElements_wellFormed⟩

/-- Witness for C14: the builder reached by three appends, `Resize(1)` and one more
append. -/
theorem nullCount_and_capacity_invariant_witness :
    runOps exactFit (NewFixedSizeBinaryBuilder 2)
        [.append [1, 2], .appendNull, .append [5, 6], .resize 1, .append [7, 8]]
      = .ok afterShrink ∧
    afterShrink.nulls = afterShrink.clearedBits ∧ afterShrink.length ≤ afterShrink.capacity :=
  ⟨rfl, nullCount_and_capacity_invariant exactFit 2
    [.append [1, 2], .appendNull, .append [5, 6], .resize 1, .append [7, 8]] afterShrink rfl⟩

/-- Witness for C19: the builder reached by three appends, `Resize(1)` and one more
append. -/
theorem alignment_invariant_witness :
    runOps exactFit (NewFixedSizeBinaryBuilder 2)
        [.append [1, 2], .appendNull, .append [5, 6], .resize 1, .append [7, 8]]
      = .ok afterShrink ∧
    afterShrink.written = afterShrink.length * 2 ∧
    ∀ v : List Nat, v.length = 2 →
      ∃ b2, afterShrink.Append exactFit v = .ok b2 ∧ b2.length = afterShrink.length + 1 ∧
        b2.written = (afterShrink.length + 1) * 2 ∧ b2.validAt afterShrink.length = true ∧
        slot b2.region 2 afterShrink.length = v :=
  ⟨rfl, alignment_invariant exactFit 2
    [.append [1, 2], .appendNull, .append [5, 6], .resize 1, .append [7, 8]] afterShrink rfl⟩

/-! ## Base64: decoding what was encoded -/

theorem decodeMap_encodeChar (s : Nat) (h : s < 64) : decodeMap (encodeChar s) = some s := by
  interval_cases s <;> rfl

theorem quantumBytes_four (a b c : Nat) (ha : a < 256) (hb : b < 256) (hc : c < 256) :
    quantumBytes [a / 4, (a % 4) * 16 + b / 16, (b % 16) * 4 + c / 64, c % 64] = [a, b, c] := by
  simp only [quantumBytes]
  congr 1
  · omega
  · congr 1
    · omega
    · congr 1
      omega

theorem quantumBytes_three (a b : Nat) (ha : a < 256) (hb : b < 256) :
    quantumBytes [a / 4, (a % 4) * 16 + b / 16, (b % 16) * 4] = [a, b] := by
  simp only [quantumBytes]
  congr 1
  · omega
  · congr 1
    omega

theorem quantumBytes_two (a : Nat) (ha : a < 256) :
    quantumBytes [a / 4, (a % 4) * 16] = [a] := by
  simp only [quantumBytes]
  congr 1
  omega

theorem decodeLoop_encodeRaw (v : List Nat) :
    (∀ x, x ∈ v → x < 256) → ∀ si out, decodeLoop (encodeRaw v) si [] out = .ok (out ++ v) := by
  induction v using encodeRaw.induct with
  | case1 =>
    intro _ si out
    simp [encodeRaw, decodeLoop]
  | case2 a =>
    intro h si out
    have ha : a < 256 := h a (by simp)
    simp only [encodeRaw, decodeLoop, decodeMap_encodeChar (a / 4) (by omega),
      decodeMap_encodeChar ((a % 4) * 16) (by omega), List.length_nil, List.nil_append,
      List.length_singleton, List.singleton_append, OfNat.ofNat_ne_zero, OfNat.zero_ne_ofNat,
      if_false, quantumBytes_two a ha]
    simp
  | case3 a b =>
    intro h si out
    have ha : a < 256 := h a (by simp)
    have hb : b < 256 := h b (by simp)
    simp only [encodeRaw, decodeLoop, decodeMap_encodeChar (a / 4) (by omega),
      decodeMap_encodeChar ((a % 4) * 16 + b / 16) (by omega),
      decodeMap_encodeChar ((b % 16) * 4) (by omega)]
    simp [quantumBytes_three a b ha hb]
  | case4 a b c rest ih =>
    intro h si out
    have ha : a < 256 := h a (by simp)
    have hb : b < 256 := h b (by simp)
    have hc : c < 256 := h c (by simp)
    simp only [encodeRaw, decodeLoop, decodeMap_encodeChar (a / 4) (by omega),
      decodeMap_encodeChar ((a % 4) * 16 + b / 16) (by omega),
      decodeMap_encodeChar ((b % 16) * 4 + c / 64) (by omega),
      decodeMap_encodeChar (c % 64) (by omega)]
    simp only [List.length_nil, List.nil_append, List.length_singleton, List.singleton_append,
      List.length_cons, List.cons_append, OfNat.zero_ne_ofNat, OfNat.ofNat_ne_zero,
      Nat.reduceAdd, Nat.reduceEqDiff, if_false, if_true, quantumBytes_four a b c ha hb hc]
    rw [ih (fun x hx => h x (by simp [hx]))]
    simp

theorem DecodeString_encodeRaw (v : List Nat) (h : ∀ x, x ∈ v → x < 256) :
    RawStdEncoding.DecodeString (encodeRaw v) = .ok v := by
  unfold RawStdEncoding.DecodeString
  rw [decodeLoop_encodeRaw v h]
  rfl

/-! ## Panics on the decoding path -/

theorem valuesAppend_error (g : GrowthPolicy) (b : FixedSizeBinaryBuilder) (v : List Nat)
    (p : Panicked) (h : valuesAppend g b v = .error p) : p.kind = .NilDereference := by
  unfold valuesAppend at h
  split at h
  · cases h; rfl
  · cases h

theorem valuesAdvance_error (g : GrowthPolicy) (b : FixedSizeBinaryBuilder) (n : Nat)
    (p : Panicked) (h : valuesAdvance g b n = .error p) : p.kind = .NilDereference := by
  unfold valuesAdvance at h
  split at h
  · cases h; rfl
  · cases h

theorem push_error (b : FixedSizeBinaryBuilder) (x : Bool) (p : Panicked)
    (h : builder.UnsafeAppendBoolToBitmap b x = .error p) :
    p.kind = .NilDereference ∨ p.kind = .IndexOutOfRange := by
  unfold builder.UnsafeAppendBoolToBitmap at h
  split at h
  · cases h; exact Or.inl rfl
  · split at h
    · cases h
    · cases h; exact Or.inr rfl

theorem Append_error (g : GrowthPolicy) (b : FixedSizeBinaryBuilder) (v : List Nat)
    (p : Panicked) (hw : v.length = b.byteWidth) (h : b.Append g v = .error p) :
    p.kind = .NilDereference ∨ p.kind = .IndexOutOfRange := by
  unfold FixedSizeBinaryBuilder.Append at h
  simp only [ne_eq, hw, not_true_eq_false, if_false] at h
  cases hres : b.Reserve g 1 with
  | error q =>
    simp only [hres] at h
    cases h
    exact Or.inl (Reserve_error g b 1 p hres)
  | ok b1 =>
    simp only [hres] at h
    cases hva : valuesAppend g b1 v with
    | error q =>
      simp only [hva] at h
      cases h
      exact Or.inl (valuesAppend_error g b1 v p hva)
    | ok b3 =>
      simp only [hva] at h
      exact push_error b3 true p h

theorem AppendNull_error (g : GrowthPolicy) (b : FixedSizeBinaryBuilder) (p : Panicked)
    (h : b.AppendNull g = .error p) :
    p.kind = .NilDereference ∨ p.kind = .IndexOutOfRange := by
  unfold FixedSizeBinaryBuilder.AppendNull at h
  cases hres : b.Reserve g 1 with
  | error q =>
    simp only [hres] at h
    cases h
    exact Or.inl (Reserve_error g b 1 p hres)
  | ok b1 =>
    simp only [hres] at h
    cases hva : valuesAdvance g b1 b1.byteWidth with
    | error q =>
      simp only [hva] at h
      cases h
      exact Or.inl (valuesAdvance_error g b1 _ p hva)
    | ok b3 =>
      simp only [hva] at h
      exact push_error b3 false p h

theorem checkedAppend_error (g : GrowthPolicy) (b : FixedSizeBinaryBuilder) (dec : Decoder)
    (val : List Nat) (p : Panicked) (h : checkedAppend g b dec val = .error p) :
    p.kind = .NilDereference ∨ p.kind = .IndexOutOfRange := by
  unfold checkedAppend at h
  by_cases hw : val.length = b.byteWidth
  · simp only [ne_eq, hw, not_true_eq_false, if_false] at h
    cases ha : b.Append g val with
    | error q =>
      simp only [ha] at h
      cases h
      exact Append_error g b val p hw ha
    | ok b1 =>
      simp only [ha] at h
      cases h
  · simp only [ne_eq, hw, not_false_eq_true, if_true] at h
    cases h

theorem unmarshalOne_error (g : GrowthPolicy) (b : FixedSizeBinaryBuilder) (dec : Decoder)
    (p : Panicked) (h : b.unmarshalOne g dec = .error p) :
    p.kind = .NilDereference ∨ p.kind = .IndexOutOfRange := by
  unfold FixedSizeBinaryBuilder.unmarshalOne at h
  cases ht : dec.Token with
  | error e => simp only [ht] at h; cases h
  | ok r =>
    obtain ⟨t, dec1⟩ := r
    simp only [ht] at h
    cases t with
    | delim c => cases h
    | bool x => cases h
    | number text => cases h
    | string s =>
      simp only at h
      cases hd : RawStdEncoding.DecodeString s with
      | error off => simp only [hd] at h; cases h
      | ok data =>
        simp only [hd] at h
        exact checkedAppend_error g b dec1 data p h
    | bytes v => exact checkedAppend_error g b dec1 v p h
    | null =>
      simp only at h
      cases ha : b.AppendNull g with
      | error q =>
        simp only [ha] at h
        cases h
        exact AppendNull_error g b p ha
      | ok b1 => simp only [ha] at h; cases h

theorem checkedAppend_noFormat (g : GrowthPolicy) (b : FixedSizeBinaryBuilder) (dec : Decoder)
    (val : List Nat) (r : Decoded) (h : checkedAppend g b dec val = .ok r) :
    ∀ c, r.err ≠ some (.format c) := by
  unfold checkedAppend at h
  split at h
  · cases h
    intro c hc
    cases hc
  · split at h
    · cases h
    · cases h
      intro c hc
      cases hc

theorem unmarshalOne_noFormat (g : GrowthPolicy) (b : FixedSizeBinaryBuilder) (dec : Decoder)
    (r : Decoded) (h : b.unmarshalOne g dec = .ok r) : ∀ c, r.err ≠ some (.format c) := by
  unfold FixedSizeBinaryBuilder.unmarshalOne at h
  cases hp : dec.pending with
  | nil =>
    simp only [Decoder.Token, hp] at h
    cases h
    intro c hc
    cases hc
  | cons lx rest =>
    cases lx with
    | malformed =>
      simp only [Decoder.Token, hp] at h
      cases h
      intro c hc
      cases hc
    | token t off =>
      simp only [Decoder.Token, hp] at h
      cases t with
      | delim c0 => cases h; intro c hc; cases hc
      | bool x => cases h; intro c hc; cases hc
      | number text => cases h; intro c hc; cases hc
      | string s =>
        simp only at h
        cases hd : RawStdEncoding.DecodeString s with
        | error off => simp only [hd] at h; cases h; intro c hc; cases hc
        | ok data =>
          simp only [hd] at h
          exact checkedAppend_noFormat g b _ data r h
      | bytes v => exact checkedAppend_noFormat g b _ v r h
      | null =>
        simp only at h
        cases ha : b.AppendNull g with
        | error q => simp only [ha] at h; cases h
        | ok b1 => simp only [ha] at h; cases h; intro c hc; cases hc

theorem unmarshalLoop_error (g : GrowthPolicy) (fuel : Nat) :
    ∀ (b : FixedSizeBinaryBuilder) (dec : Decoder) (p : Panicked),
    unmarshalLoop g fuel b dec = some (.error p) →
    p.kind = .NilDereference ∨ p.kind = .IndexOutOfRange := by
  induction fuel with
  | zero =>
    intro b dec p h
    unfold unmarshalLoop at h
    split at h <;> cases h
  | succ fuel ih =>
    intro b dec p h
    unfold unmarshalLoop at h
    split at h
    · cases ho : b.unmarshalOne g dec with
      | error q =>
        simp only [ho] at h
        cases h
        exact unmarshalOne_error g b dec p ho
      | ok r =>
        simp only [ho] at h
        split at h
        · cases h
        · exact ih _ _ p h
    · cases h

theorem unmarshalLoop_noFormat (g : GrowthPolicy) (fuel : Nat) :
    ∀ (b : FixedSizeBinaryBuilder) (dec : Decoder) (r : Decoded),
    unmarshalLoop g fuel b dec = some (.ok r) → ∀ c, r.err ≠ some (.format c) := by
  induction fuel with
  | zero =>
    intro b dec r h
    unfold unmarshalLoop at h
    split at h
    · cases h
    · cases h
      intro c hc
      cases hc
  | succ fuel ih =>
    intro b dec r h
    unfold unmarshalLoop at h
    split at h
    · cases ho : b.unmarshalOne g dec with
      | error q => simp only [ho] at h; cases h
      | ok r1 =>
        simp only [ho] at h
        split at h
        · cases h
          exact unmarshalOne_noFormat g b dec _ ho
        · exact ih _ _ r h
    · cases h
      intro c hc
      cases hc

/-! ## Decoding on a well-formed builder -/

theorem checkedAppend_wf (g : GrowthPolicy) (b : FixedSizeBinaryBuilder) (dec : Decoder)
    (val : List Nat) (h : WellFormed b) :
    ∃ r, checkedAppend g b dec val = .ok r ∧ WellFormed r.builder ∧
      r.builder.byteWidth = b.byteWidth ∧ r.dec = dec ∧
      (r.err = none → r.builder.length = b.length + 1) ∧
      (r.err ≠ none → r.builder = b ∧ consumedBy r.err = 1) := by
  unfold checkedAppend
  by_cases hw : val.length = b.byteWidth
  · obtain ⟨b1, e, wf, l, _, k, _⟩ := Append_spec g b val h hw
    simp only [ne_eq, hw, not_true_eq_false, if_false, e]
    exact ⟨_, rfl, wf, k.1, rfl, fun _ => l, fun hc => absurd rfl hc⟩
  · simp only [ne_eq, hw, not_false_eq_true, if_true]
    exact ⟨_, rfl, h, rfl, rfl, fun hc => (by cases hc), fun _ => ⟨rfl, rfl⟩⟩

theorem unmarshalOne_wf (g : GrowthPolicy) (b : FixedSizeBinaryBuilder) (dec : Decoder)
    (h : WellFormed b) :
    ∃ r, b.unmarshalOne g dec = .ok r ∧ WellFormed r.builder ∧
      r.builder.byteWidth = b.byteWidth ∧
      (r.err = none → r.builder.length = b.length + 1) ∧
      (r.err ≠ none → r.builder = b) ∧
      r.builder.length + r.dec.pending.length + consumedBy r.err
        = b.length + dec.pending.length := by
  unfold FixedSizeBinaryBuilder.unmarshalOne
  cases hp : dec.pending with
  | nil =>
    simp only [Decoder.Token, hp]
    exact ⟨_, rfl, h, rfl, fun hc => (by cases hc), fun _ => rfl, by simp [consumedBy, hp]⟩
  | cons lx rest =>
    cases lx with
    | malformed =>
      simp only [Decoder.Token, hp]
      exact ⟨_, rfl, h, rfl, fun hc => (by cases hc), fun _ => rfl, by simp [consumedBy, hp]⟩
    | token t off =>
      simp only [Decoder.Token, hp]
      have hchk : ∀ val, ∃ r, checkedAppend g b ⟨rest, off⟩ val = .ok r ∧
          WellFormed r.builder ∧ r.builder.byteWidth = b.byteWidth ∧
          (r.err = none → r.builder.length = b.length + 1) ∧
          (r.err ≠ none → r.builder = b) ∧
          r.builder.length + r.dec.pending.length + consumedBy r.err
            = b.length + (Lexeme.token t off :: rest).length := by
        intro val
        obtain ⟨r, e, wf, w, d, l, c⟩ := checkedAppend_wf g b ⟨rest, off⟩ val h
        refine ⟨r, e, wf, w, l, fun hc => (c hc).1, ?_⟩
        rw [d]
        by_cases hn : r.err = none
        · rw [l hn, hn]
          simp [consumedBy]
          omega
        · rw [(c hn).1, (c hn).2]
          simp only [List.length_cons]
          omega
      cases t with
      | delim c0 =>
        exact ⟨_, rfl, h, rfl, fun hc => (by cases hc), fun _ => rfl, by simp [consumedBy]; omega⟩
      | bool x =>
        exact ⟨_, rfl, h, rfl, fun hc => (by cases hc), fun _ => rfl, by simp [consumedBy]; omega⟩
      | number text =>
        exact ⟨_, rfl, h, rfl, fun hc => (by cases hc), fun _ => rfl, by simp [consumedBy]; omega⟩
      | string s =>
        simp only
        cases hd : RawStdEncoding.DecodeString s with
        | error o1 =>
          exact ⟨_, rfl, h, rfl, fun hc => (by cases hc), fun _ => rfl, by simp [consumedBy]; omega⟩
        | ok data => exact hchk data
      | bytes v => exact hchk v
      | null =>
        simp only
        obtain ⟨b1, e, wf, l, _, k, _⟩ := AppendNull_spec g b h
        rw [e]
        refine ⟨_, rfl, wf, k.1, fun _ => l, fun hc => absurd rfl hc, ?_⟩
        simp [consumedBy, l]
        omega

/-- On a well-formed builder the decoding loop ends without a panic as soon as the
bound covers the pending tokens; every token read has added one element, except the
one an error result stopped at. -/
theorem unmarshalLoop_wf (g : GrowthPolicy) (fuel : Nat) :
    ∀ (b : FixedSizeBinaryBuilder) (dec : Decoder), WellFormed b →
    dec.pending.length ≤ fuel →
    ∃ r, unmarshalLoop g fuel b dec = some (.ok r) ∧ WellFormed r.builder ∧
      r.builder.byteWidth = b.byteWidth ∧
      r.builder.length + r.dec.pending.length + consumedBy r.err
        = b.length + dec.pending.length := by
  induction fuel with
  | zero =>
    intro b dec h hf
    have hp : dec.pending = [] := List.length_eq_zero.mp (by omega)
    have hm : dec.More = false := by simp [Decoder.More, hp]
    unfold unmarshalLoop
    simp only [hm]
    exact ⟨_, rfl, h, rfl, by simp [consumedBy]⟩
  | succ fuel ih =>
    intro b dec h hf
    unfold unmarshalLoop
    by_cases hm : dec.More = true
    · obtain ⟨r1, e1, wf1, w1, l1, _, c1⟩ := unmarshalOne_wf g b dec h
      simp only [hm, if_true, e1]
      by_cases hs : r1.err.isSome = true
      · simp only [hs, if_true]
        exact ⟨r1, rfl, wf1, w1, c1⟩
      · have hn : r1.err = none := by
          cases he : r1.err with
          | none => rfl
          | some e => rw [he] at hs; exact absurd rfl hs
        simp only [hs]
        have hl := l1 hn
        rw [hn] at c1
        simp only [consumedBy, Nat.add_zero] at c1
        obtain ⟨r, e, wf, w, c⟩ := ih r1.builder r1.dec wf1 (by omega)
        exact ⟨r, e, wf, w.trans w1, by omega⟩
    · simp only [hm]
      exact ⟨_, rfl, h, rfl, by simp [consumedBy]⟩

/-- Reading one token that stands for an item of the right width appends that item. -/
theorem unmarshalOne_item (g : GrowthPolicy) (b : FixedSizeBinaryBuilder) (t : Token)
    (off o : Nat) (rest : List Lexeme) (x : Option (List Nat)) (h : WellFormed b)
    (hx : t.item = some x) (hw : ∀ v, x = some v → v.length = b.byteWidth) :
    ∃ b1, (∀ items, appendAll g b (x :: items) = appendAll g b1 items) ∧
      WellFormed b1 ∧ b1.byteWidth = b.byteWidth ∧ b1.length = b.length + 1 ∧
      b.unmarshalOne g ⟨.token t off :: rest, o⟩ = .ok ⟨b1, ⟨rest, off⟩, none⟩ ∧
      Decoder.More ⟨.token t off :: rest, o⟩ = true := by
  have happ : ∀ v, x = some v → ∃ b1,
      (∀ items, appendAll g b (x :: items) = appendAll g b1 items) ∧
      WellFormed b1 ∧ b1.byteWidth = b.byteWidth ∧ b1.length = b.length + 1 ∧
      checkedAppend g b ⟨rest, off⟩ v = .ok ⟨b1, ⟨rest, off⟩, none⟩ := by
    intro v hv
    subst hv
    have hwv := hw v rfl
    obtain ⟨b1, e, wf, l, _, k, _⟩ := Append_spec g b v h hwv
    refine ⟨b1, fun items => by simp only [appendAll, e], wf, k.1, l, ?_⟩
    simp only [checkedAppend, ne_eq, hwv, not_true_eq_false, if_false, e]
  cases t with
  | delim c => cases hx
  | bool y => cases hx
  | number text => cases hx
  | null =>
    simp only [Token.item, Option.some.injEq] at hx
    subst hx
    obtain ⟨b1, e, wf, l, _, k, _⟩ := AppendNull_spec g b h
    refine ⟨b1, fun items => by simp only [appendAll, e], wf, k.1, l, ?_, rfl⟩
    simp only [FixedSizeBinaryBuilder.unmarshalOne, Decoder.Token, e]
  | bytes v =>
    simp only [Token.item, Option.some.injEq] at hx
    obtain ⟨b1, a1, wf, w, l, e⟩ := happ v hx.symm
    exact ⟨b1, a1, wf, w, l, by
      simp only [FixedSizeBinaryBuilder.unmarshalOne, Decoder.Token]
      exact e, rfl⟩
  | string s =>
    simp only [Token.item] at hx
    cases hd : RawStdEncoding.DecodeString s with
    | error o1 => rw [hd] at hx; cases hx
    | ok data =>
      rw [hd] at hx
      simp only [Option.some.injEq] at hx
      obtain ⟨b1, a1, wf, w, l, e⟩ := happ data hx.symm
      exact ⟨b1, a1, wf, w, l, by
        simp only [FixedSizeBinaryBuilder.unmarshalOne, Decoder.Token, hd]
        exact e, rfl⟩

/-- Reading a run of tokens that stand for items of the right width is appending
those items one after the other. -/
theorem unmarshalLoop_items (g : GrowthPolicy) (goods : List (Token × Nat)) :
    ∀ (b : FixedSizeBinaryBuilder) (o fuel : Nat) (tail : List Lexeme), WellFormed b →
    (∀ p, p ∈ goods → ∃ x, p.1.item = some x ∧ ∀ v, x = some v → v.length = b.byteWidth) →
    ∃ bk, appendAll g b (goods.filterMap (fun p => p.1.item)) = .ok bk ∧
      WellFormed bk ∧ bk.byteWidth = b.byteWidth ∧ bk.length = b.length + goods.length ∧
      unmarshalLoop g (goods.length + fuel) b ⟨lexemesOf goods ++ tail, o⟩
        = unmarshalLoop g fuel bk ⟨tail, lastOffset o goods⟩ := by
  induction goods with
  | nil =>
    intro b o fuel tail h _
    refine ⟨b, rfl, h, rfl, rfl, ?_⟩
    simp [lexemesOf, lastOffset]
  | cons p ps ih =>
    intro b o fuel tail h hg
    obtain ⟨x, hx, hwx⟩ := hg p (List.mem_cons_self _ _)
    obtain ⟨b1, a1, wf1, w1, l1, e1, m1⟩ :=
      unmarshalOne_item g b p.1 p.2 o (lexemesOf ps ++ tail) x h hx hwx
    obtain ⟨bk, ak, wfk, wk, lk, ek⟩ := ih b1 p.2 fuel tail wf1 (fun q hq => by
      rw [w1]; exact hg q (List.mem_cons_of_mem _ hq))
    refine ⟨bk, ?_, wfk, wk.trans w1, ?_, ?_⟩
    · simp only [List.filterMap_cons, hx]
      rw [a1]
      exact ak
    · simp only [List.length_cons]
      omega
    · have hfuel : (p :: ps).length + fuel = (ps.length + fuel) + 1 := by
        simp only [List.length_cons]; omega
      have hlex : lexemesOf (p :: ps) ++ tail
          = Lexeme.token p.1 p.2 :: (lexemesOf ps ++ tail) := by
        simp [lexemesOf]
      rw [hfuel, hlex, unmarshalLoop, m1]
      simp only [if_true, e1, Option.isSome_none, Bool.false_eq_true, if_false]
      exact ek

/-! ## Claims on Release and on the text decoder -/

/-- C15: with reference count `r > 0`, Release leaves the count at `r - 1`; exactly
when `r - 1 = 0` the presence storage and the value buffer are cleared to nil, and
they are untouched when `r - 1 > 0`; nothing else changes.  With `r = 0` Release
panics (DoubleRelease) and the count is not decremented. -/
theorem release_counts (b : FixedSizeBinaryBuilder) :
    (0 < b.refCount → ∃ b1, b.Release = .ok b1 ∧ b1.refCount = b.refCount - 1 ∧
      (b.refCount - 1 = 0 → b1.nullBitmap = none ∧ b1.values = none) ∧
      (0 < b.refCount - 1 → b1.nullBitmap = b.nullBitmap ∧ b1.values = b.values) ∧
      b1.length = b.length ∧ b1.nulls = b.nulls ∧ b1.capacity = b.capacity ∧
      b1.byteWidth = b.byteWidth) ∧
    (b.refCount = 0 → b.Release = .error ⟨.DoubleRelease, b⟩) := by
  refine ⟨fun hpos => ?_, fun hz => ?_⟩
  · have hd : decide (b.refCount > 0) = true := decide_eq_true hpos
    simp only [FixedSizeBinaryBuilder.Release, debug.Assert, hd, if_true]
    by_cases h1 : b.refCount - 1 = 0
    · simp only [h1, if_true]
      refine ⟨_, rfl, ?_, fun _ => ⟨?_, ?_⟩, fun hc => by omega, ?_, ?_, ?_, ?_⟩
      all_goals (cases hnb : b.nullBitmap <;> cases hv : b.values <;> simp [hnb, hv, h1])
    · simp only [h1, if_false]
      exact ⟨_, rfl, rfl, fun hc => hc.elim, fun _ => ⟨rfl, rfl⟩, rfl, rfl, rfl, rfl⟩
  · have hd : decide (b.refCount > 0) = false := decide_eq_false (by omega)
    simp only [FixedSizeBinaryBuilder.Release, debug.Assert, hd]
    rfl

theorem item_itemToken (x : Option (List Nat))
    (h : ∀ v, x = some v → ∀ y, y ∈ v → y < 256) : (itemToken x).item = some x := by
  cases x with
  | none => rfl
  | some v =>
    simp only [itemToken, Token.item, DecodeString_encodeRaw v (h v rfl)]

theorem filterMap_item_entries (entries : List (Option (List Nat) × Nat))
    (h : ∀ v, some v ∈ entries.map Prod.fst → ∀ y, y ∈ v → y < 256) :
    (entries.map (fun e => (itemToken e.1, e.2))).filterMap (fun p => p.1.item)
      = entries.map Prod.fst := by
  induction entries with
  | nil => rfl
  | cons e es ih =>
    have he : (itemToken e.1).item = some e.1 :=
      item_itemToken e.1 (fun v hv => h v (by simp [hv]))
    simp only [List.map_cons, List.filterMap_cons, he]
    rw [ih (fun v hv => h v (by
      simp only [List.map_cons, List.mem_cons]
      exact Or.inr hv))]

/-- C16 (counterexample): width 1, the text `["AQ=="]`, where `AQ==` is the standard
padded base64 string of the byte 1.  The decoder reads unpadded base64, so the
padding character is corrupt input: an error is returned and nothing is appended. -/
theorem padded_base64_is_rejected :
    encodeStd [1] = [65, 81, 61, 61] ∧
    (NewFixedSizeBinaryBuilder 1).UnmarshalJSON exactFit
        ⟨[.token (.delim '[') 1, .token (.string (encodeStd [1])) 7, .token (.delim ']') 8], 0⟩
      = some (.ok ⟨NewFixedSizeBinaryBuilder 1, ⟨[.token (.delim ']') 8], 7⟩,
          some (.corruptInput 2)⟩) :=
  ⟨rfl, rfl⟩

/-- C16 (amended): for every width `W` and every sequence of items, each a value of `W`
bytes or null, decoding into a fresh builder of width `W` the array text whose entries
are the unpadded standard base64 strings of the values and the literal null returns no
error and leaves the builder holding exactly the sequence: its length, its null count
(the number of nulls), and element `i` valid with the bytes of item `i`, or null. -/
theorem text_round_trip (g : GrowthPolicy) (W : Nat)
    (entries : List (Option (List Nat) × Nat)) (o0 oc : Nat)
    (hw : ∀ v, some v ∈ entries.map Prod.fst → v.length = W)
    (hbyte : ∀ v, some v ∈ entries.map Prod.fst → ∀ y, y ∈ v → y < 256) :
    ∃ r, (NewFixedSizeBinaryBuilder W).UnmarshalJSON g
        ⟨.token (.delim '[') o0 ::
          (lexemesOf (entries.map (fun e => (itemToken e.1, e.2))) ++
            [.token (.delim ']') oc]), 0⟩ = some (.ok r) ∧
      r.err = none ∧ r.builder.length = entries.length ∧
      r.builder.nulls = (entries.map Prod.fst).countP Option.isNone ∧
      ∀ i, (∀ v, (entries.map Prod.fst)[i]? = some (some v) →
              r.builder.validAt i = true ∧ r.builder.bytesAt i = v) ∧
           ((entries.map Prod.fst)[i]? = some none → r.builder.validAt i = false) := by
  have hitems := filterMap_item_entries entries hbyte
  obtain ⟨bk, ak, _, _, _, ek⟩ := unmarshalLoop_items g
    (entries.map (fun e => (itemToken e.1, e.2))) (NewFixedSizeBinaryBuilder W) o0 1
    [.token (.delim ']') oc] (wellFormed_new W) (fun p hp => by
      obtain ⟨e, he, rfl⟩ := List.mem_map.mp hp
      refine ⟨e.1, item_itemToken e.1 (fun v hv => hbyte v (by
        rw [← hv]; exact List.mem_map.mpr ⟨e, he, rfl⟩)), fun v hv => hw v (by
        rw [← hv]; exact List.mem_map.mpr ⟨e, he, rfl⟩)⟩)
  rw [hitems] at ak
  obtain ⟨b2, e2, _, l2, n2, _, el2⟩ := appendAll_spec g (entries.map Prod.fst)
    (NewFixedSizeBinaryBuilder W) (wellFormed_new W) hw
  rw [ak] at e2
  cases e2
  refine ⟨⟨bk, ⟨[.token (.delim ']') oc],
    lastOffset o0 (entries.map (fun e => (itemToken e.1, e.2)))⟩, none⟩, ?_, rfl, ?_, ?_,
    fun i => ?_⟩
  · simp only [FixedSizeBinaryBuilder.UnmarshalJSON, Decoder.Token, ne_eq, not_true_eq_false,
      if_false, FixedSizeBinaryBuilder.unmarshal, List.length_append, List.length_singleton]
    rw [show (lexemesOf (entries.map (fun e => (itemToken e.1, e.2)))).length
        = (entries.map (fun e => (itemToken e.1, e.2))).length by simp [lexemesOf], ek]
    rfl
  · simpa [NewFixedSizeBinaryBuilder] using l2
  · simpa [NewFixedSizeBinaryBuilder] using n2
  · simpa [NewFixedSizeBinaryBuilder] using el2 i

/-- C17: on a well-formed builder of width `W`, when the stream holds tokens that each
stand for a null or for a value of exactly `W` bytes, followed by a string or byte
sequence token that decodes to a length other than `W`, decoding returns (without
panic) the UnmarshalTypeError carrying the offending value, the width `W` and the
offset of that token; the tokens after it are left unread, and the builder holds the
earlier elements, appended in order, and nothing more. -/
theorem shape_error_stops_decoding (g : GrowthPolicy) (b : FixedSizeBinaryBuilder)
    (goods : List (Token × Nat)) (bad : Token) (val : List Nat) (ob o : Nat)
    (rest : List Lexeme) (h : WellFormed b)
    (hgood : ∀ p, p ∈ goods →
      ∃ x, p.1.item = some x ∧ ∀ v, x = some v → v.length = b.byteWidth)
    (hbad : bad.item = some (some val)) (hlen : val.length ≠ b.byteWidth) :
    ∃ bj, appendAll g b (goods.filterMap (fun p => p.1.item)) = .ok bj ∧
      bj.length = b.length + goods.length ∧
      b.unmarshal g ⟨lexemesOf goods ++ .token bad ob :: rest, o⟩
        = some (.ok ⟨bj, ⟨rest, ob⟩,
            some (.unmarshalType ⟨.value val, ob, b.byteWidth⟩)⟩) := by
  obtain ⟨bj, aj, wfj, wj, lj, ej⟩ := unmarshalLoop_items g goods b o (rest.length + 1)
    (.token bad ob :: rest) h hgood
  refine ⟨bj, aj, lj, ?_⟩
  have hfuel : (lexemesOf goods ++ Lexeme.token bad ob :: rest).length
      = goods.length + (rest.length + 1) := by
    simp [lexemesOf]
  simp only [FixedSizeBinaryBuilder.unmarshal, hfuel]
  rw [ej, unmarshalLoop]
  have hone : bj.unmarshalOne g ⟨.token bad ob :: rest, lastOffset o goods⟩
      = .ok ⟨bj, ⟨rest, ob⟩, some (.unmarshalType ⟨.value val, ob, b.byteWidth⟩)⟩ := by
    have hchk : checkedAppend g bj ⟨rest, ob⟩ val
        = .ok ⟨bj, ⟨rest, ob⟩, some (.unmarshalType ⟨.value val, ob, b.byteWidth⟩)⟩ := by
      have : val.length ≠ bj.byteWidth := by rw [wj]; exact hlen
      unfold checkedAppend
      rw [if_pos this, wj]
      rfl
    cases bad with
    | delim c => cases hbad
    | bool y => cases hbad
    | number text => cases hbad
    | null => cases hbad
    | bytes v =>
      simp only [Token.item, Option.some.injEq] at hbad
      subst hbad
      simp only [FixedSizeBinaryBuilder.unmarshalOne, Decoder.Token]
      exact hchk
    | string s =>
      simp only [Token.item] at hbad
      cases hd : RawStdEncoding.DecodeString s with
      | error o1 => rw [hd] at hbad; cases hbad
      | ok data =>
        rw [hd] at hbad
        simp only [Option.some.injEq] at hbad
        subst hbad
        simp only [FixedSizeBinaryBuilder.unmarshalOne, Decoder.Token, hd]
        exact hchk
  have hmore : Decoder.More ⟨.token bad ob :: rest, lastOffset o goods⟩ = true := by
    cases bad with
    | delim c => cases hbad
    | bool y => rfl
    | number text => rfl
    | null => rfl
    | bytes v => rfl
    | string s => rfl
  simp only [hmore, if_true, hone, Option.isSome_some]

/-- C18: when the first token of the input exists and is not the array-open delimiter,
UnmarshalJSON returns the FormatError and the builder is unchanged; when the first
token is the array-open delimiter, the result is never that FormatError. -/
theorem unmarshalJSON_requires_array (g : GrowthPolicy) (b : FixedSizeBinaryBuilder)
    (dec dec1 : Decoder) (t : Token) (ht : dec.Token = .ok (t, dec1)) :
    (t ≠ .delim '[' →
      ∃ c, b.UnmarshalJSON g dec = some (.ok ⟨b, dec1, some (.format c)⟩)) ∧
    (t = .delim '[' →
      ∀ r c, b.UnmarshalJSON g dec = some (.ok r) → r.err ≠ some (.format c)) := by
  refine ⟨fun hne => ?_, fun heq r c hr => ?_⟩
  · unfold FixedSizeBinaryBuilder.UnmarshalJSON
    rw [ht]
    cases t with
    | delim c0 =>
      have : c0 ≠ '[' := fun hc => hne (by rw [hc])
      exact ⟨c0, by simp only [ne_eq, this, not_false_eq_true, if_true]⟩
    | bool x => exact ⟨_, rfl⟩
    | number text => exact ⟨_, rfl⟩
    | string s => exact ⟨_, rfl⟩
    | bytes v => exact ⟨_, rfl⟩
    | null => exact ⟨_, rfl⟩
  · subst heq
    unfold FixedSizeBinaryBuilder.UnmarshalJSON at hr
    rw [ht] at hr
    simp only [ne_eq, not_true_eq_false, if_false, FixedSizeBinaryBuilder.unmarshal] at hr
    exact unmarshalLoop_noFormat g _ b dec1 r hr c

/-- C20: on a well-formed builder, UnmarshalJSON on any token stream returns (nil or
an ordinary error) and never panics; one decoding step either appends exactly one
element (nil error) or leaves the builder as it was (error result), and when
UnmarshalJSON returns nil every token after the opening delimiter that was read has
added one element.  On any builder at all, UnmarshalJSON never panics with
InvalidWidth, since Append is only reached behind the width check. -/
theorem decoder_never_hits_invalid_width (g : GrowthPolicy) (b : FixedSizeBinaryBuilder)
    (h : WellFormed b) :
    (∀ dec, ∃ r, b.UnmarshalJSON g dec = some (.ok r) ∧
      (r.err = none →
        r.builder.length + r.dec.pending.length + 1 = b.length + dec.pending.length)) ∧
    (∀ dec, ∃ r, b.unmarshalOne g dec = .ok r ∧
      (r.err = none → r.builder.length = b.length + 1) ∧ (r.err ≠ none → r.builder = b)) ∧
    (∀ (b0 : FixedSizeBinaryBuilder) dec p,
      b0.UnmarshalJSON g dec = some (.error p) → p.kind ≠ .InvalidWidth) := by
  refine ⟨fun dec => ?_, fun dec => ?_, fun b0 dec p hp => ?_⟩
  · unfold FixedSizeBinaryBuilder.UnmarshalJSON
    cases hpd : dec.pending with
    | nil =>
      simp only [Decoder.Token, hpd]
      exact ⟨_, rfl, fun hc => by cases hc⟩
    | cons lx rest =>
      cases lx with
      | malformed =>
        simp only [Decoder.Token, hpd]
        exact ⟨_, rfl, fun hc => by cases hc⟩
      | token t off =>
        simp only [Decoder.Token, hpd]
        cases t with
        | delim c0 =>
          by_cases hc0 : c0 = '['
          · subst hc0
            simp only [ne_eq, not_true_eq_false, if_false, FixedSizeBinaryBuilder.unmarshal]
            obtain ⟨r, e, _, _, c⟩ := unmarshalLoop_wf g rest.length b ⟨rest, off⟩ h
              (Nat.le_refl _)
            refine ⟨r, e, fun hn => ?_⟩
            rw [hn] at c
            simp only [consumedBy, Nat.add_zero, List.length_cons] at c ⊢
            omega
          · simp only [ne_eq, hc0, not_false_eq_true, if_true]
            exact ⟨_, rfl, fun hc => by cases hc⟩
        | bool x => exact ⟨_, rfl, fun hc => by cases hc⟩
        | number text => exact ⟨_, rfl, fun hc => by cases hc⟩
        | string s => exact ⟨_, rfl, fun hc => by cases hc⟩
        | bytes v => exact ⟨_, rfl, fun hc => by cases hc⟩
        | null => exact ⟨_, rfl, fun hc => by cases hc⟩
  · obtain ⟨r, e, _, _, l, c, _⟩ := unmarshalOne_wf g b dec h
    exact ⟨r, e, l, c⟩
  · have hk : p.kind = .NilDereference ∨ p.kind = .IndexOutOfRange := by
      unfold FixedSizeBinaryBuilder.UnmarshalJSON at hp
      cases ht : dec.Token with
      | error e => simp only [ht] at hp; cases hp
      | ok r =>
        obtain ⟨t, dec1⟩ := r
        simp only [ht] at hp
        cases t with
        | delim c0 =>
          simp only at hp
          split at hp
          · cases hp
          · exact unmarshalLoop_error g _ b0 dec1 p hp
        | bool x => cases hp
        | number text => cases hp
        | string s => cases hp
        | bytes v => cases hp
        | null => cases hp
    rcases hk with hk | hk <;> rw [hk] <;> exact fun hc => by cases hc

/-- Witness for C15: the last reference of a builder holding two elements. -/
theorem release_counts_witness :
    0 < twoElements.refCount ∧
    ∃ b1, twoElements.Release = .ok b1 ∧ b1.refCount = twoElements.refCount - 1 ∧
      (twoElements.refCount - 1 = 0 → b1.nullBitmap = none ∧ b1.values = none) ∧
      (0 < twoElements.refCount - 1 →
        b1.nullBitmap = twoElements.nullBitmap ∧ b1.values = twoElements.values) ∧
      b1.length = twoElements.length ∧ b1.nulls = twoElements.nulls ∧
      b1.capacity = twoElements.capacity ∧ b1.byteWidth = twoElements.byteWidth :=
  ⟨by decide, (release_counts twoElements).1 (by decide)⟩

/-- Witness for C16 (amended): width 3, the text `["AQID", null, "BAUG"]`. -/
theorem text_round_trip_witness :
    (∀ v, some v ∈ [(some [1, 2, 3], 7), (none, 13), (some [4, 5, 6], 21)].map Prod.fst →
      v.length = 3) ∧
    (∀ v, some v ∈ [(some [1, 2, 3], 7), (none, 13), (some [4, 5, 6], 21)].map Prod.fst →
      ∀ y, y ∈ v → y < 256) ∧
    ∃ r, (NewFixedSizeBinaryBuilder 3).UnmarshalJSON doubling
        ⟨[.token (.delim '[') 1, .token (.string [65, 81, 73, 68]) 7, .token .null 13,
          .token (.string [66, 65, 85, 71]) 21, .token (.delim ']') 22], 0⟩ = some (.ok r) ∧
      r.err = none ∧ r.builder.length = 3 ∧ r.builder.nulls = 1 ∧
      ∀ i, (∀ v, [some [1, 2, 3], none, some [4, 5, 6]][i]? = some (some v) →
              r.builder.validAt i = true ∧ r.builder.bytesAt i = v) ∧
           ([some [1, 2, 3], none, some [4, 5, 6]][i]? = some none →
              r.builder.validAt i = false) :=
  have hw : ∀ v, some v ∈
      [(some [1, 2, 3], 7), (none, 13), (some [4, 5, 6], 21)].map Prod.fst → v.length = 3 := by
    intro v hv
    simp only [List.map_cons, List.map_nil, List.mem_cons, Option.some.injEq,
      List.mem_singleton] at hv
    rcases hv with rfl | hv | rfl | hv
    · rfl
    · cases hv
    · rfl
    · cases hv
  have hbyte : ∀ v, some v ∈
      [(some [1, 2, 3], 7), (none, 13), (some [4, 5, 6], 21)].map Prod.fst →
      ∀ y, y ∈ v → y < 256 := by
    intro v hv y hy
    simp only [List.map_cons, List.map_nil, List.mem_cons, Option.some.injEq,
      List.mem_singleton] at hv
    rcases hv with rfl | hv | rfl | hv
    · simp only [List.mem_cons, List.mem_singleton] at hy
      rcases hy with rfl | rfl | rfl | hy
      · decide
      · decide
      · decide
      · cases hy
    · cases hv
    · simp only [List.mem_cons, List.mem_singleton] at hy
      rcases hy with rfl | rfl | rfl | hy
      · decide
      · decide
      · decide
      · cases hy
    · cases hv
  ⟨hw, hbyte, text_round_trip doubling 3
    [(some [1, 2, 3], 7), (none, 13), (some [4, 5, 6], 21)] 1 22 hw hbyte⟩

/-- Witness for C17: width 3, the elements `"AQID", null, "AQI", "BAUG"`, where `AQI`
decodes to the two bytes `[1,2]`. -/
theorem shape_error_stops_decoding_witness :
    WellFormed (NewFixedSizeBinaryBuilder 3) ∧
    (∀ p, p ∈ [(Token.string [65, 81, 73, 68], 7), (Token.null, 13)] →
      ∃ x, p.1.item = some x ∧
        ∀ v, x = some v → v.length = (NewFixedSizeBinaryBuilder 3).byteWidth) ∧
    (Token.string [65, 81, 73]).item = some (some [1, 2]) ∧
    ([1, 2] : List Nat).length ≠ (NewFixedSizeBinaryBuilder 3).byteWidth ∧
    ∃ bj, appendAll exactFit (NewFixedSizeBinaryBuilder 3)
        ([(Token.string [65, 81, 73, 68], 7), (Token.null, 13)].filterMap
          (fun p => p.1.item)) = .ok bj ∧
      bj.length = (NewFixedSizeBinaryBuilder 3).length + 2 ∧
      (NewFixedSizeBinaryBuilder 3).unmarshal exactFit
          ⟨lexemesOf [(Token.string [65, 81, 73, 68], 7), (Token.null, 13)] ++
            .token (.string [65, 81, 73]) 19 ::
              [.token (.string [66, 65, 85, 71]) 27, .token (.delim ']') 28], 1⟩
        = some (.ok ⟨bj, ⟨[.token (.string [66, 65, 85, 71]) 27, .token (.delim ']') 28], 19⟩,
            some (.unmarshalType ⟨.value [1, 2], 19, 3⟩)⟩) :=
  have hgood : ∀ p, p ∈ [(Token.string [65, 81, 73, 68], 7), (Token.null, 13)] →
      ∃ x, p.1.item = some x ∧
        ∀ v, x = some v → v.length = (NewFixedSizeBinaryBuilder 3).byteWidth := by
    intro p hp
    simp only [List.mem_cons, List.mem_singleton] at hp
    rcases hp with rfl | rfl | hp
    · exact ⟨some [1, 2, 3], rfl, fun v hv => by cases hv; rfl⟩
    · exact ⟨none, rfl, fun v hv => by cases hv⟩
    · cases hp
  ⟨wellFormed_new 3, hgood, rfl, by decide,
    shape_error_stops_decoding exactFit (NewFixedSizeBinaryBuilder 3)
      [(Token.string [65, 81, 73, 68], 7), (Token.null, 13)] (.string [65, 81, 73]) [1, 2]
      19 1 [.token (.string [66, 65, 85, 71]) 27, .token (.delim ']') 28]
      (wellFormed_new 3) hgood rfl (by decide)⟩

/-- Witness for C18: an input that starts with an object-open delimiter. -/
theorem unmarshalJSON_requires_array_witness :
    Decoder.Token ⟨[.token (.delim '{') 1, .token (.delim '}') 2], 0⟩
      = .ok (.delim '{', ⟨[.token (.delim '}') 2], 1⟩) ∧
    ((Token.delim '{' ≠ .delim '[' →
      ∃ c, (NewFixedSizeBinaryBuilder 3).UnmarshalJSON doubling
          ⟨[.token (.delim '{') 1, .token (.delim '}') 2], 0⟩
        = some (.ok ⟨NewFixedSizeBinaryBuilder 3, ⟨[.token (.delim '}') 2], 1⟩,
            some (.format c)⟩)) ∧
    (Token.delim '{' = .delim '[' →
      ∀ r c, (NewFixedSizeBinaryBuilder 3).UnmarshalJSON doubling
          ⟨[.token (.delim '{') 1, .token (.delim '}') 2], 0⟩ = some (.ok r) →
        r.err ≠ some (.format c))) :=
  ⟨rfl, unmarshalJSON_requires_array doubling (NewFixedSizeBinaryBuilder 3)
    ⟨[.token (.delim '{') 1, .token (.delim '}') 2], 0⟩ ⟨[.token (.delim '}') 2], 1⟩
    (.delim '{') rfl⟩

/-- Witness for C20: a fresh builder of width 3. -/
theorem decoder_never_hits_invalid_width_witness :
    WellFormed (NewFixedSizeBinaryBuilder 3) ∧
    ((∀ dec, ∃ r, (NewFixedSizeBinaryBuilder 3).UnmarshalJSON doubling dec = some (.ok r) ∧
      (r.err = none →
        r.builder.length + r.dec.pending.length + 1
          = (NewFixedSizeBinaryBuilder 3).length + dec.pending.length)) ∧
    (∀ dec, ∃ r, (NewFixedSizeBinaryBuilder 3).unmarshalOne doubling dec = .ok r ∧
      (r.err = none → r.builder.length = (NewFixedSizeBinaryBuilder 3).length + 1) ∧
      (r.err ≠ none → r.builder = NewFixedSizeBinaryBuilder 3)) ∧
    (∀ (b0 : FixedSizeBinaryBuilder) dec p,
      b0.UnmarshalJSON doubling dec = some (.error p) → p.kind ≠ .InvalidWidth)) :=
  ⟨wellFormed_new 3,
    decoder_never_hits_invalid_width doubling (NewFixedSizeBinaryBuilder 3) (wellFormed_new 3)⟩

end FixedSizeBinary
